import Mathlib

/-!
Shallow embedding of the `odis` Formal Concept Analysis library.

Rust `BitSet` and `BTreeSet<usize>` values are modelled as `Finset ℕ`
(both are finite sets of small naturals iterated in ascending order;
set-level operations coincide).  Rust vectors are `List`s, and vector
indexing `v[i]` is modelled with `List.getD v i ∅`: the claims only ever
exercise in-range indices, where the two agree (out-of-range indexing
panics in Rust).
-/


/-! ## Definitions -/

namespace Odis

/-- Embedding of `FormalContext<T>` from `src/data_structures/formal_context.rs`. -/
structure FormalContext (T : Type) where
  objects : List T
  attributes : List T
  incidence : Finset (ℕ × ℕ)
  atomic_object_derivations : List (Finset ℕ)
  atomic_attribute_derivations : List (Finset ℕ)
deriving DecidableEq

namespace FormalContext

variable {T : Type}

/-- Embedding of `FormalContext::construct`: the two atomic-derivation vectors
are sized to `|G|` and `|M|` and populated by one pass over the incidence
(the pass inserts `m` into `A[g]` and `g` into `D[m]` for each `(g,m)`;
since inserts commute, the result is the set comprehension below whenever
every pair is in range — out of range the Rust code panics). -/
def construct (objects : List T) (attributes : List T)
    (incidence : Finset (ℕ × ℕ)) : FormalContext T where
  objects := objects
  attributes := attributes
  incidence := incidence
  atomic_object_derivations :=
    (List.range objects.length).map
      (fun g => (incidence.filter (fun p => p.1 = g)).image Prod.snd)
  atomic_attribute_derivations :=
    (List.range attributes.length).map
      (fun m => (incidence.filter (fun p => p.2 = m)).image Prod.fst)

/-- Embedding of `FormalContext::new`. -/
def new : FormalContext T := construct [] [] ∅

/-- Embedding of `FormalContext::index_attribute_derivation`.  The Rust code
matches on the size of the input: `0` gives all objects, otherwise it clones
the atomic derivation of the first (smallest) element and intersects the
remaining ones in ascending iteration order. -/
def index_attribute_derivation (c : FormalContext T) (attributes : Finset ℕ) :
    Finset ℕ :=
  match attributes.sort (· ≤ ·) with
  | [] => Finset.range c.objects.length
  | m :: rest =>
      rest.foldl (fun result n => result ∩ c.atomic_attribute_derivations.getD n ∅)
        (c.atomic_attribute_derivations.getD m ∅)

/-- Embedding of `FormalContext::index_object_derivation` (symmetric). -/
def index_object_derivation (c : FormalContext T) (objects : Finset ℕ) :
    Finset ℕ :=
  match objects.sort (· ≤ ·) with
  | [] => Finset.range c.attributes.length
  | g :: rest =>
      rest.foldl (fun result n => result ∩ c.atomic_object_derivations.getD n ∅)
        (c.atomic_object_derivations.getD g ∅)

/-- Embedding of `FormalContext::index_attribute_hull`. -/
def index_attribute_hull (c : FormalContext T) (attributes : Finset ℕ) : Finset ℕ :=
  c.index_object_derivation (c.index_attribute_derivation attributes)

/-- Embedding of `FormalContext::index_object_hull`. -/
def index_object_hull (c : FormalContext T) (objects : Finset ℕ) : Finset ℕ :=
  c.index_attribute_derivation (c.index_object_derivation objects)

/-- Embedding of `FormalContext::add_object`: push the object name, push an
empty row that then receives every attribute of the new object, and mirror
each pair into the incidence (as `(object_index, attribute)`) and into the
attribute columns.  `object_index` is the length before the push.
The Rust loop indexes `atomic_attribute_derivations[attribute]` and panics
out of range; in range it inserts `object_index`, which is the `mapIdx`
below. -/
def add_object (c : FormalContext T) (new_object : T) (attributes : Finset ℕ) :
    FormalContext T where
  objects := c.objects ++ [new_object]
  attributes := c.attributes
  incidence := c.incidence ∪ attributes.image (fun m => (c.objects.length, m))
  atomic_object_derivations := c.atomic_object_derivations ++ [attributes]
  atomic_attribute_derivations :=
    c.atomic_attribute_derivations.mapIdx
      (fun m D => if m ∈ attributes then insert c.objects.length D else D)

/-- Embedding of `FormalContext::add_attribute`.  Note the incidence insert
in the Rust source is `self.incidence.insert((attribute_index, object))` —
the new pairs are `(m, g)`, not `(g, m)`. -/
def add_attribute (c : FormalContext T) (new_attribute : T) (objects : Finset ℕ) :
    FormalContext T where
  objects := c.objects
  attributes := c.attributes ++ [new_attribute]
  incidence := c.incidence ∪ objects.image (fun g => (c.attributes.length, g))
  atomic_object_derivations :=
    c.atomic_object_derivations.mapIdx
      (fun g A => if g ∈ objects then insert c.attributes.length A else A)
  atomic_attribute_derivations := c.atomic_attribute_derivations ++ [objects]

end FormalContext

/-- Embedding of `FormatError` (the payloads of `IoError`/`ParseError` carry
the underlying Rust error values and are dropped here). -/
inductive FormatError : Type
  | IoError : FormatError
  | ParseError : FormatError
  | InvalidFormat : FormatError
deriving DecidableEq

namespace FormalContext

/-- Read exactly `n` lines, failing (`lines.next().ok_or(InvalidFormat)`)
when the input is exhausted first. -/
def readN : ℕ → List String → Option (List String × List String)
  | 0, ls => some ([], ls)
  | _ + 1, [] => none
  | n + 1, l :: rest =>
      match readN n rest with
      | none => none
      | some p => some (l :: p.1, p.2)

/-- Model of `str::parse::<usize>` for the two count lines: a non-empty
all-digit string parses to its decimal value, anything else is a parse
error (`None`).  (The Rust parser also accepts a leading `+` and rejects
values above `usize::MAX`; the claims only exercise plain digit strings.) -/
def parseNat? (s : String) : Option ℕ :=
  if s.data ≠ [] ∧ s.data.all (fun ch => ch.isDigit) then
    some (s.data.foldl (fun n ch => n * 10 + (ch.toNat - 48)) 0)
  else none

/-- Incidence pairs contributed by the row of object `g`: one pair `(g, m)`
for every column `m` holding `X` or `x` (`line.chars().enumerate()`); columns
beyond the end of the row simply contribute nothing. -/
def rowIncidence (g : ℕ) (row : String) : Finset (ℕ × ℕ) :=
  ((Finset.range row.data.length).filter
    (fun m => row.data.getD m 'o' = 'X' ∨ row.data.getD m 'o' = 'x')).image
    (fun m => (g, m))

/-- The incidence of the whole matrix block, row by row. -/
def incidenceOfRows (rows : List String) : Finset (ℕ × ℕ) :=
  rows.enum.foldl (fun acc p => acc ∪ rowIncidence p.1 p.2) ∅

/-- Embedding of `FormalContext::from`, after the byte buffer has been split
into lines (`contents.lines()`; the inner io/UTF-8 failure that would give
`IoError` is below the line model).  Integer parsing of the two count lines
is `parseNat?` standing for `str::parse::<usize>`. -/
def fromLines : List String → Except FormatError (FormalContext String)
  | l1 :: _l2 :: l3 :: l4 :: _l5 :: rest =>
      if l1 = "B" then
        match parseNat? l3 with
        | some object_count =>
            match parseNat? l4 with
            | some attribute_count =>
                match readN object_count rest with
                | some (objects, rest2) =>
                    match readN attribute_count rest2 with
                    | some (attributes, rest3) =>
                        match readN object_count rest3 with
                        | some (rows, _) =>
                            .ok (FormalContext.construct objects attributes
                              (incidenceOfRows rows))
                        | none => .error .InvalidFormat
                    | none => .error .InvalidFormat
                | none => .error .InvalidFormat
            | none => .error .ParseError
        | none => .error .ParseError
      else .error .InvalidFormat
  | _ => .error .InvalidFormat

/-- The three stored representations of the incidence agree and are in range:
this is the data-model invariant of spec §3. -/
def WellFormed (c : FormalContext T) : Prop :=
  c.atomic_object_derivations.length = c.objects.length ∧
  c.atomic_attribute_derivations.length = c.attributes.length ∧
  (∀ p ∈ c.incidence, p.1 < c.objects.length ∧ p.2 < c.attributes.length) ∧
  (∀ g < c.objects.length,
    c.atomic_object_derivations.getD g ∅ =
      (c.incidence.filter (fun p => p.1 = g)).image Prod.snd) ∧
  (∀ m < c.attributes.length,
    c.atomic_attribute_derivations.getD m ∅ =
      (c.incidence.filter (fun p => p.2 = m)).image Prod.fst)

instance (c : FormalContext T) : Decidable c.WellFormed := by
  unfold WellFormed; infer_instance

end FormalContext

/-! ### Lectic order on finite attribute sets, and its weight characterization -/

/-- `A ∩ [0, i)`, the part of a set strictly below an index. -/
def cut (A : Finset ℕ) (i : ℕ) : Finset ℕ := A.filter (· < i)

/-- `A` is lectically smaller than `B` at position `i`:
`i ∈ B \ A` and both sets agree strictly below `i`. -/
def LecticLtAt (i : ℕ) (A B : Finset ℕ) : Prop :=
  i ∈ B ∧ i ∉ A ∧ cut A i = cut B i

/-- The lectic (strict) order of spec §3: `A` precedes `B` iff the smallest
element of the symmetric difference lies in `B`. -/
def LecticLt (A B : Finset ℕ) : Prop := ∃ i, LecticLtAt i A B

/-- The lectic weight of spec §4.1: `weight(Y) = Σ_{m∈Y} 2^(|M|−m)`. -/
def weight (n : ℕ) (A : Finset ℕ) : ℕ := A.sum (fun m => 2 ^ (n - m))

/-! ### The generic NextClosure successor search

Both `next_concept` (src/algorithms/next_closure.rs) and `next_preclosure`
(src/algorithms/canonical_basis.rs) run the same loop: for `i` from `|M|−1`
down to `0`, skip (and drop from the working copy) the elements of the
current set, and otherwise close `A∩[0,i) ∪ {i}` and test that no attribute
below `i` was added.  At the iteration for `i` the Rust working copy equals
`A ∩ [0, i)`, which is how the loop is rendered recursively here. -/

/-- `f` is a closure operator on subsets of `[0, n)`. -/
structure ClosureOn (n : ℕ) (f : Finset ℕ → Finset ℕ) : Prop where
  le : ∀ A, A ⊆ Finset.range n → A ⊆ f A
  range_closed : ∀ A, A ⊆ Finset.range n → f A ⊆ Finset.range n
  mono : ∀ {A B}, A ⊆ Finset.range n → B ⊆ Finset.range n → A ⊆ B → f A ⊆ f B
  idem : ∀ A, A ⊆ Finset.range n → f (f A) = f A

/-- The shared descending search loop, with `i` counting the attribute
indices still to try (the loop body for index `i` runs at argument `i+1`). -/
def nextClosedAux (f : Finset ℕ → Finset ℕ) (A : Finset ℕ) : ℕ → Option (Finset ℕ)
  | 0 => none
  | i + 1 =>
      if i ∈ A then nextClosedAux f A i
      else
        let b := f (insert i (cut A i))
        if ∀ x ∈ b \ cut A i, i ≤ x then some b
        else nextClosedAux f A i

/-- `C` is lectically above `A` with a witness position strictly below `i`. -/
def HasWitnessLt (A C : Finset ℕ) (i : ℕ) : Prop := ∃ j, j < i ∧ LecticLtAt j A C

/-! ### NextClosure concept enumeration (src/algorithms/next_closure.rs) -/

variable {T : Type}

/-- Descending loop of `next_concept`: at the iteration for index `i` the
Rust working copy `a_new` equals `a ∩ [0, i)` (all elements `≥ i` of `a`
have been removed on the way down), so it is rendered as `cut a i`. -/
def nextConceptAux (c : FormalContext T) (a : Finset ℕ) :
    ℕ → Option (Finset ℕ × Finset ℕ)
  | 0 => none
  | i + 1 =>
      if i ∈ a then nextConceptAux c a i
      else
        let gs := c.index_attribute_derivation (insert i (cut a i))
        let b := c.index_object_derivation gs
        if ∀ x ∈ b \ cut a i, i ≤ x then some (gs, b)
        else nextConceptAux c a i

/-- Embedding of `next_concept` from src/algorithms/next_closure.rs. -/
def next_concept (c : FormalContext T) (a : Finset ℕ) :
    Option (Finset ℕ × Finset ℕ) :=
  nextConceptAux c a c.attributes.length

/-- The stepping loop of the `concepts` iterator: emit the current concept,
then step with `next_concept` until it signals exhaustion.  The iterator in
the Rust source is an unbounded `from_fn` loop; the fuel argument below only
bounds the recursion depth and is chosen (at the call site) strictly larger
than the strictly-increasing lectic chain the loop walks, so it never
reaches zero before `next_concept` returns `None`. -/
def conceptsAux (c : FormalContext T) :
    ℕ → (Finset ℕ × Finset ℕ) → List (Finset ℕ × Finset ℕ)
  | 0, cur => [cur]
  | fuel + 1, cur =>
      cur ::
        (match next_concept c cur.2 with
          | none => []
          | some nxt => conceptsAux c fuel nxt)

/-- Embedding of `concepts` from src/algorithms/next_closure.rs (the list of
all items the lazy iterator yields). -/
def concepts (c : FormalContext T) : List (Finset ℕ × Finset ℕ) :=
  let gs := c.index_attribute_derivation ∅
  let ms := c.index_object_derivation gs
  conceptsAux c (2 ^ (c.attributes.length + 1)) (gs, ms)

/-! ### Implication closure and the canonical basis (src/algorithms/canonical_basis.rs) -/

/-- Embedding of `is_smallest_num`: no element of `input_set` is strictly
below `min`. -/
def is_smallest_num (min : ℕ) (input_set : Finset ℕ) : Bool :=
  decide (∀ n ∈ input_set, min ≤ n)

/-- Embedding of `set_upto`: `{0, …, n}`. -/
def set_upto (n : ℕ) : Finset ℕ := Finset.range (n + 1)

/-- Embedding of `retain_eq_less`: the elements `≤ max`. -/
def retain_eq_less (max : ℕ) (input_set : Finset ℕ) : Finset ℕ :=
  input_set.filter (· ≤ max)

/-- Specification predicate: `S` is closed under every implication of `L`
(spec §4.4: no implication fires out of `S`). -/
def ImpClosed (L : List (Finset ℕ × Finset ℕ)) (S : Finset ℕ) : Prop :=
  ∀ pc ∈ L, pc.1 ⊆ S → pc.2 ⊆ S

/-- One full scan of `implication_closure`'s inner `for` loop: fire every
implication whose premise is contained in the (growing) output, and return
the retained (unfired) implications, the new output, and the `repeat` flag. -/
def impPass (L : List (Finset ℕ × Finset ℕ)) (output : Finset ℕ) :
    List (Finset ℕ × Finset ℕ) × Finset ℕ × Bool :=
  match L with
  | [] => ([], output, false)
  | (p, c) :: rest =>
      if p ⊆ output then
        let r := impPass rest (output ∪ c)
        (r.1, r.2.1, true)
      else
        let r := impPass rest output
        ((p, c) :: r.1, r.2.1, r.2.2)

/-- The outer `loop` of `implication_closure`.  Each round that repeats has
fired (and dropped) at least one implication, so `L.length + 1` rounds always
suffice; the fuel argument only bounds that recursion depth. -/
def impLoop : ℕ → List (Finset ℕ × Finset ℕ) → Finset ℕ → Finset ℕ
  | 0, _, output => output
  | fuel + 1, L, output =>
      let r := impPass L output
      if r.2.2 then impLoop fuel r.1 r.2.1 else r.2.1

/-- Embedding of `implication_closure` from src/algorithms/canonical_basis.rs. -/
def implication_closure (implications : List (Finset ℕ × Finset ℕ))
    (input : Finset ℕ) : Finset ℕ :=
  impLoop (implications.length + 1) implications input

/-- `HashMap::insert` on an association list with value-hashed keys,
modelled as a shadowing prepend: the Rust code only ever reads the map
through `get`, so only the latest binding per key is observable, and the
prepend realizes exactly that. -/
def hmInsert (m : List ((Finset ℕ × Finset ℕ) × ℤ)) (k : Finset ℕ × Finset ℕ)
    (v : ℤ) : List ((Finset ℕ × Finset ℕ) × ℤ) :=
  (k, v) :: m

/-- `HashMap::get` on the association list. -/
def hmLookup (m : List ((Finset ℕ × Finset ℕ) × ℤ)) (k : Finset ℕ × Finset ℕ) :
    Option ℤ :=
  (m.find? (fun e => e.1 == k)).map Prod.snd

/-- The `for entry in list.get(&m)` loop of `implication_closure_lin`:
decrement the counter of every implication whose premise contains the popped
attribute, and fire those whose counter reaches zero.  Counters are modelled
as `ℤ`: the Rust `usize` decrement of a zero counter underflows (debug
panic; in release it wraps to `2^64−1`, which like a negative `ℤ` never
again compares equal to `0`). -/
def linFire : List (Finset ℕ × Finset ℕ) →
    List ((Finset ℕ × Finset ℕ) × ℤ) → Finset ℕ → Finset ℕ →
    List ((Finset ℕ × Finset ℕ) × ℤ) × Finset ℕ × Finset ℕ
  | [], count, output, update => (count, output, update)
  | pc :: rest, count, output, update =>
      let newCount := (hmLookup count pc).getD 0 - 1
      let count2 := hmInsert count pc newCount
      if newCount = 0 then
        let add := pc.2 \ output
        linFire rest count2 (output ∪ add) (update ∪ add)
      else linFire rest count2 output update

/-- The `while update != empty_set` loop of `implication_closure_lin`:
pop the smallest queued attribute (`update.iter().next().unwrap()`) and
process its inverted-index entries.  One round consumes one attribute and
queues only attributes new to the output, so the fuel chosen at the call
site strictly bounds the number of rounds. -/
def linLoop (byAttr : ℕ → List (Finset ℕ × Finset ℕ)) :
    ℕ → List ((Finset ℕ × Finset ℕ) × ℤ) → Finset ℕ → Finset ℕ → Finset ℕ
  | 0, _, output, _ => output
  | fuel + 1, count, output, update =>
      match update.min with
      | none => output
      | some m =>
          let r := linFire (byAttr m) count output (update.erase m)
          linLoop byAttr fuel r.1 r.2.1 r.2.2

/-- Embedding of `implication_closure_lin` from
src/algorithms/canonical_basis.rs: initialize the counter map (`HashMap`
keyed by the implication value: duplicate implications collapse to one
entry), fire the empty-premise implications, build the inverted index
`byAttr` (one entry per occurrence), and run the worklist loop. -/
def implication_closure_lin (implications : List (Finset ℕ × Finset ℕ))
    (input : Finset ℕ) : Finset ℕ :=
  let count0 := implications.foldl (fun m pc => hmInsert m pc (pc.1.card : ℤ)) []
  let output0 := implications.foldl
    (fun out pc => if pc.1.card = 0 then out ∪ pc.2 else out) input
  let byAttr := fun a => implications.filter (fun pc => a ∈ pc.1)
  let allAttrs := implications.foldl (fun s pc => s ∪ pc.2) input
  linLoop byAttr (2 * allAttrs.card + 2) count0 output0 output0

/-- Descending loop of `next_preclosure`: at the iteration for index `m` the
Rust `temp_set` equals `input ∩ [0, m)` with `m` inserted just before the
closure is taken, so the closure argument is `insert m (cut input m)`. -/
def nextPreclosureAux (implications : List (Finset ℕ × Finset ℕ))
    (input : Finset ℕ) : ℕ → Option (Finset ℕ)
  | 0 => none
  | m + 1 =>
      if m ∈ input then nextPreclosureAux implications input m
      else
        let t := insert m (cut input m)
        let output := implication_closure implications t
        if is_smallest_num m (output \ t) then some output
        else nextPreclosureAux implications input m

/-- Embedding of `next_preclosure`: the descending search, falling back to
the full attribute set `(0..len).collect()` when no index qualifies. -/
def next_preclosure {T : Type} (c : FormalContext T)
    (implications : List (Finset ℕ × Finset ℕ)) (input : Finset ℕ) : Finset ℕ :=
  (nextPreclosureAux implications input c.attributes.length).getD
    (Finset.range c.attributes.length)

/-- The `while` loop of `canonical_basis`: while the preclosure has not
reached the full attribute set, record `(Z, Z″)` whenever `Z ≠ Z″` and step
to the next preclosure.  The preclosure strictly increases lectically each
round, so `2^(|M|+1)` rounds always suffice; fuel only bounds the depth. -/
def canonicalBasisLoop {T : Type} (c : FormalContext T) :
    ℕ → Finset ℕ → List (Finset ℕ × Finset ℕ) → List (Finset ℕ × Finset ℕ)
  | 0, _, implications => implications
  | fuel + 1, temp_set, implications =>
      if temp_set = set_upto (c.attributes.length - 1) then implications
      else
        let temp_set_hull := c.index_attribute_hull temp_set
        let implications2 :=
          if temp_set ≠ temp_set_hull then implications ++ [(temp_set, temp_set_hull)]
          else implications
        canonicalBasisLoop c fuel (next_preclosure c implications2 temp_set)
          implications2

/-- Embedding of `canonical_basis` for a context with at least one attribute
(where `set_upto(len − 1)` is the full attribute set `[0, len)`).  With zero
attributes the Rust expression `context.attributes.len() - 1` underflows
`usize` (a panic in debug builds; in release the wrapped value makes
`set_upto` try to build `{0, …, 2^64 − 1}`), so no plain value is returned;
that case is modelled by `canonical_basis?` below. -/
def canonical_basis {T : Type} (c : FormalContext T) :
    List (Finset ℕ × Finset ℕ) :=
  canonicalBasisLoop c (2 ^ (c.attributes.length + 1)) ∅ []

/-- `canonical_basis` including its behaviour on a context with zero
attributes: `none` stands for the `usize` underflow of
`context.attributes.len() - 1` (debug panic / absurd release loop). -/
def canonical_basis? {T : Type} (c : FormalContext T) :
    Option (List (Finset ℕ × Finset ℕ)) :=
  if c.attributes.length = 0 then none else some (canonical_basis c)

/-- Variant of `nextClosedAux` also returning the index at which the
successor was found; used by the fused loop of `canonical_basis_optimised`,
whose `break` keeps the successful `j` as the new cursor. -/
def nextClosedAuxIdx (f : Finset ℕ → Finset ℕ) (A : Finset ℕ) :
    ℕ → Option (Finset ℕ × ℕ)
  | 0 => none
  | i + 1 =>
      if i ∈ A then nextClosedAuxIdx f A i
      else
        let b := f (insert i (cut A i))
        if ∀ x ∈ b \ cut A i, i ≤ x then some (b, i)
        else nextClosedAuxIdx f A i

/-- The `while` loop of `canonical_basis_optimised`.  At the top of each
round `temp_set ⊆ [0, i]`; the inner `for j in (0..i+1).rev()` removes the
elements of `temp_set` on the way down and tries to close
`temp_set∩[0,j) ∪ {j}` under the current implications, so it is exactly the
`nextClosedAuxIdx` search (the Rust test takes the difference after removing
`j` again, which tests the same condition).  When no `j ≤ i` qualifies, the
loop has emptied `temp_set` of all elements `≤ i`, leaving
`temp_set.filter (i < ·)`. -/
def canonicalBasisOptimisedLoop {T : Type} (c : FormalContext T) :
    ℕ → Finset ℕ → ℕ → List (Finset ℕ × Finset ℕ) → List (Finset ℕ × Finset ℕ)
  | 0, _, _, implications => implications
  | fuel + 1, temp_set, i, implications =>
      if temp_set = set_upto (c.attributes.length - 1) then implications
      else
        let ti : Finset ℕ × ℕ :=
          match nextClosedAuxIdx (implication_closure implications) temp_set (i + 1) with
          | some bj => bj
          | none => (temp_set.filter (fun x => i < x), i)
        let temp_set_hull := c.index_attribute_hull ti.1
        let implications2 :=
          if ti.1 ≠ temp_set_hull then implications ++ [(ti.1, temp_set_hull)]
          else implications
        if is_smallest_num ti.2 (temp_set_hull \ ti.1) then
          canonicalBasisOptimisedLoop c fuel temp_set_hull
            (c.attributes.length - 1) implications2
        else
          canonicalBasisOptimisedLoop c fuel (retain_eq_less ti.2 ti.1) ti.2
            implications2

/-- Embedding of `canonical_basis_optimised` for a context with at least one
attribute (with zero attributes `attributes.len() - 1` underflows exactly as
in `canonical_basis`; see `canonical_basis?`). -/
def canonical_basis_optimised {T : Type} (c : FormalContext T) :
    List (Finset ℕ × Finset ℕ) :=
  canonicalBasisOptimisedLoop c (2 ^ (c.attributes.length + 2))
    (c.index_attribute_hull ∅) (c.attributes.length - 1)
    (if c.index_attribute_hull ∅ ≠ ∅ then [(∅, c.index_attribute_hull ∅)] else [])

/-! ### FCbO concept enumeration (src/algorithms/fcbo.rs) -/

/-- Embedding of the `OutputType` enum of src/algorithms/fcbo.rs. -/
inductive OutputType : Type
  | CallingContextOut : (Finset ℕ × Finset ℕ) → ℕ → OutputType
  | DeadEndAttributes : Finset ℕ → ℕ → OutputType
  | NodeCleared : OutputType

/-- Embedding of the `CallingContext` queue entries of fcbo.rs. -/
structure CallingContextEntry : Type where
  input_attr : Finset ℕ
  inner_index : ℕ
  dead_end_attr : Option (List (ℕ × Finset ℕ))

/-- Insert into the `HashMap<usize, BTreeSet<usize>>` of dead-end sets,
modelled as an association list with one binding per key. -/
def deInsert (m : List (ℕ × Finset ℕ)) (k : ℕ) (v : Finset ℕ) :
    List (ℕ × Finset ℕ) :=
  (k, v) :: m.filter (fun e => ¬ e.1 = k)

/-- `HashMap::get` on the dead-end map. -/
def deLookup (m : List (ℕ × Finset ℕ)) (k : ℕ) : Option (Finset ℕ) :=
  (m.find? (fun e => e.1 == k)).map Prod.snd

/-- Embedding of `fcbo_next_concept`: scan `j` upward from `inner_index`,
skipping attributes of the input; canonicity test one reads the dead-end
slot (`get(&j).unwrap()`, panic — `none` — when absent), and on passing it
the new closure either passes test two (a new concept) or becomes a
dead-end record. -/
def fcbo_next_concept {T : Type} (c : FormalContext T)
    (smaller_subsets : List (Finset ℕ)) (input_attributes : Finset ℕ)
    (dead_end : List (ℕ × Finset ℕ)) (j : ℕ) : Option OutputType :=
  if h : j < c.attributes.length then
    if j ∉ input_attributes then
      match deLookup dead_end j with
      | none => none
      | some Dj =>
          let Yj := smaller_subsets.getD j ∅
          if Dj ∩ Yj ⊆ input_attributes ∩ Yj then
            let next_objects := c.index_attribute_derivation input_attributes ∩
              c.index_attribute_derivation {j}
            let next_attributes := c.index_object_derivation next_objects
            if input_attributes ∩ Yj = next_attributes ∩ Yj then
              some (.CallingContextOut (next_objects, next_attributes) j)
            else some (.DeadEndAttributes next_attributes j)
          else fcbo_next_concept c smaller_subsets input_attributes dead_end (j + 1)
    else fcbo_next_concept c smaller_subsets input_attributes dead_end (j + 1)
  else some .NodeCleared
termination_by c.attributes.length - j
decreasing_by all_goals omega

/-- The mutable state of the `fcbo_concepts` iterator closure. -/
structure FcboState : Type where
  input_attributes : Finset ℕ
  inner_index : ℕ
  dead_end : List (ℕ × Finset ℕ)
  queue : List CallingContextEntry
  branches : ℕ

/-- The driving loop of the `fcbo_concepts` iterator, collecting every
emitted concept.  One recursive step handles one `fcbo_next_concept`
outcome, exactly as the `loop/match` in the Rust closure; fuel only bounds
the recursion and `none` models a panic or exhausted fuel. -/
def fcboRun {T : Type} (c : FormalContext T) (smaller_subsets : List (Finset ℕ)) :
    ℕ → FcboState → Option (List (Finset ℕ × Finset ℕ))
  | 0, _ => none
  | fuel + 1, st =>
      match fcbo_next_concept c smaller_subsets st.input_attributes st.dead_end
          st.inner_index with
      | none => none
      | some (.CallingContextOut concept j) =>
          let enqueue : Bool :=
            decide (concept.2 ≠ Finset.range c.attributes.length ∧
              j < c.attributes.length - 1)
          let st2 : FcboState :=
            { st with
              inner_index := j + 1,
              queue := if enqueue then st.queue ++ [⟨concept.2, j + 1, none⟩]
                else st.queue,
              branches := if enqueue then st.branches + 1 else st.branches }
          (fcboRun c smaller_subsets fuel st2).map (fun rest => concept :: rest)
      | some (.DeadEndAttributes d j) =>
          fcboRun c smaller_subsets fuel
            { st with dead_end := deInsert st.dead_end j d, inner_index := j + 1 }
      | some .NodeCleared =>
          match st.queue with
          | [] => some []
          | _ :: _ =>
              let queue2 : List CallingContextEntry :=
                if st.branches ≠ 0 then
                  let qi := st.queue.getD (st.queue.length - st.branches)
                    ⟨∅, 0, none⟩
                  let dead_trunc := st.dead_end.filter
                    (fun e => ¬ e.1 < qi.inner_index)
                  st.queue.mapIdx (fun idx entry =>
                    if st.queue.length - st.branches ≤ idx then
                      { entry with dead_end_attr := some dead_trunc }
                    else entry)
                else st.queue
              match queue2 with
              | [] => none
              | hd :: tl =>
                  match hd.dead_end_attr with
                  | none => none
                  | some d =>
                      fcboRun c smaller_subsets fuel
                        ⟨hd.input_attr, hd.inner_index, d, tl, 0⟩

/-- Embedding of `fcbo_concepts` (the list of all items the lazy iterator
yields; `BTreeSet<usize>` and `BitSet` are both `Finset ℕ` here).  The first
concept is emitted unconditionally; the fuel passed to the driving loop is a
crude upper bound on the number of iterator steps, each of which either
emits one of at most `2^|M|` concepts, advances `inner_index` within a node,
or pops one queued branch. -/
def fcbo_concepts {T : Type} (c : FormalContext T) :
    Option (List (Finset ℕ × Finset ℕ)) :=
  let attr_length := c.attributes.length
  let smaller_subsets := (List.range attr_length).map (fun i => Finset.range i)
  let starting_objects := c.index_attribute_derivation ∅
  let input_attributes := c.index_object_derivation starting_objects
  let dead_end0 := (List.range attr_length).map (fun i => (i, (∅ : Finset ℕ)))
  (fcboRun c smaller_subsets
      ((attr_length + 2) * (2 ^ (attr_length + 1) + 2))
      ⟨input_attributes, 0, dead_end0, [], 0⟩).map
    (fun rest => (starting_objects, input_attributes) :: rest)

/-! ### Specification predicates for the FCbO machine (proof side) -/

/-- Attribute `u` is skipped by the scan of `fcbo_next_concept`: it is
already in the input, or its dead-end slot makes canonicity test one fail. -/
def fcboSkip (input_attributes : Finset ℕ)
    (dead_end : List (ℕ × Finset ℕ)) (u : ℕ) : Prop :=
  u ∈ input_attributes ∨
    ∃ d, deLookup dead_end u = some d ∧
      ¬ (d ∩ Finset.range u ⊆ input_attributes ∩ Finset.range u)

/-- A dead-end slot value is valid for a node: empty (the initial value) or
the hull of `B2 ∪ {j}` for some subset `B2` of the node's attributes.  This
is the invariant that makes canonicity test one conservative. -/
def DeValid {T : Type} (c : FormalContext T) (input_attributes d : Finset ℕ)
    (j : ℕ) : Prop :=
  d = ∅ ∨ ∃ B2, B2 ⊆ input_attributes ∧
    B2 ⊆ Finset.range c.attributes.length ∧
    d = c.index_attribute_hull (B2 ∪ {j})

/-- Every dead-end slot from `y` on is present (`get(&j).unwrap()` cannot
panic) and valid for the node. -/
def DeOk {T : Type} (c : FormalContext T) (input_attributes : Finset ℕ)
    (dead_end : List (ℕ × Finset ℕ)) (y : ℕ) : Prop :=
  ∀ j, y ≤ j → j < c.attributes.length →
    ∃ d, deLookup dead_end j = some d ∧ DeValid c input_attributes d j

/-- The intent `Y` is an outstanding obligation of a node `(B, y)`: it
strictly extends `B` and agrees with `B` strictly below the scan start. -/
def FcboObl (input_attributes : Finset ℕ) (y : ℕ) (Y : Finset ℕ) : Prop :=
  input_attributes ⊂ Y ∧ Y ∩ Finset.range y ⊆ input_attributes

/-- `Y` is an obligation of the running state: of the current node or of a
queued node. -/
def FcboTodo (st : FcboState) (Y : Finset ℕ) : Prop :=
  FcboObl st.input_attributes st.inner_index Y ∨
    ∃ e ∈ st.queue, FcboObl e.input_attr e.inner_index Y

/-- The state invariant of the `fcbo_concepts` driving loop.  The queue
splits into processed-dead-end entries `Qs` followed by the `branches` most
recent entries `Qb` still awaiting their dead-end map. -/
def FcboInv {T : Type} (c : FormalContext T) (st : FcboState) : Prop :=
  st.input_attributes ⊆ Finset.range c.attributes.length ∧
  c.index_attribute_hull st.input_attributes = st.input_attributes ∧
  DeOk c st.input_attributes st.dead_end st.inner_index ∧
  ∃ Qs Qb, st.queue = Qs ++ Qb ∧ Qb.length = st.branches ∧
    (∀ e ∈ Qs, e.input_attr ⊆ Finset.range c.attributes.length ∧
      c.index_attribute_hull e.input_attr = e.input_attr ∧
      ∃ m, e.dead_end_attr = some m ∧ DeOk c e.input_attr m e.inner_index) ∧
    (∀ e ∈ Qb, e.input_attr ⊆ Finset.range c.attributes.length ∧
      c.index_attribute_hull e.input_attr = e.input_attr ∧
      e.dead_end_attr = none ∧ st.input_attributes ⊆ e.input_attr ∧
      e.inner_index ≤ st.inner_index) ∧
    (∀ e2, Qb.head? = some e2 →
      DeOk c st.input_attributes st.dead_end e2.inner_index ∧
      ∀ e ∈ Qb, e2.inner_index ≤ e.inner_index)

/-- Fuel potential of a state: `3·2^(n−y) − 2` steps suffice to finish a
node whose scan starts at `y` (including all nodes it spawns), each queue
entry needing one extra step for its pop. -/
def fcboPot (n : ℕ) (st : FcboState) : ℕ :=
  (3 * 2 ^ (n - st.inner_index) - 2) +
    (st.queue.map (fun e => 3 * 2 ^ (n - e.inner_index) - 1)).sum

/-- The live nodes of the FCbO machine: the current node followed by the
queued ones, each as its (input, inner index) pair. -/
def fcboLive (st : FcboState) : List (Finset ℕ × ℕ) :=
  (st.input_attributes, st.inner_index) ::
    st.queue.map (fun e => (e.input_attr, e.inner_index))

/-- No closed set within range is an outstanding obligation of two distinct
live nodes at once. -/
def OblSep {T : Type} (c : FormalContext T) (st : FcboState) : Prop :=
  (fcboLive st).Pairwise (fun a b => ∀ Y,
    Y ⊆ Finset.range c.attributes.length → c.index_attribute_hull Y = Y →
    ¬ (FcboObl a.1 a.2 Y ∧ FcboObl b.1 b.2 Y))

/-! ### Concept lattice graph (src/data_structures/graph.rs, upper_neighbor.rs) -/

/-- Embedding of `Node<T>` from src/data_structures/graph.rs. -/
structure Node (T : Type) where
  id : ℕ
  x : ℕ
  y : ℕ
  label : Option (List T) × Option (List T)
deriving DecidableEq

/-- Embedding of `Graph<T>` (edge endpoints are `u32` indices into the
concept list; they stay below the list length, so `ℕ` is faithful). -/
structure Graph (T : Type) where
  width : ℕ
  height : ℕ
  edges : List (ℕ × ℕ)
  nodes : List (Node T)
deriving DecidableEq

/-- Embedding of `upper_neighbor` from src/algorithms/upper_neighbor.rs:
start from all objects outside `input` and drop every `m` whose hull
intersected with the (shrinking) candidate set is not exactly `{m}`;
the `for` loop iterates the bitset ascending. -/
def upper_neighbor {T : Type} (input : Finset ℕ) (c : FormalContext T) : Finset ℕ :=
  let diff_set := (Finset.range c.objects.length) \ input
  (diff_set.sort (· ≤ ·)).foldl
    (fun output m =>
      let hull_input_m := c.index_object_hull (input ∪ {m})
      if hull_input_m ∩ output ≠ {m} then output \ {m} else output)
    diff_set

/-- One pass of `from_concepts`'s inner `for n in &obj_list` loop: look the
upper-neighbour concept up in the extent list (`position(..).unwrap()`
panics — `none` — when it is absent), and enqueue task and edge when no
queued task carries the same extent (`Task::eq` compares the sets only). -/
def fcVisit {T : Type} (c : FormalContext T) (exts : List (Finset ℕ))
    (root_index : ℕ) :
    List ℕ → List (ℕ × Finset ℕ) → List (ℕ × ℕ) →
    Option (List (ℕ × Finset ℕ) × List (ℕ × ℕ))
  | [], queue, edges => some (queue, edges)
  | n :: ns, queue, edges =>
      let concept := c.index_object_hull (insert n (exts.getD root_index ∅))
      match exts.findIdx? (fun x => x == concept) with
      | none => none
      | some set_index =>
          if ∀ t ∈ queue, t.2 ≠ exts.getD set_index ∅ then
            fcVisit c exts root_index ns (queue ++ [(set_index, exts.getD set_index ∅)])
              (edges ++ [(set_index, root_index)])
          else fcVisit c exts root_index ns queue edges

/-- The `'a: loop` of `from_concepts`.  In the Rust source the body runs
inside `for _ in 0..lenght` nested in an unbounded `loop`; since the body
pops exactly one task or breaks out of both loops, that structure repeats
the body until the queue is empty, which is the recursion below.  The fuel
argument only bounds the unbounded loop; `none` models non-termination or
a panic. -/
def fcLoop {T : Type} (c : FormalContext T) (exts : List (Finset ℕ)) :
    ℕ → ℕ → List (ℕ × Finset ℕ) → List (ℕ × ℕ) → Option (List (ℕ × ℕ))
  | 0, _, _, _ => none
  | fuel + 1, root_index, queue, edges =>
      let obj_list := upper_neighbor (exts.getD root_index ∅) c
      match fcVisit c exts root_index (obj_list.sort (· ≤ ·)) queue edges with
      | none => none
      | some (queue2, edges2) =>
          match queue2.getLast? with
          | none => some edges2
          | some task =>
              fcLoop c exts fuel task.1 queue2.dropLast edges2

/-- `obj_labels` of `from_concepts`: for every object `g` the index of the
concept whose extent is `{g}″` (`position(..).unwrap()` may panic). -/
def objLabels {T : Type} (c : FormalContext T) (exts : List (Finset ℕ)) :
    Option (List (ℕ × ℕ)) :=
  (List.range c.objects.length).mapM
    (fun obj => (exts.findIdx?
      (fun x => x == c.index_object_hull {obj})).map (fun i => (i, obj)))

/-- `attr_labels` of `from_concepts`: for every attribute `m` the index of
the concept whose extent is `D[m]`. -/
def attrLabels {T : Type} (c : FormalContext T) (exts : List (Finset ℕ)) :
    Option (List (ℕ × ℕ)) :=
  (List.range c.attributes.length).mapM
    (fun attr => (exts.findIdx?
      (fun x => x == c.index_attribute_derivation {attr})).map (fun i => (i, attr)))

/-- Attach one label to the node whose `id` is `concept_index` (first
component for object labels, second for attribute labels); the
`position(..).unwrap()` may panic. -/
def attachLabel {T : Type} (isObj : Bool) (name : T) (concept_index : ℕ)
    (nodes : List (Node T)) : Option (List (Node T)) :=
  match nodes.findIdx? (fun node => node.id == concept_index) with
  | none => none
  | some i =>
      match nodes.get? i with
      | none => none
      | some node =>
          some (nodes.set i
            { node with label :=
                if isObj then (some ((node.label.1.getD []) ++ [name]), node.label.2)
                else (node.label.1, some ((node.label.2.getD []) ++ [name])) })

/-- Fold `attachLabel` over a label list, pairing each concept index with
the stored name of its object/attribute (`objects[obj].clone()`). -/
def attachLabels {T : Type} (isObj : Bool) (names : List T) :
    List (ℕ × ℕ) → List (Node T) → Option (List (Node T))
  | [], nodes => some nodes
  | (concept_index, idx) :: rest, nodes =>
      match names.get? idx with
      | none => none
      | some name =>
          match attachLabel isObj name concept_index nodes with
          | none => none
          | some nodes2 => attachLabels isObj names rest nodes2

/-- Embedding of `Graph::from_concepts`.  The layered-graph layout engine
(`rust_sugiyama::from_edges(..).build().remove(0)`) is an external
collaborator specified as a pure function of the edge list (spec §6), so it
is passed as the `layout` argument.  The outer `Option` models panics and
non-termination: in particular on the empty list `concepts.len() - 1`
underflows `usize` before the `root_index == 0` check can return `None`. -/
def from_concepts {T : Type} (concepts : List (Finset ℕ × Finset ℕ))
    (c : FormalContext T)
    (layout : List (ℕ × ℕ) → List (ℕ × ℤ × ℤ) × ℕ × ℕ) (fuel : ℕ) :
    Option (Option (Graph T)) :=
  let exts := concepts.map Prod.fst
  if exts.length = 0 then none
  else
    let root_index := exts.length - 1
    if root_index = 0 then some none
    else
      match fcLoop c exts fuel root_index [] [] with
      | none => none
      | some edges =>
          match objLabels c exts, attrLabels c exts with
          | some obj_labels, some attr_labels =>
              let points := (layout edges).1
              let width := (layout edges).2.1
              let height := (layout edges).2.2
              let nodes : List (Node T) := points.map
                (fun point => ⟨point.1, point.2.1.natAbs, point.2.2.natAbs,
                  (none, none)⟩)
              match attachLabels true c.objects obj_labels nodes with
              | none => none
              | some nodes2 =>
                  match attachLabels false c.attributes attr_labels nodes2 with
                  | none => none
                  | some nodes3 =>
                      some (some ⟨width, height, edges, nodes3⟩)
          | _, _ => none

/-- A small concrete context (3 objects, 3 attributes) used to instantiate
the theorems below at a computable input. -/
def sampleContext : FormalContext ℕ :=
  FormalContext.construct [0, 1, 2] [0, 1, 2] {(0, 0), (0, 1), (1, 1), (2, 2), (1, 2)}

/-- The in-place permutation application at the end of `sort_lectic_order`:
`order[index].0` tracks the current physical position of the element destined
for slot `index`.  Swap it into place, then redirect the slot that wanted the
element displaced by the swap.  `none` models the panic of the Rust
`.position(..).unwrap()` when no slot points at `index`. -/
def sortApply : ℕ → ℕ → List (Finset ℕ × Finset ℕ) → List (ℕ × ℕ) →
    Option (List (Finset ℕ × Finset ℕ))
  | 0, _, cs, _ => some cs
  | steps + 1, index, cs, order =>
      let swap := (order.getD index (0, 0)).1
      if index ≠ swap then
        match List.findIdx? (fun x => x.1 == index) order with
        | none => none
        | some correction =>
            let ci := cs.getD index (∅, ∅)
            let csw := cs.getD swap (∅, ∅)
            let cs2 := (cs.set index csw).set swap ci
            let order2 := (order.set index (0, 0)).set correction (swap, 0)
            sortApply steps (index + 1) cs2 order2
      else sortApply steps (index + 1) cs order

/-- Embedding of `FormalContext::sort_lectic_order`.  The weight of an intent
`Y` is `Σ_{n∈Y} weight[lenght−1−n] = Σ_{n∈Y} 2^(lenght−n)`, i.e. `weight`
above; the Rust indexing `weight[lenght - 1 - n]` panics when some `n` is not
an attribute index, which the outer guard models.  `order.sort_by` is a
stable sort on the weights.  The result is `none` exactly when the Rust call
panics — in particular on the empty slice, where `order.len() - 1`
underflows `usize` (debug panic; in release the wrapped bound makes the
first loop iteration index `order[0]` out of bounds). -/
def sort_lectic_order {T : Type} (c : FormalContext T)
    (concepts : List (Finset ℕ × Finset ℕ)) :
    Option (List (Finset ℕ × Finset ℕ)) :=
  let lenght := c.attributes.length
  if ∀ pr ∈ concepts, pr.2 ⊆ Finset.range lenght then
    let order := concepts.enum.map (fun pr => (pr.1, weight lenght pr.2.2))
    let sorted := order.mergeSort (fun x y => decide (x.2 ≤ y.2))
    if concepts.length = 0 then none
    else sortApply (concepts.length - 1) 0 concepts sorted
  else none

end Odis

/-! ## Theorems -/

namespace Odis

namespace FormalContext

variable {T : Type}

theorem wellFormed_construct (objects : List T) (attributes : List T)
    (incidence : Finset (ℕ × ℕ))
    (h : ∀ p ∈ incidence, p.1 < objects.length ∧ p.2 < attributes.length) :
    (construct objects attributes incidence).WellFormed := by
  refine ⟨by simp [construct], by simp [construct], h, ?_, ?_⟩
  · intro g hg
    simp only [construct] at hg ⊢
    rw [List.getD_eq_getElem?_getD, List.getElem?_map, List.getElem?_range hg]
    rfl
  · intro m hm
    simp only [construct] at hm ⊢
    rw [List.getD_eq_getElem?_getD, List.getElem?_map, List.getElem?_range hm]
    rfl

/-! ### Characterization of the derivation operators on well-formed contexts -/

theorem mem_foldl_inter (f : ℕ → Finset ℕ) (init : Finset ℕ) (l : List ℕ) (x : ℕ) :
    (x ∈ l.foldl (fun acc n => acc ∩ f n) init) ↔ (x ∈ init ∧ ∀ n ∈ l, x ∈ f n) := by
  induction l generalizing init with
  | nil => simp
  | cons a t ih =>
      simp only [List.foldl_cons, ih, Finset.mem_inter, List.mem_cons]
      constructor
      · rintro ⟨⟨h1, h2⟩, h3⟩
        exact ⟨h1, fun n hn => hn.elim (fun he => he ▸ h2) (h3 n)⟩
      · rintro ⟨h1, h2⟩
        exact ⟨⟨h1, h2 a (Or.inl rfl)⟩, fun n hn => h2 n (Or.inr hn)⟩

theorem sort_eq_nil_iff (Y : Finset ℕ) : Y.sort (· ≤ ·) = [] ↔ Y = ∅ := by
  constructor
  · intro h
    apply Finset.eq_empty_iff_forall_not_mem.mpr
    intro a ha
    have := (Finset.mem_sort (α := ℕ) (· ≤ ·)).mpr ha
    rw [h] at this
    exact absurd this (List.not_mem_nil a)
  · intro h; subst h; simp

theorem mem_atomic_attribute {c : FormalContext T} (hw : c.WellFormed) {m : ℕ}
    (hm : m < c.attributes.length) (g : ℕ) :
    g ∈ c.atomic_attribute_derivations.getD m ∅ ↔ (g, m) ∈ c.incidence := by
  rw [hw.2.2.2.2 m hm]
  simp only [Finset.mem_image, Finset.mem_filter]
  constructor
  · rintro ⟨p, ⟨hp, h2⟩, h1⟩
    have : p = (g, m) := by
      cases p; simp_all
    exact this ▸ hp
  · intro h
    exact ⟨(g, m), ⟨h, rfl⟩, rfl⟩

theorem mem_atomic_object {c : FormalContext T} (hw : c.WellFormed) {g : ℕ}
    (hg : g < c.objects.length) (m : ℕ) :
    m ∈ c.atomic_object_derivations.getD g ∅ ↔ (g, m) ∈ c.incidence := by
  rw [hw.2.2.2.1 g hg]
  simp only [Finset.mem_image, Finset.mem_filter]
  constructor
  · rintro ⟨p, ⟨hp, h2⟩, h1⟩
    have : p = (g, m) := by
      cases p; simp_all
    exact this ▸ hp
  · intro h
    exact ⟨(g, m), ⟨h, rfl⟩, rfl⟩

theorem mem_index_attribute_derivation {c : FormalContext T} (hw : c.WellFormed)
    {Y : Finset ℕ} (hY : ∀ m ∈ Y, m < c.attributes.length) (g : ℕ) :
    g ∈ c.index_attribute_derivation Y ↔
      (g < c.objects.length ∧ ∀ m ∈ Y, (g, m) ∈ c.incidence) := by
  unfold index_attribute_derivation
  rcases hs : Y.sort (· ≤ ·) with _ | ⟨m, rest⟩
  · have : Y = ∅ := (sort_eq_nil_iff Y).mp hs
    subst this
    simp
  · have hmem : ∀ x, x ∈ Y ↔ x ∈ m :: rest := by
      intro x
      rw [← hs, Finset.mem_sort]
    have hmY : m ∈ Y := (hmem m).mpr (List.mem_cons_self m rest)
    simp only [mem_foldl_inter]
    constructor
    · rintro ⟨h1, h2⟩
      have hg : g < c.objects.length := by
        have := (mem_atomic_attribute hw (hY m hmY) g).mp h1
        exact (hw.2.2.1 _ this).1
      refine ⟨hg, fun x hx => ?_⟩
      rcases List.mem_cons.mp ((hmem x).mp hx) with h | h
      · subst h
        exact (mem_atomic_attribute hw (hY x hx) g).mp h1
      · exact (mem_atomic_attribute hw (hY x hx) g).mp (h2 x h)
    · rintro ⟨h1, h2⟩
      refine ⟨(mem_atomic_attribute hw (hY m hmY) g).mpr (h2 m hmY), fun n hn => ?_⟩
      have hnY : n ∈ Y := (hmem n).mpr (List.mem_cons_of_mem m hn)
      exact (mem_atomic_attribute hw (hY n hnY) g).mpr (h2 n hnY)

theorem mem_index_object_derivation {c : FormalContext T} (hw : c.WellFormed)
    {X : Finset ℕ} (hX : ∀ g ∈ X, g < c.objects.length) (m : ℕ) :
    m ∈ c.index_object_derivation X ↔
      (m < c.attributes.length ∧ ∀ g ∈ X, (g, m) ∈ c.incidence) := by
  unfold index_object_derivation
  rcases hs : X.sort (· ≤ ·) with _ | ⟨g, rest⟩
  · have : X = ∅ := (sort_eq_nil_iff X).mp hs
    subst this
    simp
  · have hmem : ∀ x, x ∈ X ↔ x ∈ g :: rest := by
      intro x
      rw [← hs, Finset.mem_sort]
    have hgX : g ∈ X := (hmem g).mpr (List.mem_cons_self g rest)
    simp only [mem_foldl_inter]
    constructor
    · rintro ⟨h1, h2⟩
      have hm : m < c.attributes.length := by
        have := (mem_atomic_object hw (hX g hgX) m).mp h1
        exact (hw.2.2.1 _ this).2
      refine ⟨hm, fun x hx => ?_⟩
      rcases List.mem_cons.mp ((hmem x).mp hx) with h | h
      · subst h
        exact (mem_atomic_object hw (hX x hx) m).mp h1
      · exact (mem_atomic_object hw (hX x hx) m).mp (h2 x h)
    · rintro ⟨h1, h2⟩
      refine ⟨(mem_atomic_object hw (hX g hgX) m).mpr (h2 g hgX), fun n hn => ?_⟩
      have hnX : n ∈ X := (hmem n).mpr (List.mem_cons_of_mem g hn)
      exact (mem_atomic_object hw (hX n hnX) m).mpr (h2 n hnX)

/-! ### Galois-closure laws of the attribute hull -/

theorem index_attribute_derivation_subset_range {c : FormalContext T}
    (hw : c.WellFormed) {Y : Finset ℕ} (hY : ∀ m ∈ Y, m < c.attributes.length) :
    ∀ g ∈ c.index_attribute_derivation Y, g < c.objects.length := by
  intro g hg
  exact ((mem_index_attribute_derivation hw hY g).mp hg).1

theorem mem_index_attribute_hull {c : FormalContext T} (hw : c.WellFormed)
    {Y : Finset ℕ} (hY : ∀ m ∈ Y, m < c.attributes.length) (m : ℕ) :
    m ∈ c.index_attribute_hull Y ↔
      (m < c.attributes.length ∧
        ∀ g, g < c.objects.length → (∀ x ∈ Y, (g, x) ∈ c.incidence) →
          (g, m) ∈ c.incidence) := by
  unfold index_attribute_hull
  rw [mem_index_object_derivation hw (index_attribute_derivation_subset_range hw hY) m]
  constructor
  · rintro ⟨h1, h2⟩
    exact ⟨h1, fun g hg hgy =>
      h2 g ((mem_index_attribute_derivation hw hY g).mpr ⟨hg, hgy⟩)⟩
  · rintro ⟨h1, h2⟩
    refine ⟨h1, fun g hg => ?_⟩
    have := (mem_index_attribute_derivation hw hY g).mp hg
    exact h2 g this.1 this.2

theorem subset_index_attribute_hull {c : FormalContext T} (hw : c.WellFormed)
    {Y : Finset ℕ} (hY : ∀ m ∈ Y, m < c.attributes.length) :
    Y ⊆ c.index_attribute_hull Y := by
  intro m hm
  exact (mem_index_attribute_hull hw hY m).mpr
    ⟨hY m hm, fun g _ hgy => hgy m hm⟩

theorem index_attribute_hull_subset_range {c : FormalContext T} (hw : c.WellFormed)
    {Y : Finset ℕ} (hY : ∀ m ∈ Y, m < c.attributes.length) :
    ∀ m ∈ c.index_attribute_hull Y, m < c.attributes.length := by
  intro m hm
  exact ((mem_index_attribute_hull hw hY m).mp hm).1

theorem index_attribute_hull_mono {c : FormalContext T} (hw : c.WellFormed)
    {Y Z : Finset ℕ} (hZ : ∀ m ∈ Z, m < c.attributes.length) (hYZ : Y ⊆ Z) :
    c.index_attribute_hull Y ⊆ c.index_attribute_hull Z := by
  have hY : ∀ m ∈ Y, m < c.attributes.length := fun m hm => hZ m (hYZ hm)
  intro m hm
  rw [mem_index_attribute_hull hw hY m] at hm
  rw [mem_index_attribute_hull hw hZ m]
  exact ⟨hm.1, fun g hg hgz => hm.2 g hg (fun x hx => hgz x (hYZ hx))⟩

theorem index_attribute_derivation_hull {c : FormalContext T} (hw : c.WellFormed)
    {Y : Finset ℕ} (hY : ∀ m ∈ Y, m < c.attributes.length) :
    c.index_attribute_derivation (c.index_attribute_hull Y) =
      c.index_attribute_derivation Y := by
  ext g
  rw [mem_index_attribute_derivation hw (index_attribute_hull_subset_range hw hY) g,
    mem_index_attribute_derivation hw hY g]
  constructor
  · rintro ⟨h1, h2⟩
    exact ⟨h1, fun m hm => h2 m (subset_index_attribute_hull hw hY hm)⟩
  · rintro ⟨h1, h2⟩
    refine ⟨h1, fun m hm => ?_⟩
    exact ((mem_index_attribute_hull hw hY m).mp hm).2 g h1 h2

theorem index_attribute_hull_idem {c : FormalContext T} (hw : c.WellFormed)
    {Y : Finset ℕ} (hY : ∀ m ∈ Y, m < c.attributes.length) :
    c.index_attribute_hull (c.index_attribute_hull Y) = c.index_attribute_hull Y := by
  unfold index_attribute_hull
  rw [show c.index_attribute_derivation (c.index_object_derivation
    (c.index_attribute_derivation Y)) = c.index_attribute_derivation Y from
    index_attribute_derivation_hull hw hY]

end FormalContext

variable {T : Type}

@[simp] theorem mem_cut {A : Finset ℕ} {i x : ℕ} :
    x ∈ cut A i ↔ x ∈ A ∧ x < i := by
  simp [cut]

theorem cut_eq_of_cut_eq {A B : Finset ℕ} {i j : ℕ} (h : cut A i = cut B i)
    (hj : j ≤ i) : cut A j = cut B j := by
  ext x
  constructor <;> intro hx <;> rw [mem_cut] at hx ⊢
  · have : x ∈ cut B i := h ▸ (mem_cut.mpr ⟨hx.1, lt_of_lt_of_le hx.2 hj⟩)
    exact ⟨(mem_cut.mp this).1, hx.2⟩
  · have : x ∈ cut A i := h ▸ (mem_cut.mpr ⟨hx.1, lt_of_lt_of_le hx.2 hj⟩)
    exact ⟨(mem_cut.mp this).1, hx.2⟩

theorem lecticLt_of_ssubset {A B : Finset ℕ} (h : A ⊂ B) : LecticLt A B := by
  have hne : (B \ A).Nonempty := by
    rw [Finset.sdiff_nonempty]
    exact fun hs => h.2 hs
  obtain ⟨i, hi, hmin⟩ := Finset.exists_min_image (B \ A) id hne
  rw [Finset.mem_sdiff] at hi
  refine ⟨i, hi.1, hi.2, ?_⟩
  ext x
  simp only [mem_cut]
  constructor
  · rintro ⟨hx, hlt⟩
    exact ⟨h.1 hx, hlt⟩
  · rintro ⟨hx, hlt⟩
    refine ⟨?_, hlt⟩
    by_contra hxa
    have := hmin x (Finset.mem_sdiff.mpr ⟨hx, hxa⟩)
    simp only [id_eq] at this
    omega

theorem exists_lecticAt_of_ne {A B : Finset ℕ} (h : A ≠ B) :
    (∃ i, LecticLtAt i A B) ∨ (∃ i, LecticLtAt i B A) := by
  have hne : (symmDiff A B).Nonempty := by
    by_contra hc
    rw [Finset.not_nonempty_iff_eq_empty, Finset.symmDiff_eq_empty] at hc
    exact h hc
  obtain ⟨i, hi, hmin⟩ := Finset.exists_min_image (symmDiff A B) id hne
  have hagree : cut A i = cut B i := by
    ext x
    simp only [mem_cut]
    have hx : x < i → (x ∈ symmDiff A B → False) := by
      intro hlt hmem
      have := hmin x hmem
      simp only [id_eq] at this
      omega
    rw [Finset.mem_symmDiff] at hx
    constructor
    · rintro ⟨hxa, hlt⟩
      refine ⟨?_, hlt⟩
      by_contra hxb
      exact hx hlt (Or.inl ⟨hxa, hxb⟩)
    · rintro ⟨hxb, hlt⟩
      refine ⟨?_, hlt⟩
      by_contra hxa
      exact hx hlt (Or.inr ⟨hxb, hxa⟩)
  rw [Finset.mem_symmDiff] at hi
  rcases hi with ⟨ha, hb⟩ | ⟨hb, ha⟩
  · exact Or.inr ⟨i, ha, hb, hagree.symm⟩
  · exact Or.inl ⟨i, hb, ha, hagree⟩

theorem sum_range_two_pow (K : ℕ) :
    (Finset.range K).sum (fun k => 2 ^ k) = 2 ^ K - 1 := by
  induction K with
  | zero => simp
  | succ k ih =>
      rw [Finset.sum_range_succ, ih]
      have : 1 ≤ 2 ^ k := Nat.one_le_two_pow
      have h2 : (2 : ℕ) ^ (k + 1) = 2 ^ k + 2 ^ k := by ring
      omega

theorem sum_two_pow_lt {S : Finset ℕ} {K : ℕ} (h : ∀ k ∈ S, k < K) :
    S.sum (fun k => 2 ^ k) < 2 ^ K := by
  have hsub : S ⊆ Finset.range K := fun k hk => Finset.mem_range.mpr (h k hk)
  have hle : S.sum (fun k => 2 ^ k) ≤ (Finset.range K).sum (fun k => 2 ^ k) :=
    Finset.sum_le_sum_of_subset hsub
  rw [sum_range_two_pow] at hle
  have : 1 ≤ 2 ^ K := Nat.one_le_two_pow
  omega

theorem high_weight_lt {n i : ℕ} {S : Finset ℕ}
    (hS : ∀ m ∈ S, i < m ∧ m < n) :
    S.sum (fun m => 2 ^ (n - m)) < 2 ^ (n - i) := by
  have hinj : ∀ x ∈ S, ∀ y ∈ S, n - x = n - y → x = y := by
    intro x hx y hy hxy
    have h1 := hS x hx
    have h2 := hS y hy
    omega
  have himg : (S.image (fun m => n - m)).sum (fun k => 2 ^ k) =
      S.sum (fun m => 2 ^ (n - m)) := Finset.sum_image hinj
  rw [← himg]
  apply sum_two_pow_lt
  intro k hk
  obtain ⟨m, hm, hkm⟩ := Finset.mem_image.mp hk
  have := hS m hm
  omega

theorem weight_lt_of_lecticLtAt {n i : ℕ} {A B : Finset ℕ}
    (hA : A ⊆ Finset.range n) (hB : B ⊆ Finset.range n)
    (h : LecticLtAt i A B) : weight n A < weight n B := by
  obtain ⟨hiB, hiA, hcut⟩ := h
  have hin : i < n := Finset.mem_range.mp (hB hiB)
  -- split A into its low part (< i) and high part (> i)
  have hsplit : weight n A =
      (cut A i).sum (fun m => 2 ^ (n - m)) +
      (A.filter (fun m => ¬ m < i)).sum (fun m => 2 ^ (n - m)) := by
    rw [weight, ← Finset.sum_filter_add_sum_filter_not A (fun m => m < i)]
    rfl
  have hhigh : (A.filter (fun m => ¬ m < i)).sum (fun m => 2 ^ (n - m)) <
      2 ^ (n - i) := by
    apply high_weight_lt
    intro m hm
    rw [Finset.mem_filter] at hm
    have h1 : m < n := Finset.mem_range.mp (hA hm.1)
    have h2 : ¬ m < i := hm.2
    have h3 : m ≠ i := fun he => hiA (he ▸ hm.1)
    exact ⟨by omega, h1⟩
  have hlow : weight n B ≥ (cut B i).sum (fun m => 2 ^ (n - m)) + 2 ^ (n - i) := by
    have hsub : insert i (cut B i) ⊆ B := by
      intro x hx
      rcases Finset.mem_insert.mp hx with h | h
      · exact h ▸ hiB
      · exact (mem_cut.mp h).1
    have : (insert i (cut B i)).sum (fun m => 2 ^ (n - m)) ≤ weight n B :=
      Finset.sum_le_sum_of_subset hsub
    rw [Finset.sum_insert (by simp)] at this
    omega
  rw [hsplit, hcut]
  omega

theorem weight_lt_of_lecticLt {n : ℕ} {A B : Finset ℕ}
    (hA : A ⊆ Finset.range n) (hB : B ⊆ Finset.range n)
    (h : LecticLt A B) : weight n A < weight n B := by
  obtain ⟨i, hi⟩ := h
  exact weight_lt_of_lecticLtAt hA hB hi

theorem lecticLt_irrefl (A : Finset ℕ) : ¬ LecticLt A A := by
  rintro ⟨i, hi1, hi2, _⟩
  exact hi2 hi1

theorem lecticLt_ne {A B : Finset ℕ} (h : LecticLt A B) : A ≠ B := by
  intro he
  subst he
  exact lecticLt_irrefl A h

theorem lecticLt_iff_weight_lt {n : ℕ} {A B : Finset ℕ}
    (hA : A ⊆ Finset.range n) (hB : B ⊆ Finset.range n) :
    LecticLt A B ↔ weight n A < weight n B := by
  constructor
  · exact weight_lt_of_lecticLt hA hB
  · intro hw
    by_cases he : A = B
    · subst he; omega
    · rcases exists_lecticAt_of_ne he with h | h
      · exact h
      · have := weight_lt_of_lecticLt hB hA h
        omega

theorem lecticLt_trans {n : ℕ} {A B C : Finset ℕ}
    (hA : A ⊆ Finset.range n) (hB : B ⊆ Finset.range n) (hC : C ⊆ Finset.range n)
    (h1 : LecticLt A B) (h2 : LecticLt B C) : LecticLt A C := by
  rw [lecticLt_iff_weight_lt hA hC]
  exact lt_trans (weight_lt_of_lecticLt hA hB h1) (weight_lt_of_lecticLt hB hC h2)

theorem lecticLt_total {A B : Finset ℕ} (h : A ≠ B) :
    LecticLt A B ∨ LecticLt B A := exists_lecticAt_of_ne h

theorem lecticLt_range {n : ℕ} {A : Finset ℕ} (hA : A ⊆ Finset.range n)
    (h : A ≠ Finset.range n) : LecticLt A (Finset.range n) :=
  lecticLt_of_ssubset (lt_of_le_of_ne hA h)

theorem hasWitnessLt_of_lecticLt {n : ℕ} {A C : Finset ℕ}
    (hC : C ⊆ Finset.range n) (h : LecticLt A C) : HasWitnessLt A C n := by
  obtain ⟨j, hj⟩ := h
  exact ⟨j, Finset.mem_range.mp (hC hj.1), hj⟩

theorem nextClosedAux_spec {n : ℕ} {f : Finset ℕ → Finset ℕ} (hf : ClosureOn n f)
    {A : Finset ℕ} (hA : A ⊆ Finset.range n) :
    ∀ i, i ≤ n →
      (∀ B, nextClosedAux f A i = some B →
        f B = B ∧ B ⊆ Finset.range n ∧ LecticLt A B ∧
        ∀ C, f C = C → C ⊆ Finset.range n → HasWitnessLt A C i →
          B = C ∨ LecticLt B C) ∧
      (nextClosedAux f A i = none →
        ∀ C, f C = C → C ⊆ Finset.range n → ¬ HasWitnessLt A C i) := by
  intro i
  induction i with
  | zero =>
      intro _
      constructor
      · intro B hB
        simp [nextClosedAux] at hB
      · rintro _ C _ _ ⟨j, hj, _⟩
        omega
  | succ i ih =>
      intro hin
      have hi_le : i ≤ n := Nat.le_of_succ_le hin
      have hi_lt : i < n := hin
      have IH := ih hi_le
      by_cases hmem : i ∈ A
      · -- the loop removes `i` from the working copy and continues
        have heq : nextClosedAux f A (i + 1) = nextClosedAux f A i := by
          simp [nextClosedAux, hmem]
        have hdown : ∀ C, HasWitnessLt A C (i + 1) → HasWitnessLt A C i := by
          rintro C ⟨j, hj, hjw⟩
          refine ⟨j, ?_, hjw⟩
          rcases Nat.lt_succ_iff_lt_or_eq.mp hj with h | h
          · exact h
          · exact absurd (h ▸ hjw.2.1) (fun hc => hc hmem)
        rw [heq]
        constructor
        · intro B hB
          obtain ⟨h1, h2, h3, h4⟩ := IH.1 B hB
          exact ⟨h1, h2, h3, fun C hc1 hc2 hc3 => h4 C hc1 hc2 (hdown C hc3)⟩
        · intro hnone C hc1 hc2 hc3
          exact IH.2 hnone C hc1 hc2 (hdown C hc3)
      · -- the loop tries to extend at `i`
        have hsub : insert i (cut A i) ⊆ Finset.range n := by
          apply Finset.insert_subset (Finset.mem_range.mpr hi_lt)
          exact fun x hx => hA (mem_cut.mp hx).1
        have hbr : f (insert i (cut A i)) ⊆ Finset.range n := hf.range_closed _ hsub
        have hext : insert i (cut A i) ⊆ f (insert i (cut A i)) := hf.le _ hsub
        have hib : i ∈ f (insert i (cut A i)) := hext (Finset.mem_insert_self _ _)
        have hclosed : f (f (insert i (cut A i))) = f (insert i (cut A i)) :=
          hf.idem _ hsub
        -- any closed C lectically above A at exactly `i` contains the trial closure
        have hkey : ∀ C, f C = C → C ⊆ Finset.range n → LecticLtAt i A C →
            f (insert i (cut A i)) ⊆ C := by
          rintro C hCc hCr ⟨hiC, _, hcutC⟩
          have hsubC : insert i (cut A i) ⊆ C := by
            apply Finset.insert_subset hiC
            intro x hx
            exact (mem_cut.mp (hcutC ▸ hx : x ∈ cut C i)).1
          calc f (insert i (cut A i)) ⊆ f C := hf.mono hsub hCr hsubC
            _ = C := hCc
        by_cases htest : ∀ x ∈ f (insert i (cut A i)) \ cut A i, i ≤ x
        · -- canonicity test passes: return the trial closure
          have heq : nextClosedAux f A (i + 1) = some (f (insert i (cut A i))) := by
            simp only [nextClosedAux, if_neg hmem]
            rw [if_pos htest]
          have hcutb : cut A i = cut (f (insert i (cut A i))) i := by
            ext x
            simp only [mem_cut]
            constructor
            · rintro ⟨hx, hlt⟩
              exact ⟨hext (Finset.mem_insert_of_mem (mem_cut.mpr ⟨hx, hlt⟩)), hlt⟩
            · rintro ⟨hx, hlt⟩
              refine ⟨?_, hlt⟩
              by_contra hxa
              have hxc : x ∉ cut A i := fun hc => hxa (mem_cut.mp hc).1
              have := htest x (Finset.mem_sdiff.mpr ⟨hx, hxc⟩)
              omega
          have hAtb : LecticLtAt i A (f (insert i (cut A i))) := ⟨hib, hmem, hcutb⟩
          constructor
          · intro B hB
            rw [heq] at hB
            have hBb : B = f (insert i (cut A i)) := (Option.some.injEq _ _).mp hB.symm
            subst hBb
            refine ⟨hclosed, hbr, ⟨i, hAtb⟩, ?_⟩
            rintro C hc1 hc2 ⟨j, hj, hjw⟩
            rcases Nat.lt_succ_iff_lt_or_eq.mp hj with hlt | heqj
            · -- witness strictly below i: C is lectically above the returned set
              refine Or.inr ⟨j, hjw.1, ?_, ?_⟩
              · intro hjb
                have hjc : j ∈ cut (f (insert i (cut A i))) i := mem_cut.mpr ⟨hjb, hlt⟩
                rw [← hcutb] at hjc
                exact hjw.2.1 (mem_cut.mp hjc).1
              · calc cut (f (insert i (cut A i))) j
                    = cut A j := (cut_eq_of_cut_eq hcutb (le_of_lt hlt)).symm
                  _ = cut C j := hjw.2.2
            · -- witness at i: C contains the returned set
              subst heqj
              have hbC := hkey C hc1 hc2 hjw
              rcases eq_or_lt_of_le hbC with he | hss
              · exact Or.inl he
              · exact Or.inr (lecticLt_of_ssubset hss)
          · intro hnone
            rw [heq] at hnone
            exact absurd hnone (by simp)
        · -- canonicity test fails: no closed set has witness exactly i
          have heq : nextClosedAux f A (i + 1) = nextClosedAux f A i := by
            simp only [nextClosedAux, if_neg hmem]
            rw [if_neg htest]
          have hnoAt : ∀ C, f C = C → C ⊆ Finset.range n → ¬ LecticLtAt i A C := by
            intro C hc1 hc2 hAt
            apply htest
            intro x hx
            rw [Finset.mem_sdiff] at hx
            by_contra hxi
            have hxlt : x < i := by omega
            have hxC : x ∈ C := hkey C hc1 hc2 hAt hx.1
            have : x ∈ cut A i := hAt.2.2 ▸ (mem_cut.mpr ⟨hxC, hxlt⟩)
            exact hx.2 this
          have hdown : ∀ C, f C = C → C ⊆ Finset.range n →
              HasWitnessLt A C (i + 1) → HasWitnessLt A C i := by
            rintro C hc1 hc2 ⟨j, hj, hjw⟩
            refine ⟨j, ?_, hjw⟩
            rcases Nat.lt_succ_iff_lt_or_eq.mp hj with h | h
            · exact h
            · exact absurd (h ▸ hjw) (hnoAt C hc1 hc2)
          rw [heq]
          constructor
          · intro B hB
            obtain ⟨h1, h2, h3, h4⟩ := IH.1 B hB
            exact ⟨h1, h2, h3, fun C hc1 hc2 hc3 => h4 C hc1 hc2 (hdown C hc1 hc2 hc3)⟩
          · intro hnone C hc1 hc2 hc3
            exact IH.2 hnone C hc1 hc2 (hdown C hc1 hc2 hc3)

theorem nextClosed_some {n : ℕ} {f : Finset ℕ → Finset ℕ} (hf : ClosureOn n f)
    {A B : Finset ℕ} (hA : A ⊆ Finset.range n)
    (h : nextClosedAux f A n = some B) :
    f B = B ∧ B ⊆ Finset.range n ∧ LecticLt A B ∧
    ∀ C, f C = C → C ⊆ Finset.range n → LecticLt A C → B = C ∨ LecticLt B C := by
  obtain ⟨h1, h2, h3, h4⟩ := ((nextClosedAux_spec hf hA) n (le_refl n)).1 B h
  exact ⟨h1, h2, h3, fun C hc1 hc2 hc3 =>
    h4 C hc1 hc2 (hasWitnessLt_of_lecticLt hc2 hc3)⟩

theorem nextClosed_none {n : ℕ} {f : Finset ℕ → Finset ℕ} (hf : ClosureOn n f)
    {A : Finset ℕ} (hA : A ⊆ Finset.range n)
    (h : nextClosedAux f A n = none) : A = Finset.range n := by
  by_contra hne
  have hrc : f (Finset.range n) = Finset.range n := by
    apply Finset.Subset.antisymm
    · exact hf.range_closed _ (Finset.Subset.refl _)
    · exact hf.le _ (Finset.Subset.refl _)
  have hlt : LecticLt A (Finset.range n) := lecticLt_range hA hne
  exact ((nextClosedAux_spec hf hA) n (le_refl n)).2 h (Finset.range n) hrc
    (Finset.Subset.refl _) (hasWitnessLt_of_lecticLt (Finset.Subset.refl _) hlt)

/-- The hull operator of a well-formed context is a closure operator on
`[0, |M|)`. -/
theorem hull_closureOn {c : FormalContext T} (hw : c.WellFormed) :
    ClosureOn c.attributes.length c.index_attribute_hull := by
  have conv : ∀ Y : Finset ℕ, Y ⊆ Finset.range c.attributes.length ↔
      ∀ m ∈ Y, m < c.attributes.length := by
    intro Y
    constructor
    · intro h m hm
      exact Finset.mem_range.mp (h hm)
    · intro h m hm
      exact Finset.mem_range.mpr (h m hm)
  refine ⟨?_, ?_, ?_, ?_⟩
  · intro A hA
    exact FormalContext.subset_index_attribute_hull hw ((conv A).mp hA)
  · intro A hA
    rw [conv]
    exact FormalContext.index_attribute_hull_subset_range hw ((conv A).mp hA)
  · intro A B _ hB hAB
    exact FormalContext.index_attribute_hull_mono hw ((conv B).mp hB) hAB
  · intro A hA
    exact FormalContext.index_attribute_hull_idem hw ((conv A).mp hA)

theorem nextConceptAux_snd (c : FormalContext T) (a : Finset ℕ) :
    ∀ i, (nextConceptAux c a i).map Prod.snd =
      nextClosedAux c.index_attribute_hull a i := by
  intro i
  induction i with
  | zero => rfl
  | succ i ih =>
      by_cases hmem : i ∈ a
      · simp only [nextConceptAux, nextClosedAux, if_pos hmem]
        exact ih
      · simp only [nextConceptAux, nextClosedAux, if_neg hmem,
          FormalContext.index_attribute_hull]
        by_cases htest : ∀ x ∈ c.index_object_derivation
            (c.index_attribute_derivation (insert i (cut a i))) \ cut a i, i ≤ x
        · rw [if_pos htest, if_pos htest]
          rfl
        · rw [if_neg htest, if_neg htest]
          exact ih

theorem nextConceptAux_fst (c : FormalContext T) (a : Finset ℕ) :
    ∀ i gs b, nextConceptAux c a i = some (gs, b) →
      ∃ j, j < i ∧
        gs = c.index_attribute_derivation (insert j (cut a j)) ∧
        b = c.index_attribute_hull (insert j (cut a j)) := by
  intro i
  induction i with
  | zero =>
      intro gs b h
      simp [nextConceptAux] at h
  | succ i ih =>
      intro gs b h
      by_cases hmem : i ∈ a
      · rw [nextConceptAux, if_pos hmem] at h
        obtain ⟨j, hj, h2⟩ := ih gs b h
        exact ⟨j, Nat.lt_succ_of_lt hj, h2⟩
      · rw [nextConceptAux, if_neg hmem] at h
        by_cases htest : ∀ x ∈ c.index_object_derivation
            (c.index_attribute_derivation (insert i (cut a i))) \ cut a i, i ≤ x
        · rw [if_pos htest] at h
          simp only [Option.some.injEq, Prod.mk.injEq] at h
          exact ⟨i, Nat.lt_succ_self i, h.1.symm, h.2.symm⟩
        · rw [if_neg htest] at h
          obtain ⟨j, hj, h2⟩ := ih gs b h
          exact ⟨j, Nat.lt_succ_of_lt hj, h2⟩

/-- The emitted extent is the attribute derivation of the emitted intent. -/
theorem next_concept_extent {c : FormalContext T} (hw : c.WellFormed)
    {a gs b : Finset ℕ} (ha : a ⊆ Finset.range c.attributes.length)
    (h : next_concept c a = some (gs, b)) :
    gs = c.index_attribute_derivation b := by
  obtain ⟨j, hj, h1, h2⟩ := nextConceptAux_fst c a c.attributes.length gs b h
  have hsub : insert j (cut a j) ⊆ Finset.range c.attributes.length := by
    apply Finset.insert_subset (Finset.mem_range.mpr hj)
    exact fun x hx => ha (mem_cut.mp hx).1
  have := FormalContext.index_attribute_derivation_hull hw
    (fun m hm => Finset.mem_range.mp (hsub hm))
  rw [h1, h2, this]

/-- One upper bound for the lectic weight of any subset of `[0, n)`. -/
theorem weight_lt_pow {n : ℕ} {A : Finset ℕ} (hA : A ⊆ Finset.range n) :
    weight n A < 2 ^ (n + 1) := by
  have hinj : ∀ x ∈ A, ∀ y ∈ A, n - x = n - y → x = y := by
    intro x hx y hy hxy
    have h1 := Finset.mem_range.mp (hA hx)
    have h2 := Finset.mem_range.mp (hA hy)
    omega
  have himg : (A.image (fun m => n - m)).sum (fun k => 2 ^ k) =
      A.sum (fun m => 2 ^ (n - m)) := Finset.sum_image hinj
  rw [weight, ← himg]
  apply sum_two_pow_lt
  intro k hk
  obtain ⟨m, hm, hkm⟩ := Finset.mem_image.mp hk
  omega

theorem conceptsAux_cons (c : FormalContext T) (fuel : ℕ)
    (cur : Finset ℕ × Finset ℕ) :
    ∃ t, conceptsAux c fuel cur = cur :: t := by
  cases fuel with
  | zero => exact ⟨[], rfl⟩
  | succ f =>
      cases h : next_concept c cur.2 with
      | none => exact ⟨[], by simp [conceptsAux, h]⟩
      | some nxt => exact ⟨conceptsAux c f nxt, by simp [conceptsAux, h]⟩

theorem conceptsAux_spec {c : FormalContext T} (hw : c.WellFormed) :
    ∀ fuel (cur : Finset ℕ × Finset ℕ),
      cur.2 ⊆ Finset.range c.attributes.length →
      c.index_attribute_hull cur.2 = cur.2 →
      cur.1 = c.index_attribute_derivation cur.2 →
      2 ^ (c.attributes.length + 1) ≤ weight c.attributes.length cur.2 + fuel →
      ((conceptsAux c fuel cur).map Prod.snd).Pairwise LecticLt ∧
      (∀ Y, Y ∈ (conceptsAux c fuel cur).map Prod.snd ↔
        (Y ⊆ Finset.range c.attributes.length ∧ c.index_attribute_hull Y = Y ∧
          (cur.2 = Y ∨ LecticLt cur.2 Y))) ∧
      (∀ p ∈ conceptsAux c fuel cur, p.1 = c.index_attribute_derivation p.2) := by
  intro fuel
  induction fuel with
  | zero =>
      intro cur h1 _ _ hfuel
      exfalso
      have := weight_lt_pow h1
      omega
  | succ fuel ih =>
      intro cur h1 h2 h3 hfuel
      have hbridge : (next_concept c cur.2).map Prod.snd =
          nextClosedAux c.index_attribute_hull cur.2 c.attributes.length :=
        nextConceptAux_snd c cur.2 c.attributes.length
      cases hnext : next_concept c cur.2 with
      | none =>
          have hnone : nextClosedAux c.index_attribute_hull cur.2
              c.attributes.length = none := by
            rw [← hbridge, hnext]; rfl
          have htop : cur.2 = Finset.range c.attributes.length :=
            nextClosed_none (hull_closureOn hw) h1 hnone
          have hlist : conceptsAux c (fuel + 1) cur = [cur] := by
            simp [conceptsAux, hnext]
          rw [hlist]
          refine ⟨by simp, ?_, ?_⟩
          · intro Y
            simp only [List.map_cons, List.map_nil, List.mem_singleton]
            constructor
            · intro h
              subst h
              exact ⟨h1, h2, Or.inl rfl⟩
            · rintro ⟨hYr, _, hor⟩
              rcases hor with h | h
              · exact h.symm
              · exfalso
                have hwlt := weight_lt_of_lecticLt h1 hYr h
                have hle : weight c.attributes.length Y ≤
                    weight c.attributes.length cur.2 := by
                  rw [htop]
                  exact Finset.sum_le_sum_of_subset hYr
                omega
          · intro p hp
            rw [List.mem_singleton] at hp
            subst hp
            exact h3
      | some nxt =>
          obtain ⟨gs, b⟩ := nxt
          have hsome : nextClosedAux c.index_attribute_hull cur.2
              c.attributes.length = some b := by
            rw [← hbridge, hnext]; rfl
          obtain ⟨hbc, hbr, hblt, hbmin⟩ :=
            nextClosed_some (hull_closureOn hw) h1 hsome
          have hgs : gs = c.index_attribute_derivation b :=
            next_concept_extent hw h1 hnext
          have hwstep : weight c.attributes.length cur.2 <
              weight c.attributes.length b := weight_lt_of_lecticLt h1 hbr hblt
          have hfuel2 : 2 ^ (c.attributes.length + 1) ≤
              weight c.attributes.length b + fuel := by omega
          obtain ⟨hP, hM, hE⟩ := ih (gs, b) hbr hbc hgs hfuel2
          have hlist : conceptsAux c (fuel + 1) cur =
              cur :: conceptsAux c fuel (gs, b) := by
            simp [conceptsAux, hnext]
          rw [hlist]
          have hmem_gt : ∀ Y, Y ∈ (conceptsAux c fuel (gs, b)).map Prod.snd →
              LecticLt cur.2 Y ∧ Y ⊆ Finset.range c.attributes.length ∧
                c.index_attribute_hull Y = Y := by
            intro Y hY
            obtain ⟨hYr, hYc, hor⟩ := (hM Y).mp hY
            rcases hor with h | h
            · exact ⟨h ▸ hblt, hYr, hYc⟩
            · exact ⟨lecticLt_trans h1 hbr hYr hblt h, hYr, hYc⟩
          refine ⟨?_, ?_, ?_⟩
          · rw [List.map_cons]
            exact List.Pairwise.cons (fun Y hY => (hmem_gt Y hY).1) hP
          · intro Y
            rw [List.map_cons, List.mem_cons]
            constructor
            · rintro (h | h)
              · subst h
                exact ⟨h1, h2, Or.inl rfl⟩
              · obtain ⟨hlt, hYr, hYc⟩ := hmem_gt Y h
                exact ⟨hYr, hYc, Or.inr hlt⟩
            · rintro ⟨hYr, hYc, hor⟩
              rcases hor with h | h
              · exact Or.inl h.symm
              · refine Or.inr ((hM Y).mpr ⟨hYr, hYc, ?_⟩)
                exact hbmin Y hYc hYr h
          · intro p hp
            rcases List.mem_cons.mp hp with h | h
            · exact h ▸ h3
            · exact hE p h

/-- The NextClosure enumeration, stated as a reusable lemma: the emitted
second components are exactly the intents, pairwise lectically increasing,
and first components are the derivations of the seconds. -/
theorem concepts_spec {c : FormalContext T} (hw : c.WellFormed) :
    ((concepts c).map Prod.snd).Pairwise LecticLt ∧
    (∀ Y, Y ∈ (concepts c).map Prod.snd ↔
      (Y ⊆ Finset.range c.attributes.length ∧ c.index_attribute_hull Y = Y)) ∧
    (∀ p ∈ concepts c, p.1 = c.index_attribute_derivation p.2) := by
  rw [show concepts c = conceptsAux c (2 ^ (c.attributes.length + 1))
    (c.index_attribute_derivation ∅,
      c.index_object_derivation (c.index_attribute_derivation ∅)) from rfl]
  have h0 : (∅ : Finset ℕ) ⊆ Finset.range c.attributes.length := by
    intro x hx
    exact absurd hx (Finset.not_mem_empty x)
  have hseed_r : c.index_attribute_hull ∅ ⊆ Finset.range c.attributes.length :=
    (hull_closureOn hw).range_closed ∅ h0
  have hseed_c : c.index_attribute_hull (c.index_attribute_hull ∅) =
      c.index_attribute_hull ∅ := (hull_closureOn hw).idem ∅ h0
  have hseed_f : c.index_attribute_derivation ∅ =
      c.index_attribute_derivation (c.index_attribute_hull ∅) :=
    (FormalContext.index_attribute_derivation_hull hw
      (fun m hm => absurd hm (Finset.not_mem_empty m))).symm
  obtain ⟨hP, hM, hE⟩ := conceptsAux_spec hw (2 ^ (c.attributes.length + 1))
    (c.index_attribute_derivation ∅,
      c.index_object_derivation (c.index_attribute_derivation ∅))
    hseed_r hseed_c hseed_f (by omega)
  refine ⟨hP, ?_, hE⟩
  intro Y
  rw [hM Y]
  constructor
  · rintro ⟨hYr, hYc, _⟩
    exact ⟨hYr, hYc⟩
  · rintro ⟨hYr, hYc⟩
    refine ⟨hYr, hYc, ?_⟩
    have hsub : c.index_attribute_hull ∅ ⊆ Y := by
      calc c.index_attribute_hull ∅ ⊆ c.index_attribute_hull Y :=
            (hull_closureOn hw).mono h0 hYr (Finset.empty_subset Y)
        _ = Y := hYc
    rcases eq_or_lt_of_le hsub with h | h
    · exact Or.inl h
    · exact Or.inr (lecticLt_of_ssubset h)

/-! ### Correctness of `implication_closure` -/

/-- **C2.** For every well-formed formal context, the NextClosure iterator
`concepts` emits as second components exactly the intents
`{Y ⊆ M : hull Y = Y}`, pairwise in strictly increasing lectic order (hence
each exactly once), and each item's first component is the attribute
derivation of its intent (so every emitted pair is a formal concept). -/
theorem concepts_enumeration {c : FormalContext T} (hw : c.WellFormed) :
    ((concepts c).map Prod.snd).Pairwise LecticLt ∧
    (∀ Y, Y ∈ (concepts c).map Prod.snd ↔
      (Y ⊆ Finset.range c.attributes.length ∧ c.index_attribute_hull Y = Y)) ∧
    (∀ p ∈ concepts c, p.1 = c.index_attribute_derivation p.2) :=
  concepts_spec hw

theorem impPass_subset (L : List (Finset ℕ × Finset ℕ)) (output : Finset ℕ) :
    output ⊆ (impPass L output).2.1 := by
  induction L generalizing output with
  | nil => exact Finset.Subset.refl _
  | cons pc rest ih =>
      obtain ⟨p, c⟩ := pc
      by_cases h : p ⊆ output
      · simp only [impPass, if_pos h]
        exact Finset.Subset.trans Finset.subset_union_left (ih (output ∪ c))
      · simp only [impPass, if_neg h]
        exact ih output

theorem impPass_rem_sub (L : List (Finset ℕ × Finset ℕ)) (output : Finset ℕ) :
    ∀ pc ∈ (impPass L output).1, pc ∈ L := by
  induction L generalizing output with
  | nil => intro pc hpc; exact absurd hpc (List.not_mem_nil pc)
  | cons hd rest ih =>
      obtain ⟨p, c⟩ := hd
      intro pc hpc
      by_cases h : p ⊆ output
      · simp only [impPass, if_pos h] at hpc
        exact List.mem_cons_of_mem _ (ih (output ∪ c) pc hpc)
      · simp only [impPass, if_neg h] at hpc
        rcases List.mem_cons.mp hpc with he | ht
        · exact he ▸ List.mem_cons_self _ _
        · exact List.mem_cons_of_mem _ (ih output pc ht)

theorem impPass_length (L : List (Finset ℕ × Finset ℕ)) (output : Finset ℕ) :
    ((impPass L output).2.2 = true → (impPass L output).1.length < L.length) ∧
    (impPass L output).1.length ≤ L.length := by
  induction L generalizing output with
  | nil => exact ⟨by simp [impPass], by simp [impPass]⟩
  | cons hd rest ih =>
      obtain ⟨p, c⟩ := hd
      by_cases h : p ⊆ output
      · simp only [impPass, if_pos h, List.length_cons]
        have := (ih (output ∪ c)).2
        exact ⟨fun _ => by omega, by omega⟩
      · simp only [impPass, if_neg h, List.length_cons]
        obtain ⟨ih1, ih2⟩ := ih output
        exact ⟨fun hr => by have := ih1 hr; omega, by omega⟩

theorem impPass_min (L : List (Finset ℕ × Finset ℕ)) (output : Finset ℕ)
    (S : Finset ℕ) (hS : output ⊆ S) (hC : ImpClosed L S) :
    (impPass L output).2.1 ⊆ S := by
  induction L generalizing output with
  | nil => exact hS
  | cons hd rest ih =>
      obtain ⟨p, c⟩ := hd
      have hCr : ImpClosed rest S := fun pc hpc => hC pc (List.mem_cons_of_mem _ hpc)
      by_cases h : p ⊆ output
      · simp only [impPass, if_pos h]
        have hc : c ⊆ S := hC (p, c) (List.mem_cons_self _ _)
          (Finset.Subset.trans h hS)
        exact ih (output ∪ c) (Finset.union_subset hS hc) hCr
      · simp only [impPass, if_neg h]
        exact ih output hS hCr

theorem impPass_cover (L : List (Finset ℕ × Finset ℕ)) (output : Finset ℕ) :
    ∀ pc ∈ L, pc ∈ (impPass L output).1 ∨ pc.2 ⊆ (impPass L output).2.1 := by
  induction L generalizing output with
  | nil => intro pc hpc; exact absurd hpc (List.not_mem_nil pc)
  | cons hd rest ih =>
      obtain ⟨p, c⟩ := hd
      intro pc hpc
      by_cases h : p ⊆ output
      · simp only [impPass, if_pos h]
        rcases List.mem_cons.mp hpc with he | ht
        · refine Or.inr ?_
          subst he
          exact Finset.Subset.trans Finset.subset_union_right
            (impPass_subset rest (output ∪ c))
        · exact ih (output ∪ c) pc ht
      · simp only [impPass, if_neg h]
        rcases List.mem_cons.mp hpc with he | ht
        · exact Or.inl (he ▸ List.mem_cons_self _ _)
        · rcases ih output pc ht with hm | hs
          · exact Or.inl (List.mem_cons_of_mem _ hm)
          · exact Or.inr hs

theorem impPass_stable (L : List (Finset ℕ × Finset ℕ)) (output : Finset ℕ)
    (h : (impPass L output).2.2 = false) :
    (impPass L output).2.1 = output ∧ ∀ pc ∈ L, ¬ pc.1 ⊆ output := by
  induction L generalizing output with
  | nil => exact ⟨rfl, fun pc hpc => absurd hpc (List.not_mem_nil pc)⟩
  | cons hd rest ih =>
      obtain ⟨p, c⟩ := hd
      by_cases hsub : p ⊆ output
      · simp only [impPass, if_pos hsub] at h
        exact Bool.noConfusion h
      · simp only [impPass, if_neg hsub] at h ⊢
        obtain ⟨h1, h2⟩ := ih output h
        refine ⟨h1, fun pc hpc => ?_⟩
        rcases List.mem_cons.mp hpc with he | ht
        · exact he ▸ hsub
        · exact h2 pc ht

theorem impLoop_spec (L0 : List (Finset ℕ × Finset ℕ)) :
    ∀ fuel (L : List (Finset ℕ × Finset ℕ)) (output : Finset ℕ),
      L.length < fuel →
      (∀ pc ∈ L, pc ∈ L0) →
      (∀ pc ∈ L0, pc ∈ L ∨ pc.2 ⊆ output) →
      output ⊆ impLoop fuel L output ∧
      ImpClosed L0 (impLoop fuel L output) ∧
      (∀ S, output ⊆ S → ImpClosed L0 S → impLoop fuel L output ⊆ S) := by
  intro fuel
  induction fuel with
  | zero => intro L output h; omega
  | succ fuel ih =>
      intro L output hlen hsub hcov
      by_cases hrep : (impPass L output).2.2 = true
      · have hloop : impLoop (fuel + 1) L output =
            impLoop fuel (impPass L output).1 (impPass L output).2.1 := by
          simp only [impLoop, hrep, if_true]
        rw [hloop]
        have hlen2 : (impPass L output).1.length < fuel := by
          have := (impPass_length L output).1 hrep
          omega
        have hsub2 : ∀ pc ∈ (impPass L output).1, pc ∈ L0 :=
          fun pc hpc => hsub pc (impPass_rem_sub L output pc hpc)
        have hcov2 : ∀ pc ∈ L0, pc ∈ (impPass L output).1 ∨
            pc.2 ⊆ (impPass L output).2.1 := by
          intro pc hpc
          rcases hcov pc hpc with hm | hs
          · exact impPass_cover L output pc hm
          · exact Or.inr (Finset.Subset.trans hs (impPass_subset L output))
        obtain ⟨s1, s2, s3⟩ := ih (impPass L output).1 (impPass L output).2.1
          hlen2 hsub2 hcov2
        refine ⟨Finset.Subset.trans (impPass_subset L output) s1, s2, ?_⟩
        intro S hS hCS
        exact s3 S (impPass_min L output S hS
          (fun pc hpc => hCS pc (hsub pc hpc))) hCS
      · have hrep' : (impPass L output).2.2 = false := by
          revert hrep
          cases (impPass L output).2.2 <;> simp
        have hloop : impLoop (fuel + 1) L output = (impPass L output).2.1 := by
          simp [impLoop, hrep']
        obtain ⟨hout, hnone⟩ := impPass_stable L output hrep'
        rw [hloop, hout]
        refine ⟨Finset.Subset.refl _, ?_, fun S hS _ => hS⟩
        intro pc hpc hfire
        rcases hcov pc hpc with hm | hs
        · exact absurd hfire (hnone pc hm)
        · exact hs

theorem implication_closure_spec (L : List (Finset ℕ × Finset ℕ))
    (Z : Finset ℕ) :
    Z ⊆ implication_closure L Z ∧
    ImpClosed L (implication_closure L Z) ∧
    (∀ S, Z ⊆ S → ImpClosed L S → implication_closure L Z ⊆ S) :=
  impLoop_spec L (L.length + 1) L Z (by omega) (fun _ h => h)
    (fun pc h => Or.inl h)

theorem implication_closure_eq_iff (L : List (Finset ℕ × Finset ℕ))
    (Z : Finset ℕ) : implication_closure L Z = Z ↔ ImpClosed L Z := by
  constructor
  · intro h
    exact h ▸ (implication_closure_spec L Z).2.1
  · intro h
    apply Finset.Subset.antisymm
    · exact (implication_closure_spec L Z).2.2 Z (Finset.Subset.refl Z) h
    · exact (implication_closure_spec L Z).1

theorem implication_closure_closureOn {n : ℕ}
    {L : List (Finset ℕ × Finset ℕ)} (hconc : ∀ pc ∈ L, pc.2 ⊆ Finset.range n) :
    ClosureOn n (implication_closure L) := by
  have hrange : ImpClosed L (Finset.range n) :=
    fun pc hpc _ => hconc pc hpc
  refine ⟨?_, ?_, ?_, ?_⟩
  · intro A _
    exact (implication_closure_spec L A).1
  · intro A hA
    exact (implication_closure_spec L A).2.2 _ hA hrange
  · intro A B _ hB hAB
    exact (implication_closure_spec L A).2.2 _
      (Finset.Subset.trans hAB (implication_closure_spec L B).1)
      (implication_closure_spec L B).2.1
  · intro A _
    apply Finset.Subset.antisymm
    · exact (implication_closure_spec L (implication_closure L A)).2.2 _
        (Finset.Subset.refl _) (implication_closure_spec L A).2.1
    · exact (implication_closure_spec L (implication_closure L A)).1

/-! ### `next_preclosure` is the generic successor for the implication closure -/

theorem forall_sdiff_insert_iff (b A : Finset ℕ) (i : ℕ) :
    (∀ x ∈ b \ insert i (cut A i), i ≤ x) ↔ (∀ x ∈ b \ cut A i, i ≤ x) := by
  constructor
  · intro h x hx
    rw [Finset.mem_sdiff] at hx
    by_cases he : x = i
    · exact he ▸ le_refl i
    · refine h x (Finset.mem_sdiff.mpr ⟨hx.1, ?_⟩)
      intro hc
      rcases Finset.mem_insert.mp hc with h1 | h1
      · exact he h1
      · exact hx.2 h1
  · intro h x hx
    rw [Finset.mem_sdiff] at hx
    exact h x (Finset.mem_sdiff.mpr ⟨hx.1, fun hc => hx.2 (Finset.mem_insert_of_mem hc)⟩)

theorem nextPreclosureAux_eq (L : List (Finset ℕ × Finset ℕ)) (Z : Finset ℕ) :
    ∀ i, nextPreclosureAux L Z i = nextClosedAux (implication_closure L) Z i := by
  intro i
  induction i with
  | zero => rfl
  | succ m ih =>
      by_cases hmem : m ∈ Z
      · simp only [nextPreclosureAux, nextClosedAux, if_pos hmem]
        exact ih
      · simp only [nextPreclosureAux, nextClosedAux, if_neg hmem]
        have hcond : (is_smallest_num m
            (implication_closure L (insert m (cut Z m)) \ insert m (cut Z m)) = true) ↔
            (∀ x ∈ implication_closure L (insert m (cut Z m)) \ cut Z m, m ≤ x) := by
          rw [is_smallest_num, decide_eq_true_iff]
          exact forall_sdiff_insert_iff _ Z m
        rw [if_congr hcond rfl ih]

theorem next_preclosure_spec {T : Type} (c : FormalContext T)
    (L : List (Finset ℕ × Finset ℕ)) (Z : Finset ℕ)
    (hcl : ClosureOn c.attributes.length (implication_closure L))
    (hZ : Z ⊆ Finset.range c.attributes.length)
    (hne : Z ≠ Finset.range c.attributes.length) :
    implication_closure L (next_preclosure c L Z) = next_preclosure c L Z ∧
    next_preclosure c L Z ⊆ Finset.range c.attributes.length ∧
    LecticLt Z (next_preclosure c L Z) ∧
    (∀ C, implication_closure L C = C → C ⊆ Finset.range c.attributes.length →
      LecticLt Z C →
      next_preclosure c L Z = C ∨ LecticLt (next_preclosure c L Z) C) := by
  cases h : nextClosedAux (implication_closure L) Z c.attributes.length with
  | none => exact absurd (nextClosed_none hcl hZ h) hne
  | some B =>
      have hval : next_preclosure c L Z = B := by
        rw [next_preclosure, nextPreclosureAux_eq, h]
        rfl
      obtain ⟨h1, h2, h3, h4⟩ := nextClosed_some hcl hZ h
      rw [hval]
      exact ⟨h1, h2, h3, h4⟩

/-! ### The canonical basis is sound and complete (src/algorithms/canonical_basis.rs) -/

theorem set_upto_eq_range {n : ℕ} (h : 1 ≤ n) : set_upto (n - 1) = Finset.range n := by
  rw [set_upto]
  congr 1
  omega

theorem canonicalBasisLoop_spec {T : Type} {c : FormalContext T}
    (hw : c.WellFormed) (hM : 1 ≤ c.attributes.length) :
    ∀ fuel (Z : Finset ℕ) (L : List (Finset ℕ × Finset ℕ)),
      2 ^ (c.attributes.length + 1) ≤ weight c.attributes.length Z + fuel →
      Z ⊆ Finset.range c.attributes.length →
      (∀ pc ∈ L, pc.1 ⊆ Finset.range c.attributes.length ∧
        pc.2 = c.index_attribute_hull pc.1) →
      (∀ pc ∈ canonicalBasisLoop c fuel Z L,
        pc.1 ⊆ Finset.range c.attributes.length ∧
        pc.2 = c.index_attribute_hull pc.1) ∧
      (∀ pc ∈ L, pc ∈ canonicalBasisLoop c fuel Z L) ∧
      (∀ B, B ⊆ Finset.range c.attributes.length →
        ImpClosed (canonicalBasisLoop c fuel Z L) B →
        (Z = B ∨ LecticLt Z B) →
        c.index_attribute_hull B = B) := by
  intro fuel
  induction fuel with
  | zero =>
      intro Z L hfuel hZ _
      exfalso
      have := weight_lt_pow hZ
      omega
  | succ fuel ih =>
      intro Z L hfuel hZ hL
      by_cases hstop : Z = set_upto (c.attributes.length - 1)
      · have hloop : canonicalBasisLoop c (fuel + 1) Z L = L := by
          simp [canonicalBasisLoop, hstop]
        rw [hloop]
        have hZr : Z = Finset.range c.attributes.length :=
          hstop.trans (set_upto_eq_range hM)
        refine ⟨hL, fun pc hpc => hpc, ?_⟩
        intro B hB _ hor
        have hBZ : B = Finset.range c.attributes.length := by
          rcases hor with h | h
          · exact h ▸ hZr.symm ▸ hZr
          · exfalso
            rw [hZr] at h
            have hwlt := weight_lt_of_lecticLt (Finset.Subset.refl _) hB h
            have hle : weight c.attributes.length B ≤
                weight c.attributes.length (Finset.range c.attributes.length) :=
              Finset.sum_le_sum_of_subset hB
            omega
        subst hBZ
        apply Finset.Subset.antisymm
        · exact (hull_closureOn hw).range_closed _ (Finset.Subset.refl _)
        · exact (hull_closureOn hw).le _ (Finset.Subset.refl _)
      · have hne : Z ≠ Finset.range c.attributes.length := by
          rw [← set_upto_eq_range hM]
          exact hstop
        have hhull_sub : c.index_attribute_hull Z ⊆ Finset.range c.attributes.length :=
          (hull_closureOn hw).range_closed Z hZ
        set L2 : List (Finset ℕ × Finset ℕ) :=
          if Z ≠ c.index_attribute_hull Z then L ++ [(Z, c.index_attribute_hull Z)]
          else L with hL2
        have hL2good : ∀ pc ∈ L2, pc.1 ⊆ Finset.range c.attributes.length ∧
            pc.2 = c.index_attribute_hull pc.1 := by
          intro pc hpc
          rw [hL2] at hpc
          by_cases hd : Z ≠ c.index_attribute_hull Z
          · rw [if_pos hd] at hpc
            rcases List.mem_append.mp hpc with h | h
            · exact hL pc h
            · rw [List.mem_singleton] at h
              subst h
              exact ⟨hZ, rfl⟩
          · rw [if_neg hd] at hpc
            exact hL pc hpc
        have hLsubL2 : ∀ pc ∈ L, pc ∈ L2 := by
          intro pc hpc
          rw [hL2]
          by_cases hd : Z ≠ c.index_attribute_hull Z
          · rw [if_pos hd]
            exact List.mem_append_left _ hpc
          · rw [if_neg hd]
            exact hpc
        have hcl2 : ClosureOn c.attributes.length (implication_closure L2) :=
          implication_closure_closureOn
            (fun pc hpc => ((hL2good pc hpc).2 ▸
              (hull_closureOn hw).range_closed _ (hL2good pc hpc).1))
        obtain ⟨hp1, hp2, hp3, hp4⟩ := next_preclosure_spec c L2 Z hcl2 hZ hne
        have hloop : canonicalBasisLoop c (fuel + 1) Z L =
            canonicalBasisLoop c fuel (next_preclosure c L2 Z) L2 := by
          rw [canonicalBasisLoop, if_neg hstop]
        have hwstep : weight c.attributes.length Z <
            weight c.attributes.length (next_preclosure c L2 Z) :=
          weight_lt_of_lecticLt hZ hp2 hp3
        have hfuel2 : 2 ^ (c.attributes.length + 1) ≤
            weight c.attributes.length (next_preclosure c L2 Z) + fuel := by omega
        obtain ⟨q1, q2, q3⟩ := ih (next_preclosure c L2 Z) L2 hfuel2 hp2 hL2good
        rw [hloop]
        refine ⟨q1, fun pc hpc => q2 pc (hLsubL2 pc hpc), ?_⟩
        intro B hB hBclosed hor
        have hBL2 : ImpClosed L2 B :=
          fun pc hpc => hBclosed pc (q2 pc hpc)
        rcases hor with hZB | hZB
        · -- the loop visits Z itself: if it were not hull-closed the recorded
          -- implication would fire out of B = Z
          subst hZB
          by_cases hd : Z = c.index_attribute_hull Z
          · exact hd.symm
          · exfalso
            have hmem : (Z, c.index_attribute_hull Z) ∈ L2 := by
              rw [hL2, if_pos hd]
              exact List.mem_append_right _ (List.mem_singleton.mpr rfl)
            have := hBL2 _ hmem (Finset.Subset.refl Z)
            exact hd (Finset.Subset.antisymm ((hull_closureOn hw).le Z hZ) this)
        · -- B is strictly above Z: the next preclosure is below-or-equal B
          have hBc : implication_closure L2 B = B :=
            (implication_closure_eq_iff L2 B).mpr hBL2
          rcases hp4 B hBc hB hZB with h | h
          · exact q3 B hB hBclosed (Or.inl h)
          · exact q3 B hB hBclosed (Or.inr h)

/-- **C4.** For every well-formed context with at least one attribute, the
canonical basis is sound — every implication `(P, C)` satisfies `C ⊆ P″` —
and complete — the implicational closure of any attribute set `Y ⊆ M` under
the basis equals the context hull `Y″`. -/
theorem canonical_basis_sound_complete {T : Type} {c : FormalContext T}
    (hw : c.WellFormed) (hM : 1 ≤ c.attributes.length) :
    (∀ pc ∈ canonical_basis c, pc.2 ⊆ c.index_attribute_hull pc.1) ∧
    (∀ Y, Y ⊆ Finset.range c.attributes.length →
      implication_closure (canonical_basis c) Y = c.index_attribute_hull Y) := by
  obtain ⟨q1, _, q3⟩ := canonicalBasisLoop_spec hw hM
    (2 ^ (c.attributes.length + 1)) ∅ [] (by simp [weight])
    (Finset.empty_subset _) (fun pc hpc => absurd hpc (List.not_mem_nil pc))
  constructor
  · intro pc hpc
    rw [(q1 pc hpc).2]
  · intro Y hY
    have hLgood : ∀ pc ∈ canonical_basis c, pc.2 ⊆ Finset.range c.attributes.length :=
      fun pc hpc => (q1 pc hpc).2 ▸
        (hull_closureOn hw).range_closed _ (q1 pc hpc).1
    have hcl : ClosureOn c.attributes.length (implication_closure (canonical_basis c)) :=
      implication_closure_closureOn hLgood
    apply Finset.Subset.antisymm
    · -- soundness direction: the implicational closure stays inside the hull
      apply (implication_closure_spec (canonical_basis c) Y).2.2
      · exact (hull_closureOn hw).le Y hY
      · intro pc hpc hfire
        rw [(q1 pc hpc).2]
        calc c.index_attribute_hull pc.1 ⊆
            c.index_attribute_hull (c.index_attribute_hull Y) :=
              (hull_closureOn hw).mono (q1 pc hpc).1
                ((hull_closureOn hw).range_closed Y hY) hfire
          _ = c.index_attribute_hull Y := (hull_closureOn hw).idem Y hY
    · -- completeness direction: every basis-closed set is hull-closed
      have hBc : c.index_attribute_hull (implication_closure (canonical_basis c) Y) =
          implication_closure (canonical_basis c) Y := by
        apply q3
        · exact hcl.range_closed Y hY
        · exact (implication_closure_spec (canonical_basis c) Y).2.1
        · rcases eq_or_lt_of_le
            (Finset.empty_subset (implication_closure (canonical_basis c) Y)) with h | h
          · exact Or.inl h
          · exact Or.inr (lecticLt_of_ssubset h)
      calc c.index_attribute_hull Y ⊆
          c.index_attribute_hull (implication_closure (canonical_basis c) Y) :=
            (hull_closureOn hw).mono hY (hcl.range_closed Y hY)
              (implication_closure_spec (canonical_basis c) Y).1
        _ = implication_closure (canonical_basis c) Y := hBc


/-! ### C1: the incidence bookkeeping of the mutators -/

/-- **C1 (counterexample to the invariant).**  Start from a context with two
objects and no attributes and call `add_attribute` with object set `{1}`:
the new attribute gets index `0`, the object row `A[1]` and the attribute
column `D[0]` both record the pair, but the incidence receives the reversed
pair `(attribute_index, object) = (0, 1)`, so `(g, m) = (1, 0)` is in
`A`/`D` but not in the incidence: the three stored representations are
inconsistent after a public mutating operation. -/
theorem add_attribute_violates_invariant :
    ((FormalContext.construct [0, 1] ([] : List ℕ) ∅).add_attribute 0 {1}).incidence
        = {(0, 1)} ∧
    0 ∈ ((FormalContext.construct [0, 1] ([] : List ℕ) ∅).add_attribute 0
        {1}).atomic_object_derivations.getD 1 ∅ ∧
    1 ∈ ((FormalContext.construct [0, 1] ([] : List ℕ) ∅).add_attribute 0
        {1}).atomic_attribute_derivations.getD 0 ∅ ∧
    (1, 0) ∉ ((FormalContext.construct [0, 1] ([] : List ℕ) ∅).add_attribute 0
        {1}).incidence := by decide

/-! ### C9: totality of the other public operations -/

/-- **C9 (counterexample).**  `sort_lectic_order` panics on the empty slice
(`order.len() - 1` underflows `usize`), and `canonical_basis` panics on a
context with zero attributes (`attributes.len() - 1` underflows): neither
returns a plain value on those inputs. -/
theorem sort_and_basis_panic :
    (∀ (c : FormalContext ℕ), sort_lectic_order c [] = none) ∧
    canonical_basis? (FormalContext.construct [0] ([] : List ℕ) ∅) = none := by
  constructor
  · intro c
    simp [sort_lectic_order]
  · rfl


/-- Witness for the NextClosure enumeration theorem at a concrete context. -/
theorem concepts_enumeration_witness :
    sampleContext.WellFormed ∧
    (((concepts sampleContext).map Prod.snd).Pairwise LecticLt ∧
      (∀ Y, Y ∈ (concepts sampleContext).map Prod.snd ↔
        (Y ⊆ Finset.range sampleContext.attributes.length ∧
          sampleContext.index_attribute_hull Y = Y)) ∧
      (∀ p ∈ concepts sampleContext,
        p.1 = sampleContext.index_attribute_derivation p.2)) :=
  ⟨by decide, concepts_enumeration (by decide)⟩

/-- Witness for the canonical-basis theorem at a concrete context. -/
theorem canonical_basis_sound_complete_witness :
    (sampleContext.WellFormed ∧ 1 ≤ sampleContext.attributes.length) ∧
    ((∀ pc ∈ canonical_basis sampleContext,
        pc.2 ⊆ sampleContext.index_attribute_hull pc.1) ∧
      (∀ Y, Y ⊆ Finset.range sampleContext.attributes.length →
        implication_closure (canonical_basis sampleContext) Y =
          sampleContext.index_attribute_hull Y)) :=
  ⟨⟨by decide, by decide⟩, canonical_basis_sound_complete (by decide) (by decide)⟩


/-! ### C8: the Burmeister parser and short incidence rows -/

theorem readN_append (l1 l2 : List String) :
    FormalContext.readN l1.length (l1 ++ l2) = some (l1, l2) := by
  induction l1 with
  | nil => rfl
  | cons h t ih => simp [FormalContext.readN, ih]

/-- **C8 (counterexample).**  A byte input whose header, counts and name
lines are well-formed but whose two incidence rows are shorter than
`|M| = 2` parses successfully (missing columns are read as non-incident):
`from` does not validate the row length, so no `InvalidFormat` is raised. -/
theorem fromLines_short_row_not_invalid :
    FormalContext.fromLines
        ["B", "ctx", "2", "2", "", "o1", "o2", "a1", "a2", "X", ""] =
      Except.ok (FormalContext.construct ["o1", "o2"] ["a1", "a2"]
        (FormalContext.incidenceOfRows ["X", ""])) ∧
    FormalContext.incidenceOfRows ["X", ""] = {(0, 0)} :=
  ⟨rfl, by decide⟩

/-- **C8 (amended).**  For every input whose header, count and name lines
are well-formed, which has exactly `|G|` incidence rows marking only columns
below `|M|` (a mark at column `|M|` or beyond makes `construct` index
`atomic_attribute_derivations` out of bounds and panic), at least one row
shorter than `|M|`, `from` returns the successfully parsed context —
missing trailing columns are simply absent from the incidence — rather than
any error. -/
theorem fromLines_short_rows_ok (name blank sg sm : String)
    (objects attributes rows : List String)
    (hg : FormalContext.parseNat? sg = some objects.length)
    (hm : FormalContext.parseNat? sm = some attributes.length)
    (hrows : rows.length = objects.length)
    (_hshort : ∃ row ∈ rows, row.length < attributes.length)
    (_hcols : ∀ row ∈ rows, ∀ m, m < row.data.length →
      row.data.getD m 'o' = 'X' ∨ row.data.getD m 'o' = 'x' →
      m < attributes.length) :
    FormalContext.fromLines
        (["B", name, sg, sm, blank] ++ objects ++ attributes ++ rows) =
      Except.ok (FormalContext.construct objects attributes
        (FormalContext.incidenceOfRows rows)) := by
  have hshape : ["B", name, sg, sm, blank] ++ objects ++ attributes ++ rows =
      "B" :: name :: sg :: sm :: blank :: (objects ++ (attributes ++ rows)) := by
    simp
  rw [hshape]
  have hro : FormalContext.readN objects.length (objects ++ (attributes ++ rows)) =
      some (objects, attributes ++ rows) := readN_append objects (attributes ++ rows)
  have hra : FormalContext.readN attributes.length (attributes ++ rows) =
      some (attributes, rows) := readN_append attributes rows
  have hrr : FormalContext.readN objects.length rows = some (rows, []) := by
    have h := readN_append rows ([] : List String)
    rw [List.append_nil] at h
    rw [← hrows]
    exact h
  simp only [FormalContext.fromLines, hg, hm, hro, hra, hrr]
  simp

/-- Witness for the amended C8 theorem at a concrete input. -/
theorem fromLines_short_rows_ok_witness :
    (FormalContext.parseNat? ("2") = some (["o1", "o2"] : List String).length ∧
     FormalContext.parseNat? ("2") = some (["a1", "a2"] : List String).length ∧
     (["X", ""] : List String).length = (["o1", "o2"] : List String).length ∧
     (∃ row ∈ (["X", ""] : List String),
        row.length < (["a1", "a2"] : List String).length) ∧
     (∀ row ∈ (["X", ""] : List String), ∀ m, m < row.data.length →
        row.data.getD m 'o' = 'X' ∨ row.data.getD m 'o' = 'x' →
        m < (["a1", "a2"] : List String).length)) ∧
    FormalContext.fromLines
        (["B", "nm", "2", "2", "bl"] ++ ["o1", "o2"] ++ ["a1", "a2"] ++ ["X", ""]) =
      Except.ok (FormalContext.construct ["o1", "o2"] ["a1", "a2"]
        (FormalContext.incidenceOfRows ["X", ""])) :=
  ⟨⟨by decide, by decide, by decide, by decide, by decide⟩,
    fromLines_short_rows_ok ("nm") ("bl") ("2") ("2") ["o1", "o2"] ["a1", "a2"]
      ["X", ""] (by decide) (by decide) (by decide) (by decide) (by decide)⟩


/-! ### C10: `Graph::from_concepts` on small concept lists -/

/-- **C10.**  For every context and one-element concept list,
`Graph::from_concepts` returns `None` (`root_index == 0` triggers the early
return), and a Hasse-diagram graph (`Some`) is only ever produced from a
list with at least two concepts: with zero concepts the function panics
(`concepts.len() - 1` underflows) and with one it returns `None`. -/
theorem from_concepts_singleton_none {T : Type} :
    (∀ (c : FormalContext T) (concept : Finset ℕ × Finset ℕ)
      (layout : List (ℕ × ℕ) → List (ℕ × ℤ × ℤ) × ℕ × ℕ) (fuel : ℕ),
      from_concepts [concept] c layout fuel = some none) ∧
    (∀ (c : FormalContext T) (cs : List (Finset ℕ × Finset ℕ))
      (layout : List (ℕ × ℕ) → List (ℕ × ℤ × ℤ) × ℕ × ℕ) (fuel : ℕ),
      cs.length < 2 →
      ∀ g, from_concepts cs c layout fuel ≠ some (some g)) := by
  constructor
  · intro c concept layout fuel
    simp [from_concepts]
  · intro c cs layout fuel hlen g
    rcases cs with _ | ⟨x, _ | ⟨y, rest⟩⟩
    · simp [from_concepts]
    · simp [from_concepts]
    · simp at hlen
      omega

/-- Witness for the C10 theorem at a concrete input. -/
theorem from_concepts_singleton_none_witness :
    from_concepts [((∅ : Finset ℕ), (∅ : Finset ℕ))] sampleContext
        (fun _ => ([], 0, 0)) 5 = some none ∧
    ((([((∅ : Finset ℕ), (∅ : Finset ℕ))] : List (Finset ℕ × Finset ℕ)).length < 2) ∧
      ∀ g, from_concepts [((∅ : Finset ℕ), (∅ : Finset ℕ))] sampleContext
        (fun _ => ([], 0, 0)) 5 ≠ some (some g)) :=
  ⟨from_concepts_singleton_none.1 sampleContext (∅, ∅) (fun _ => ([], 0, 0)) 5,
    by decide,
    from_concepts_singleton_none.2 sampleContext [(∅, ∅)] (fun _ => ([], 0, 0)) 5
      (by decide)⟩


/-! ### C6: the two implication-closure algorithms -/

theorem hmLookup_insert (m : List ((Finset ℕ × Finset ℕ) × ℤ))
    (k k2 : Finset ℕ × Finset ℕ) (v : ℤ) :
    hmLookup (hmInsert m k v) k2 = if k2 = k then some v else hmLookup m k2 := by
  unfold hmInsert hmLookup
  by_cases h : k2 = k
  · subst h
    simp [List.find?]
  · rw [if_neg h]
    simp only [List.find?]
    rw [show (k == k2) = false from by
      simp only [beq_eq_false_iff_ne, ne_eq]
      exact fun hc => h hc.symm]


theorem count0_lookup (L : List (Finset ℕ × Finset ℕ)) :
    ∀ (m0 : List ((Finset ℕ × Finset ℕ) × ℤ)) (pc : Finset ℕ × Finset ℕ),
      hmLookup (L.foldl (fun m pc => hmInsert m pc (pc.1.card : ℤ)) m0) pc =
        if pc ∈ L then some (pc.1.card : ℤ) else hmLookup m0 pc := by
  induction L with
  | nil => simp
  | cons hd tl ih =>
      intro m0 pc
      simp only [List.foldl_cons]
      rw [ih]
      by_cases hmem : pc ∈ tl
      · rw [if_pos hmem, if_pos (List.mem_cons_of_mem hd hmem)]
      · rw [if_neg hmem, hmLookup_insert]
        by_cases he : pc = hd
        · subst he
          rw [if_pos rfl, if_pos (List.mem_cons_self _ _)]
        · rw [if_neg he, if_neg (fun hc => by
            rcases List.mem_cons.mp hc with h | h
            · exact he h
            · exact hmem h)]

theorem output0_acc_subset (L : List (Finset ℕ × Finset ℕ)) :
    ∀ acc : Finset ℕ,
      acc ⊆ L.foldl (fun out pc => if pc.1.card = 0 then out ∪ pc.2 else out) acc := by
  induction L with
  | nil => intro acc; exact Finset.Subset.refl _
  | cons hd tl ih =>
      intro acc
      simp only [List.foldl_cons]
      by_cases h : hd.1.card = 0
      · rw [if_pos h]
        exact Finset.Subset.trans Finset.subset_union_left (ih _)
      · rw [if_neg h]
        exact ih acc

theorem output0_fired (L : List (Finset ℕ × Finset ℕ)) :
    ∀ (acc : Finset ℕ) (pc : Finset ℕ × Finset ℕ), pc ∈ L → pc.1.card = 0 →
      pc.2 ⊆ L.foldl (fun out pc => if pc.1.card = 0 then out ∪ pc.2 else out) acc := by
  induction L with
  | nil => intro acc pc hpc; exact absurd hpc (List.not_mem_nil pc)
  | cons hd tl ih =>
      intro acc pc hpc hcard
      simp only [List.foldl_cons]
      rcases List.mem_cons.mp hpc with he | ht
      · subst he
        rw [if_pos hcard]
        exact Finset.Subset.trans Finset.subset_union_right (output0_acc_subset tl _)
      · exact ih _ pc ht hcard

theorem output0_sound (L : List (Finset ℕ × Finset ℕ)) (S : Finset ℕ)
    (hS : ImpClosed L S) :
    ∀ acc : Finset ℕ, acc ⊆ S →
      L.foldl (fun out pc => if pc.1.card = 0 then out ∪ pc.2 else out) acc ⊆ S := by
  induction L with
  | nil => intro acc h; exact h
  | cons hd tl ih =>
      intro acc hacc
      have hStl : ImpClosed tl S := fun pc hpc => hS pc (List.mem_cons_of_mem hd hpc)
      simp only [List.foldl_cons]
      by_cases h : hd.1.card = 0
      · rw [if_pos h]
        apply ih hStl
        apply Finset.union_subset hacc
        apply hS hd (List.mem_cons_self _ _)
        rw [Finset.card_eq_zero] at h
        rw [h]
        exact Finset.empty_subset S
      · rw [if_neg h]
        exact ih hStl acc hacc

theorem foldl_union_acc (L : List (Finset ℕ × Finset ℕ)) :
    ∀ acc : Finset ℕ, acc ⊆ L.foldl (fun s pc => s ∪ pc.2) acc := by
  induction L with
  | nil => intro acc; exact Finset.Subset.refl _
  | cons hd tl ih =>
      intro acc
      simp only [List.foldl_cons]
      exact Finset.Subset.trans Finset.subset_union_left (ih _)

theorem foldl_union_mem (L : List (Finset ℕ × Finset ℕ)) :
    ∀ (acc : Finset ℕ) (pc : Finset ℕ × Finset ℕ), pc ∈ L →
      pc.2 ⊆ L.foldl (fun s pc => s ∪ pc.2) acc := by
  induction L with
  | nil => intro acc pc hpc; exact absurd hpc (List.not_mem_nil pc)
  | cons hd tl ih =>
      intro acc pc hpc
      simp only [List.foldl_cons]
      rcases List.mem_cons.mp hpc with he | ht
      · subst he
        exact Finset.Subset.trans Finset.subset_union_right (foldl_union_acc tl _)
      · exact ih _ pc ht

theorem output0_subset_allAttrs (L : List (Finset ℕ × Finset ℕ)) :
    ∀ acc acc2 : Finset ℕ, acc ⊆ acc2 →
      L.foldl (fun out pc => if pc.1.card = 0 then out ∪ pc.2 else out) acc ⊆
        L.foldl (fun s pc => s ∪ pc.2) acc2 := by
  induction L with
  | nil => intro acc acc2 h; exact h
  | cons hd tl ih =>
      intro acc acc2 h
      simp only [List.foldl_cons]
      by_cases hc : hd.1.card = 0
      · rw [if_pos hc]
        exact ih _ _ (Finset.union_subset_union h (Finset.Subset.refl _))
      · rw [if_neg hc]
        exact ih _ _ (Finset.Subset.trans h Finset.subset_union_left)


theorem linFire_spec (L : List (Finset ℕ × Finset ℕ)) (procNew : Finset ℕ)
    (allC : Finset ℕ) (hallC : ∀ pc ∈ L, pc.2 ⊆ allC) :
    ∀ (entries : List (Finset ℕ × Finset ℕ))
      (count : List ((Finset ℕ × Finset ℕ) × ℤ)) (output update : Finset ℕ),
      entries.Nodup →
      (∀ pc ∈ entries, pc ∈ L) →
      (∀ pc ∈ L,
        hmLookup count pc = some ((pc.1.card : ℤ) - ((pc.1 ∩ procNew).card : ℤ) +
          (if pc ∈ entries then 1 else 0))) →
      (∀ pc ∈ L, pc.1 ⊆ procNew → pc ∉ entries → pc.2 ⊆ output) →
      procNew ⊆ output →
      ∃ D : Finset ℕ,
        (linFire entries count output update).2.1 = output ∪ D ∧
        (linFire entries count output update).2.2 = update ∪ D ∧
        (∀ x ∈ D, x ∉ output) ∧ D ⊆ allC ∧
        (∀ pc ∈ L,
          hmLookup (linFire entries count output update).1 pc =
            some ((pc.1.card : ℤ) - ((pc.1 ∩ procNew).card : ℤ))) ∧
        (∀ pc ∈ L, pc.1 ⊆ procNew →
          pc.2 ⊆ (linFire entries count output update).2.1) ∧
        (∀ S, output ⊆ S → ImpClosed L S →
          (linFire entries count output update).2.1 ⊆ S) := by
  intro entries
  induction entries with
  | nil =>
      intro count output update _ _ hcount hfired hproc
      refine ⟨∅, by simp [linFire], by simp [linFire], by simp, Finset.empty_subset _,
        ?_, ?_, ?_⟩
      · intro pc hpc
        have := hcount pc hpc
        simpa [linFire] using this
      · intro pc hpc hsub
        simpa [linFire] using hfired pc hpc hsub (List.not_mem_nil pc)
      · intro S hS _
        simpa [linFire] using hS
  | cons pc rest ih =>
      intro count output update hnodup hmem hcount hfired hproc
      have hpcL : pc ∈ L := hmem pc (List.mem_cons_self _ _)
      have hpc_rest : pc ∉ rest := (List.nodup_cons.mp hnodup).1
      have hnodup2 : rest.Nodup := (List.nodup_cons.mp hnodup).2
      have hlook : hmLookup count pc =
          some ((pc.1.card : ℤ) - ((pc.1 ∩ procNew).card : ℤ) + 1) := by
        rw [hcount pc hpcL, if_pos (List.mem_cons_self _ _)]
      have hnewCount : (hmLookup count pc).getD 0 - 1 =
          (pc.1.card : ℤ) - ((pc.1 ∩ procNew).card : ℤ) := by
        rw [hlook]
        simp only [Option.getD_some]
        ring
      have hcount2 : ∀ pc2 ∈ L,
          hmLookup (hmInsert count pc ((hmLookup count pc).getD 0 - 1)) pc2 =
            some ((pc2.1.card : ℤ) - ((pc2.1 ∩ procNew).card : ℤ) +
              (if pc2 ∈ rest then 1 else 0)) := by
        intro pc2 hpc2
        rw [hmLookup_insert]
        by_cases he : pc2 = pc
        · subst he
          rw [if_pos rfl, if_neg hpc_rest, hnewCount]
          ring_nf
        · rw [if_neg he, hcount pc2 hpc2]
          congr 2
          by_cases hr : pc2 ∈ rest
          · rw [if_pos hr, if_pos (List.mem_cons_of_mem pc hr)]
          · rw [if_neg hr, if_neg (fun hc => by
              rcases List.mem_cons.mp hc with h | h
              · exact he h
              · exact hr h)]
      have hinter_le : (pc.1 ∩ procNew).card ≤ pc.1.card :=
        Finset.card_le_card Finset.inter_subset_left
      by_cases hfire : (hmLookup count pc).getD 0 - 1 = 0
      · -- the counter reached zero: the premise is fully processed, fire
        have hPsub : pc.1 ⊆ procNew := by
          rw [hnewCount] at hfire
          have hcard : (pc.1 ∩ procNew).card = pc.1.card := by omega
          rw [← Finset.inter_eq_left]
          exact Finset.eq_of_subset_of_card_le Finset.inter_subset_left
            (le_of_eq hcard.symm)
        have hstep : linFire (pc :: rest) count output update =
            linFire rest (hmInsert count pc ((hmLookup count pc).getD 0 - 1))
              (output ∪ (pc.2 \ output)) (update ∪ (pc.2 \ output)) := by
          simp only [linFire]
          rw [if_pos hfire]
        have hfired2 : ∀ pc2 ∈ L, pc2.1 ⊆ procNew → pc2 ∉ rest →
            pc2.2 ⊆ output ∪ (pc.2 \ output) := by
          intro pc2 hpc2 hsub hnr
          by_cases he : pc2 = pc
          · subst he
            rw [Finset.union_sdiff_self_eq_union]
            exact Finset.subset_union_right
          · have : pc2 ∉ pc :: rest := fun hc => by
              rcases List.mem_cons.mp hc with h | h
              · exact he h
              · exact hnr h
            exact Finset.Subset.trans (hfired pc2 hpc2 hsub this)
              Finset.subset_union_left
        obtain ⟨D, hD1, hD2, hD3, hD4, hD5, hD6, hD7⟩ :=
          ih (hmInsert count pc ((hmLookup count pc).getD 0 - 1))
            (output ∪ (pc.2 \ output)) (update ∪ (pc.2 \ output)) hnodup2
            (fun pc2 h => hmem pc2 (List.mem_cons_of_mem pc h)) hcount2 hfired2
            (Finset.Subset.trans hproc Finset.subset_union_left)
        refine ⟨(pc.2 \ output) ∪ D, ?_, ?_, ?_, ?_, ?_, ?_, ?_⟩
        · rw [hstep, hD1, Finset.union_assoc]
        · rw [hstep, hD2, Finset.union_assoc]
        · intro x hx
          rcases Finset.mem_union.mp hx with h | h
          · exact (Finset.mem_sdiff.mp h).2
          · intro hc
            exact hD3 x h (Finset.mem_union_left _ hc)
        · apply Finset.union_subset
          · exact Finset.Subset.trans (Finset.sdiff_subset) (hallC pc hpcL)
          · exact hD4
        · intro pc2 hpc2
          rw [hstep]
          exact hD5 pc2 hpc2
        · intro pc2 hpc2 hsub
          rw [hstep]
          exact hD6 pc2 hpc2 hsub
        · intro S hS hC
          rw [hstep]
          apply hD7 S ?_ hC
          apply Finset.union_subset hS
          apply Finset.Subset.trans (Finset.sdiff_subset)
          exact hC pc hpcL (Finset.Subset.trans hPsub (Finset.Subset.trans hproc hS))
      · -- no fire: the premise is still missing an attribute
        have hstep : linFire (pc :: rest) count output update =
            linFire rest (hmInsert count pc ((hmLookup count pc).getD 0 - 1))
              output update := by
          simp only [linFire]
          rw [if_neg hfire]
        have hfired2 : ∀ pc2 ∈ L, pc2.1 ⊆ procNew → pc2 ∉ rest →
            pc2.2 ⊆ output := by
          intro pc2 hpc2 hsub hnr
          by_cases he : pc2 = pc
          · exfalso
            apply hfire
            rw [hnewCount]
            subst he
            have : pc2.1 ∩ procNew = pc2.1 := Finset.inter_eq_left.mpr hsub
            rw [this]
            ring
          · have : pc2 ∉ pc :: rest := fun hc => by
              rcases List.mem_cons.mp hc with h | h
              · exact he h
              · exact hnr h
            exact hfired pc2 hpc2 hsub this
        obtain ⟨D, hD1, hD2, hD3, hD4, hD5, hD6, hD7⟩ :=
          ih (hmInsert count pc ((hmLookup count pc).getD 0 - 1)) output update
            hnodup2 (fun pc2 h => hmem pc2 (List.mem_cons_of_mem pc h)) hcount2
            hfired2 hproc
        refine ⟨D, ?_, ?_, hD3, hD4, ?_, ?_, ?_⟩
        · rw [hstep, hD1]
        · rw [hstep, hD2]
        · intro pc2 hpc2
          rw [hstep]
          exact hD5 pc2 hpc2
        · intro pc2 hpc2 hsub
          rw [hstep]
          exact hD6 pc2 hpc2 hsub
        · intro S hS hC
          rw [hstep]
          exact hD7 S hS hC


theorem sdiff_erase_eq {output update : Finset ℕ} {m : ℕ}
    (hm : m ∈ update) (hsub : update ⊆ output) :
    output \ update.erase m = (output \ update) ∪ {m} := by
  ext x
  simp only [Finset.mem_sdiff, Finset.mem_union, Finset.mem_erase,
    Finset.mem_singleton]
  constructor
  · rintro ⟨hxo, hxe⟩
    by_cases he : x = m
    · exact Or.inr he
    · exact Or.inl ⟨hxo, fun hc => hxe ⟨he, hc⟩⟩
  · rintro (⟨hxo, hxu⟩ | he)
    · exact ⟨hxo, fun hc => hxu hc.2⟩
    · subst he
      exact ⟨hsub hm, fun hc => hc.1 rfl⟩

theorem linLoop_spec (L : List (Finset ℕ × Finset ℕ)) (hnodup : L.Nodup)
    (Z : Finset ℕ) (allA : Finset ℕ) (hallA : ∀ pc ∈ L, pc.2 ⊆ allA) :
    ∀ (fuel : ℕ) (count : List ((Finset ℕ × Finset ℕ) × ℤ))
      (output update : Finset ℕ),
      Z ⊆ output → update ⊆ output → output ⊆ allA →
      (∀ pc ∈ L, hmLookup count pc =
        some ((pc.1.card : ℤ) - ((pc.1 ∩ (output \ update)).card : ℤ))) →
      (∀ pc ∈ L, pc.1 ⊆ output \ update → pc.2 ⊆ output) →
      (∀ S, Z ⊆ S → ImpClosed L S → output ⊆ S) →
      update.card + (allA \ output).card < fuel →
      (Z ⊆ linLoop (fun a => L.filter (fun pc => a ∈ pc.1)) fuel count output update ∧
       ImpClosed L (linLoop (fun a => L.filter (fun pc => a ∈ pc.1)) fuel count output update) ∧
       (∀ S, Z ⊆ S → ImpClosed L S →
         linLoop (fun a => L.filter (fun pc => a ∈ pc.1)) fuel count output update ⊆ S)) := by
  intro fuel
  induction fuel with
  | zero => intro count output update _ _ _ _ _ _ hfuel; omega
  | succ fuel ih =>
      intro count output update hZ hupd hall hcount hfired hsound hfuel
      cases hs : update.min with
      | top =>
        -- the worklist is empty: the loop stops and the output is closed
        have hupde : update = ∅ := Finset.min_eq_top.mp hs
        have hloop : linLoop (fun a => L.filter (fun pc => a ∈ pc.1))
            (fuel + 1) count output update = output := by
          simp only [linLoop, hs]
        rw [hloop]
        refine ⟨hZ, ?_, hsound⟩
        intro pc hpc hsub
        apply hfired pc hpc
        rw [hupde, Finset.sdiff_empty]
        exact hsub
      | coe m =>
        -- pop the smallest queued attribute m and process its entries
        have hm : m ∈ update := Finset.mem_of_min hs
        have hmo : m ∈ output := hupd hm
        have hmnp : m ∉ output \ update := fun hc =>
          (Finset.mem_sdiff.mp hc).2 hm
        have hproc : output \ update.erase m = (output \ update) ∪ {m} :=
          sdiff_erase_eq hm hupd
        have hloop : linLoop (fun a => L.filter (fun pc => a ∈ pc.1))
            (fuel + 1) count output update =
            linLoop (fun a => L.filter (fun pc => a ∈ pc.1)) fuel
              (linFire (L.filter (fun pc => m ∈ pc.1)) count output
                (update.erase m)).1
              (linFire (L.filter (fun pc => m ∈ pc.1)) count output
                (update.erase m)).2.1
              (linFire (L.filter (fun pc => m ∈ pc.1)) count output
                (update.erase m)).2.2 := by
          simp only [linLoop, hs]
        have hentries_nodup : (L.filter (fun pc => m ∈ pc.1)).Nodup :=
          List.Nodup.filter _ hnodup
        have hentries_mem : ∀ pc ∈ L.filter (fun pc => m ∈ pc.1), pc ∈ L :=
          fun pc hpc => (List.mem_filter.mp hpc).1
        have hcount2 : ∀ pc ∈ L, hmLookup count pc =
            some ((pc.1.card : ℤ) -
              ((pc.1 ∩ ((output \ update) ∪ {m})).card : ℤ) +
              (if pc ∈ L.filter (fun pc => m ∈ pc.1) then 1 else 0)) := by
          intro pc hpc
          rw [hcount pc hpc]
          congr 1
          have hsplit : pc.1 ∩ ((output \ update) ∪ {m}) =
              (pc.1 ∩ (output \ update)) ∪ (pc.1 ∩ {m}) :=
            Finset.inter_union_distrib_left _ _ _
          have hdisj : ∀ x ∈ pc.1 ∩ (output \ update), x ∉ pc.1 ∩ {m} := by
            intro x hx hc
            have := Finset.mem_singleton.mp (Finset.mem_inter.mp hc).2
            subst this
            exact hmnp (Finset.mem_inter.mp hx).2
          have hcard : (pc.1 ∩ ((output \ update) ∪ {m})).card =
              (pc.1 ∩ (output \ update)).card + (pc.1 ∩ {m}).card := by
            rw [hsplit]
            exact Finset.card_union_of_disjoint
              (Finset.disjoint_left.mpr hdisj)
          rw [hcard]
          by_cases hmp : m ∈ pc.1
          · have h1 : pc.1 ∩ {m} = {m} := by
              rw [Finset.inter_eq_right]
              intro x hx
              exact (Finset.mem_singleton.mp hx) ▸ hmp
            have h2 : pc ∈ L.filter (fun pc => m ∈ pc.1) :=
              List.mem_filter.mpr ⟨hpc, by simpa using hmp⟩
            rw [h1, if_pos h2]
            simp only [Finset.card_singleton]
            push_cast
            ring
          · have h1 : pc.1 ∩ {m} = ∅ := by
              rw [Finset.eq_empty_iff_forall_not_mem]
              intro x hx
              exact hmp ((Finset.mem_singleton.mp (Finset.mem_inter.mp hx).2) ▸
                (Finset.mem_inter.mp hx).1)
            have h2 : pc ∉ L.filter (fun pc => m ∈ pc.1) := fun hc =>
              hmp (by simpa using (List.mem_filter.mp hc).2)
            rw [h1, if_neg h2]
            simp
        have hfired2 : ∀ pc ∈ L, pc.1 ⊆ (output \ update) ∪ {m} →
            pc ∉ L.filter (fun pc => m ∈ pc.1) → pc.2 ⊆ output := by
          intro pc hpc hsub hnf
          have hmp : m ∉ pc.1 := fun hc =>
            hnf (List.mem_filter.mpr ⟨hpc, by simpa using hc⟩)
          apply hfired pc hpc
          intro x hx
          rcases Finset.mem_union.mp (hsub hx) with h | h
          · exact h
          · exact absurd ((Finset.mem_singleton.mp h) ▸ hx) hmp
        obtain ⟨D, hD1, hD2, hD3, hD4, hD5, hD6, hD7⟩ :=
          linFire_spec L ((output \ update) ∪ {m}) allA hallA
            (L.filter (fun pc => m ∈ pc.1)) count output (update.erase m)
            hentries_nodup hentries_mem hcount2 hfired2
            (Finset.union_subset Finset.sdiff_subset
              (Finset.singleton_subset_iff.mpr hmo))
        rw [hloop, hD1, hD2]
        have hDnotout : ∀ x ∈ D, x ∉ output := hD3
        have hprocNew : (output ∪ D) \ (update.erase m ∪ D) =
            (output \ update) ∪ {m} := by
          ext x
          simp only [Finset.mem_sdiff, Finset.mem_union]
          constructor
          · rintro ⟨hxo | hxd, hxn⟩
            · have hxu : x ∉ update.erase m := fun hc => hxn (Or.inl hc)
              have hx3 := Finset.mem_sdiff.mpr ⟨hxo, hxu⟩
              rw [hproc] at hx3
              rcases Finset.mem_union.mp hx3 with h | h
              · exact Or.inl (Finset.mem_sdiff.mp h)
              · exact Or.inr h
            · exact absurd hxd (fun hc => hxn (Or.inr hc))
          · intro hx
            have hx2 : x ∈ output \ update.erase m := by
              rw [hproc]
              apply Finset.mem_union.mpr
              rcases hx with h | h
              · exact Or.inl (Finset.mem_sdiff.mpr h)
              · exact Or.inr h
            obtain ⟨hxo, hxu⟩ := Finset.mem_sdiff.mp hx2
            exact ⟨Or.inl hxo, fun hc => by
              rcases hc with hc | hc
              · exact hxu hc
              · exact hDnotout x hc hxo⟩
        apply ih
        · exact Finset.Subset.trans hZ Finset.subset_union_left
        · apply Finset.union_subset_union ?_ (Finset.Subset.refl D)
          exact Finset.Subset.trans (Finset.erase_subset m update) hupd
        · exact Finset.union_subset hall hD4
        · intro pc hpc
          rw [hprocNew]
          exact hD5 pc hpc
        · intro pc hpc hsub
          rw [hprocNew] at hsub
          exact Finset.Subset.trans (hD6 pc hpc hsub) (by rw [hD1])
        · intro S hZS hCS
          have hout : output ⊆ S := hsound S hZS hCS
          have := hD7 S hout hCS
          rw [hD1] at this
          exact this
        · -- the measure |update| + |allA \ output| strictly decreases
          have hcard1 : (update.erase m ∪ D).card ≤ update.card - 1 + D.card := by
            have h1 : (update.erase m).card = update.card - 1 :=
              Finset.card_erase_of_mem hm
            calc (update.erase m ∪ D).card ≤
                (update.erase m).card + D.card := Finset.card_union_le _ _
              _ = update.card - 1 + D.card := by rw [h1]
          have hDsub : D ⊆ allA \ output := by
            intro x hx
            exact Finset.mem_sdiff.mpr ⟨hD4 hx, hD3 x hx⟩
          have h1 : allA \ (output ∪ D) = (allA \ output) \ D := by
            ext x
            simp only [Finset.mem_sdiff, Finset.mem_union]
            tauto
          have hcard2 : (allA \ (output ∪ D)).card =
              (allA \ output).card - D.card := by
            rw [h1, Finset.card_sdiff hDsub]
          have hDle : D.card ≤ (allA \ output).card := Finset.card_le_card hDsub
          have hupos : 1 ≤ update.card := Finset.card_pos.mpr ⟨m, hm⟩
          omega


/-- **C6 (counterexample).**  On a list containing the same implication
twice, the linear algorithm's `HashMap` counter (keyed by the implication
value) is decremented twice per premise attribute through the duplicated
inverted-index entries, so the implication fires after seeing only half its
premise: `implication_closure_lin` returns `{0, 2}` on seed `{0}` although
`{0}` is already closed under the list, and the naive `implication_closure`
correctly returns `{0}`. -/
theorem implication_closure_lin_counterexample :
    implication_closure_lin [({0, 1}, {2}), ({0, 1}, {2})] {0} = {0, 2} ∧
    implication_closure [({0, 1}, {2}), ({0, 1}, {2})] {0} = {0} ∧
    (∀ pc ∈ ([({0, 1}, {2}), ({0, 1}, {2})] : List (Finset ℕ × Finset ℕ)),
      pc.1 ⊆ {0} → pc.2 ⊆ {0}) := by decide

/-- **C6 (amended).**  For every list of pairwise-distinct implications and
every seed, `implication_closure` and `implication_closure_lin` return
identical results (and by `implication_closure_spec` both are the smallest
superset of the seed closed under the list). -/
theorem implication_closure_lin_eq (L : List (Finset ℕ × Finset ℕ))
    (hnodup : L.Nodup) (Z : Finset ℕ) :
    implication_closure_lin L Z = implication_closure L Z := by
  have hstep : implication_closure_lin L Z =
      linLoop (fun a => L.filter (fun pc => a ∈ pc.1))
        (2 * (L.foldl (fun s pc => s ∪ pc.2) Z).card + 2)
        (L.foldl (fun m pc => hmInsert m pc (pc.1.card : ℤ)) [])
        (L.foldl (fun out pc => if pc.1.card = 0 then out ∪ pc.2 else out) Z)
        (L.foldl (fun out pc => if pc.1.card = 0 then out ∪ pc.2 else out) Z) := rfl
  set output0 := L.foldl (fun out pc => if pc.1.card = 0 then out ∪ pc.2 else out) Z
    with houtput0
  set allA := L.foldl (fun s pc => s ∪ pc.2) Z with hallA0
  have hallA : ∀ pc ∈ L, pc.2 ⊆ allA := fun pc hpc => foldl_union_mem L Z pc hpc
  have hZ0 : Z ⊆ output0 := output0_acc_subset L Z
  have hoA : output0 ⊆ allA :=
    output0_subset_allAttrs L Z Z (Finset.Subset.refl Z)
  have hcount : ∀ pc ∈ L,
      hmLookup (L.foldl (fun m pc => hmInsert m pc (pc.1.card : ℤ)) []) pc =
        some ((pc.1.card : ℤ) - ((pc.1 ∩ (output0 \ output0)).card : ℤ)) := by
    intro pc hpc
    rw [count0_lookup L [] pc, if_pos hpc]
    rw [Finset.sdiff_self, Finset.inter_empty]
    simp
  have hfired : ∀ pc ∈ L, pc.1 ⊆ output0 \ output0 → pc.2 ⊆ output0 := by
    intro pc hpc hsub
    rw [Finset.sdiff_self, Finset.subset_empty] at hsub
    apply output0_fired L Z pc hpc
    rw [hsub]
    rfl
  have hsound : ∀ S, Z ⊆ S → ImpClosed L S → output0 ⊆ S :=
    fun S hZS hCS => output0_sound L S hCS Z hZS
  have hfuel : output0.card + (allA \ output0).card < 2 * allA.card + 2 := by
    have h1 : output0.card ≤ allA.card := Finset.card_le_card hoA
    have h2 : (allA \ output0).card ≤ allA.card :=
      Finset.card_le_card Finset.sdiff_subset
    omega
  obtain ⟨hR1, hR2, hR3⟩ := linLoop_spec L hnodup Z allA hallA
    (2 * allA.card + 2)
    (L.foldl (fun m pc => hmInsert m pc (pc.1.card : ℤ)) [])
    output0 output0 hZ0 (Finset.Subset.refl output0) hoA hcount hfired hsound hfuel
  rw [hstep]
  apply Finset.Subset.antisymm
  · exact hR3 (implication_closure L Z) (implication_closure_spec L Z).1
      (implication_closure_spec L Z).2.1
  · exact (implication_closure_spec L Z).2.2 _ hR1 hR2

/-- Witness for the amended C6 theorem at a concrete duplicate-free list. -/
theorem implication_closure_lin_eq_witness :
    ([({0, 1}, {2}), ({3}, {4})] : List (Finset ℕ × Finset ℕ)).Nodup ∧
    implication_closure_lin [({0, 1}, {2}), ({3}, {4})] {0, 1} =
      implication_closure [({0, 1}, {2}), ({3}, {4})] {0, 1} :=
  ⟨by decide, implication_closure_lin_eq _ (by decide) _⟩


/-! ### C5: the optimised canonical-basis loop computes the stock basis -/

theorem nextClosedAuxIdx_fst (f : Finset ℕ → Finset ℕ) (A : Finset ℕ) :
    ∀ i, (nextClosedAuxIdx f A i).map Prod.fst = nextClosedAux f A i := by
  intro i
  induction i with
  | zero => rfl
  | succ i ih =>
      by_cases hmem : i ∈ A
      · simp only [nextClosedAuxIdx, nextClosedAux, if_pos hmem]
        exact ih
      · simp only [nextClosedAuxIdx, nextClosedAux, if_neg hmem]
        by_cases htest : ∀ x ∈ f (insert i (cut A i)) \ cut A i, i ≤ x
        · rw [if_pos htest, if_pos htest]
          rfl
        · rw [if_neg htest, if_neg htest]
          exact ih

theorem nextClosedAuxIdx_spec (f : Finset ℕ → Finset ℕ) (A : Finset ℕ) :
    ∀ i B j, nextClosedAuxIdx f A i = some (B, j) →
      j < i ∧ j ∉ A ∧ B = f (insert j (cut A j)) ∧
      (∀ x ∈ B \ cut A j, j ≤ x) := by
  intro i
  induction i with
  | zero => intro B j h; simp [nextClosedAuxIdx] at h
  | succ i ih =>
      intro B j h
      by_cases hmem : i ∈ A
      · rw [nextClosedAuxIdx, if_pos hmem] at h
        obtain ⟨h1, h2⟩ := ih B j h
        exact ⟨Nat.lt_succ_of_lt h1, h2⟩
      · rw [nextClosedAuxIdx, if_neg hmem] at h
        by_cases htest : ∀ x ∈ f (insert i (cut A i)) \ cut A i, i ≤ x
        · rw [if_pos htest] at h
          simp only [Option.some.injEq, Prod.mk.injEq] at h
          obtain ⟨hB, hj⟩ := h
          subst hj
          exact ⟨Nat.lt_succ_self i, hmem, hB.symm, hB ▸ htest⟩
        · rw [if_neg htest] at h
          obtain ⟨h1, h2⟩ := ih B j h
          exact ⟨Nat.lt_succ_of_lt h1, h2⟩

theorem nextClosedAuxIdx_congr (f : Finset ℕ → Finset ℕ) (A B : Finset ℕ) :
    ∀ k, cut A k = cut B k →
      nextClosedAuxIdx f A k = nextClosedAuxIdx f B k := by
  intro k
  induction k with
  | zero => intro _; rfl
  | succ i ih =>
      intro hcut
      have hcuti : cut A i = cut B i := cut_eq_of_cut_eq hcut (Nat.le_succ i)
      have hmem : i ∈ A ↔ i ∈ B := by
        constructor
        · intro h
          exact (mem_cut.mp (hcut ▸ (mem_cut.mpr ⟨h, Nat.lt_succ_self i⟩))).1
        · intro h
          exact (mem_cut.mp (hcut.symm ▸ (mem_cut.mpr ⟨h, Nat.lt_succ_self i⟩))).1
      by_cases hA : i ∈ A
      · rw [nextClosedAuxIdx, if_pos hA, nextClosedAuxIdx, if_pos (hmem.mp hA)]
        exact ih hcuti
      · rw [nextClosedAuxIdx, if_neg hA, nextClosedAuxIdx,
          if_neg (fun h => hA (hmem.mpr h))]
        rw [hcuti]
        by_cases htest : ∀ x ∈ f (insert i (cut B i)) \ cut B i, i ≤ x
        · rw [if_pos htest, if_pos htest]
        · rw [if_neg htest, if_neg htest]
          exact ih hcuti

theorem nextClosedAuxIdx_skip_high (f : Finset ℕ → Finset ℕ) (A : Finset ℕ)
    (i : ℕ) :
    ∀ k, i + 1 ≤ k →
      (∀ p, i < p → p < k → p ∉ A →
        ¬ (∀ x ∈ f (insert p (cut A p)) \ cut A p, p ≤ x)) →
      nextClosedAuxIdx f A k = nextClosedAuxIdx f A (i + 1) := by
  intro k
  induction k with
  | zero => intro h; omega
  | succ m ih =>
      intro hk hfail
      rcases Nat.lt_or_ge (i + 1) (m + 1) with h | h
      · have him : i < m := by omega
        rw [nextClosedAuxIdx]
        by_cases hmem : m ∈ A
        · rw [if_pos hmem]
          exact ih (by omega) (fun p hp1 hp2 hp3 => hfail p hp1 (by omega) hp3)
        · rw [if_neg hmem]
          rw [if_neg (hfail m him (Nat.lt_succ_self m) hmem)]
          exact ih (by omega) (fun p hp1 hp2 hp3 => hfail p hp1 (by omega) hp3)
      · have : m + 1 = i + 1 := by omega
        rw [this]

/-- Implication closure is monotone in the implication list. -/
theorem implication_closure_mono_list (L L2 : List (Finset ℕ × Finset ℕ))
    (hsub : ∀ pc ∈ L, pc ∈ L2) (Z : Finset ℕ) :
    implication_closure L Z ⊆ implication_closure L2 Z := by
  apply (implication_closure_spec L Z).2.2
  · exact (implication_closure_spec L2 Z).1
  · intro pc hpc
    exact (implication_closure_spec L2 Z).2.1 pc (hsub pc hpc)

/-- A context-closed set is closed under any sound implication list. -/
theorem impClosed_of_hull_closed {T : Type} {c : FormalContext T}
    (hw : c.WellFormed) {L : List (Finset ℕ × Finset ℕ)}
    (hL : ∀ pc ∈ L, pc.1 ⊆ Finset.range c.attributes.length ∧
      pc.2 = c.index_attribute_hull pc.1)
    {S : Finset ℕ} (hS : S ⊆ Finset.range c.attributes.length)
    (hSc : c.index_attribute_hull S = S) : ImpClosed L S := by
  intro pc hpc hfire
  rw [(hL pc hpc).2]
  calc c.index_attribute_hull pc.1 ⊆ c.index_attribute_hull S :=
      (hull_closureOn hw).mono (hL pc hpc).1 hS hfire
    _ = S := hSc

/-- The fused loop of `canonical_basis_optimised` simulates the stock
`canonical_basis` loop.  The states are related in one of two ways: either
the round is synchronised (`temp = Zb` is the stock preclosure, already
context-closed, and the cursor covers all attributes), or the previous
hull adoption failed and `temp` is the preclosure truncated at its
generating position `i`.  In both cases the optimised inner search computes
exactly the stock `next_preclosure`, so the two loops append the same
implications in the same order. -/
theorem canonicalBasisOptimisedLoop_sim {T : Type} {c : FormalContext T}
    (hw : c.WellFormed) (hM : 1 ≤ c.attributes.length) :
    ∀ (f2 f1 : ℕ) (Zb temp : Finset ℕ) (i : ℕ)
      (L L2 : List (Finset ℕ × Finset ℕ)),
      Zb ⊆ Finset.range c.attributes.length →
      (∀ pc ∈ L, pc.1 ⊆ Finset.range c.attributes.length ∧
        pc.2 = c.index_attribute_hull pc.1) →
      L2 = (if Zb ≠ c.index_attribute_hull Zb
        then L ++ [(Zb, c.index_attribute_hull Zb)] else L) →
      ((temp = Zb ∧ i = c.attributes.length - 1 ∧
          c.index_attribute_hull Zb = Zb) ∨
        (i < c.attributes.length ∧ i ∈ Zb ∧
          temp = Zb.filter (fun x => x ≤ i) ∧
          Zb ⊆ implication_closure L2 (insert i (cut Zb i)) ∧
          ∃ q, q < i ∧ q ∈ c.index_attribute_hull Zb ∧ q ∉ Zb)) →
      2 ^ (c.attributes.length + 1) ≤ weight c.attributes.length Zb + f1 →
      2 ^ (c.attributes.length + 1) ≤ weight c.attributes.length Zb + f2 →
      canonicalBasisOptimisedLoop c f2 temp i L2 =
        canonicalBasisLoop c f1 Zb L := by
  intro f2
  induction f2 with
  | zero =>
      intro f1 Zb temp i L L2 hZb _ _ _ _ hf2
      exfalso
      have := weight_lt_pow hZb
      omega
  | succ fuel ih =>
      intro f1 Zb temp i L L2 hZb hL hL2 hcase hf1 hf2
      have hL2good : ∀ pc ∈ L2, pc.1 ⊆ Finset.range c.attributes.length ∧
          pc.2 = c.index_attribute_hull pc.1 := by
        intro pc hpc
        rw [hL2] at hpc
        by_cases hd : Zb ≠ c.index_attribute_hull Zb
        · rw [if_pos hd] at hpc
          rcases List.mem_append.mp hpc with h | h
          · exact hL pc h
          · rw [List.mem_singleton] at h
            subst h
            exact ⟨hZb, rfl⟩
        · rw [if_neg hd] at hpc
          exact hL pc hpc
      have hcl2 : ClosureOn c.attributes.length (implication_closure L2) :=
        implication_closure_closureOn
          (fun pc hpc => ((hL2good pc hpc).2 ▸
            (hull_closureOn hw).range_closed _ (hL2good pc hpc).1))
      by_cases hstop : Zb = set_upto (c.attributes.length - 1)
      · -- both loops halt, and there is no pending push
        have hZr : Zb = Finset.range c.attributes.length :=
          hstop.trans (set_upto_eq_range hM)
        have hhZb : c.index_attribute_hull Zb = Zb := by
          rw [hZr]
          exact Finset.Subset.antisymm
            ((hull_closureOn hw).range_closed _ (Finset.Subset.refl _))
            ((hull_closureOn hw).le _ (Finset.Subset.refl _))
        rcases hcase with ⟨htz, _, _⟩ | ⟨_, _, _, _, q, _, hq2, hq3⟩
        · have hL2L : L2 = L := by
            rw [hL2, if_neg (fun h => h hhZb.symm)]
          have hopt : canonicalBasisOptimisedLoop c (fuel + 1) temp i L2 = L2 := by
            rw [canonicalBasisOptimisedLoop, if_pos (htz.trans hstop)]
          rw [hopt, hL2L]
          cases f1 with
          | zero => rfl
          | succ f1a => rw [canonicalBasisLoop, if_pos hstop]
        · exfalso
          apply hq3
          rw [hZr]
          exact ((hull_closureOn hw).range_closed _ hZb) hq2
      · have hne : Zb ≠ Finset.range c.attributes.length := by
          rw [← set_upto_eq_range hM]
          exact hstop
        -- the guard of the optimised loop fails as well
        have htempne : ¬ temp = set_upto (c.attributes.length - 1) := by
          rcases hcase with ⟨htz, _, _⟩ | ⟨_, _, htd, _, _⟩
          · rw [htz]
            exact hstop
          · intro hts
            apply hne
            apply Finset.Subset.antisymm hZb
            intro x hx
            rw [← set_upto_eq_range hM, ← hts, htd] at hx
            exact (Finset.mem_filter.mp hx).1
        -- the restricted inner search equals the full search on `Zb`
        have hsearch : nextClosedAuxIdx (implication_closure L2) temp (i + 1) =
            nextClosedAuxIdx (implication_closure L2) Zb c.attributes.length := by
          rcases hcase with ⟨htz, hiz, _⟩ | ⟨hilt, hiZb, htd, hgen, q, hq1, hq2, hq3⟩
          · subst htz
            have hieq : i + 1 = c.attributes.length := by omega
            rw [hieq]
          · have hcut : cut temp (i + 1) = cut Zb (i + 1) := by
              ext x
              rw [htd]
              simp only [mem_cut, Finset.mem_filter]
              constructor
              · rintro ⟨⟨hx, _⟩, hlt⟩
                exact ⟨hx, hlt⟩
              · rintro ⟨hx, hlt⟩
                exact ⟨⟨hx, by omega⟩, hlt⟩
            have hstep1 := nextClosedAuxIdx_congr (implication_closure L2)
              temp Zb (i + 1) hcut
            have hZbmem : (Zb, c.index_attribute_hull Zb) ∈ L2 := by
              have hd : Zb ≠ c.index_attribute_hull Zb :=
                fun he => hq3 (he.symm ▸ hq2)
              rw [hL2, if_pos hd]
              exact List.mem_append_right _ (List.mem_singleton.mpr rfl)
            have hfail : ∀ p, i < p → p < c.attributes.length → p ∉ Zb →
                ¬ (∀ x ∈ implication_closure L2 (insert p (cut Zb p)) \ cut Zb p,
                  p ≤ x) := by
              intro p hip hplen hpZb hall
              have hsub1 : insert i (cut Zb i) ⊆ insert p (cut Zb p) := by
                intro x hx
                rcases Finset.mem_insert.mp hx with rfl | h
                · exact Finset.mem_insert_of_mem (mem_cut.mpr ⟨hiZb, hip⟩)
                · exact Finset.mem_insert_of_mem
                    (mem_cut.mpr ⟨(mem_cut.mp h).1, by
                      have := (mem_cut.mp h).2
                      omega⟩)
              have hins_i_range : insert i (cut Zb i) ⊆
                  Finset.range c.attributes.length := by
                apply Finset.insert_subset (Finset.mem_range.mpr hilt)
                intro x hx
                exact hZb (mem_cut.mp hx).1
              have hins_p_range : insert p (cut Zb p) ⊆
                  Finset.range c.attributes.length := by
                apply Finset.insert_subset (Finset.mem_range.mpr hplen)
                intro x hx
                exact hZb (mem_cut.mp hx).1
              have hZb_sub : Zb ⊆ implication_closure L2 (insert p (cut Zb p)) :=
                hgen.trans (hcl2.mono hins_i_range hins_p_range hsub1)
              have hq_in : q ∈ implication_closure L2 (insert p (cut Zb p)) :=
                ((implication_closure_spec L2 (insert p (cut Zb p))).2.1
                  (Zb, c.index_attribute_hull Zb) hZbmem hZb_sub) hq2
              have := hall q (Finset.mem_sdiff.mpr
                ⟨hq_in, fun hc => hq3 (mem_cut.mp hc).1⟩)
              omega
            have hstep2 := nextClosedAuxIdx_skip_high (implication_closure L2)
              Zb i c.attributes.length (by omega) hfail
            rw [hstep1, hstep2]
        cases hBj : nextClosedAuxIdx (implication_closure L2) Zb
            c.attributes.length with
        | none =>
            exfalso
            have hauxnone : nextClosedAux (implication_closure L2) Zb
                c.attributes.length = none := by
              rw [← nextClosedAuxIdx_fst, hBj]
              rfl
            exact hne (nextClosed_none hcl2 hZb hauxnone)
        | some bj =>
            obtain ⟨B, j⟩ := bj
            have hauxB : nextClosedAux (implication_closure L2) Zb
                c.attributes.length = some B := by
              rw [← nextClosedAuxIdx_fst, hBj]
              rfl
            have hZN : next_preclosure c L2 Zb = B := by
              rw [next_preclosure, nextPreclosureAux_eq, hauxB]
              rfl
            obtain ⟨hjlt, hjZb, hBdef, hBtest⟩ :=
              nextClosedAuxIdx_spec (implication_closure L2) Zb
                c.attributes.length B j hBj
            obtain ⟨hBc, hBr, hBlt, hBmin⟩ := nextClosed_some hcl2 hZb hauxB
            have hins_range : insert j (cut Zb j) ⊆
                Finset.range c.attributes.length := by
              apply Finset.insert_subset (Finset.mem_range.mpr hjlt)
              intro x hx
              exact hZb (mem_cut.mp hx).1
            have hle_b : insert j (cut Zb j) ⊆ B := by
              rw [hBdef]
              exact hcl2.le _ hins_range
            have hjB : j ∈ B := hle_b (Finset.mem_insert_self _ _)
            have hcutBZ : cut B j = cut Zb j := by
              ext x
              simp only [mem_cut]
              constructor
              · rintro ⟨hxB, hxlt⟩
                by_cases hxZ : x ∈ Zb
                · exact ⟨hxZ, hxlt⟩
                · exfalso
                  have hxnc : x ∉ cut Zb j := fun hc => hxZ (mem_cut.mp hc).1
                  have := hBtest x (Finset.mem_sdiff.mpr ⟨hxB, hxnc⟩)
                  omega
              · rintro ⟨hxZ, hxlt⟩
                exact ⟨hle_b (Finset.mem_insert_of_mem
                  (mem_cut.mpr ⟨hxZ, hxlt⟩)), hxlt⟩
            have hwB : weight c.attributes.length Zb <
                weight c.attributes.length B :=
              weight_lt_of_lecticLt hZb hBr hBlt
            set L3 : List (Finset ℕ × Finset ℕ) :=
              (if B ≠ c.index_attribute_hull B
                then L2 ++ [(B, c.index_attribute_hull B)] else L2) with hL3
            have hL3good : ∀ pc ∈ L3, pc.1 ⊆ Finset.range c.attributes.length ∧
                pc.2 = c.index_attribute_hull pc.1 := by
              intro pc hpc
              rw [hL3] at hpc
              by_cases hd : B ≠ c.index_attribute_hull B
              · rw [if_pos hd] at hpc
                rcases List.mem_append.mp hpc with h | h
                · exact hL2good pc h
                · rw [List.mem_singleton] at h
                  subst h
                  exact ⟨hBr, rfl⟩
              · rw [if_neg hd] at hpc
                exact hL2good pc hpc
            have hcl3 : ClosureOn c.attributes.length (implication_closure L3) :=
              implication_closure_closureOn
                (fun pc hpc => ((hL3good pc hpc).2 ▸
                  (hull_closureOn hw).range_closed _ (hL3good pc hpc).1))
            have hL2subL3 : ∀ pc ∈ L2, pc ∈ L3 := by
              intro pc hpc
              rw [hL3]
              by_cases hd : B ≠ c.index_attribute_hull B
              · rw [if_pos hd]
                exact List.mem_append_left _ hpc
              · rw [if_neg hd]
                exact hpc
            have hhBr : c.index_attribute_hull B ⊆
                Finset.range c.attributes.length :=
              (hull_closureOn hw).range_closed _ hBr
            have hBsubhB : B ⊆ c.index_attribute_hull B :=
              (hull_closureOn hw).le _ hBr
            have hhidem : c.index_attribute_hull (c.index_attribute_hull B) =
                c.index_attribute_hull B := (hull_closureOn hw).idem _ hBr
            -- one optimised round: search, push, adoption test
            have hopt : canonicalBasisOptimisedLoop c (fuel + 1) temp i L2 =
                if is_smallest_num j (c.index_attribute_hull B \ B) = true then
                  canonicalBasisOptimisedLoop c fuel (c.index_attribute_hull B)
                    (c.attributes.length - 1) L3
                else
                  canonicalBasisOptimisedLoop c fuel (retain_eq_less j B) j L3 := by
              rw [hL3]
              rw [canonicalBasisOptimisedLoop, if_neg htempne, hsearch, hBj]
            rw [hopt]
            cases f1 with
            | zero =>
                exfalso
                have := weight_lt_pow hZb
                omega
            | succ f1a =>
                have hstock : canonicalBasisLoop c (f1a + 1) Zb L =
                    canonicalBasisLoop c f1a (next_preclosure c L2 Zb) L2 := by
                  rw [hL2]
                  rw [canonicalBasisLoop, if_neg hstop]
                rw [hstock, hZN]
                by_cases hadopt : is_smallest_num j
                    (c.index_attribute_hull B \ B) = true
                · rw [if_pos hadopt]
                  have hadopt2 : ∀ x ∈ c.index_attribute_hull B \ B, j ≤ x := by
                    rw [is_smallest_num, decide_eq_true_iff] at hadopt
                    exact hadopt
                  by_cases hBh : B = c.index_attribute_hull B
                  · -- the preclosure is already context-closed: plain step
                    have hL3eq : L3 = L2 := by
                      rw [hL3, if_neg (fun h => h hBh)]
                    rw [hL3eq, ← hBh]
                    exact ih f1a B B (c.attributes.length - 1) L2 L2 hBr hL2good
                      (by rw [if_neg (fun h => h hBh)])
                      (Or.inl ⟨rfl, rfl, hBh.symm⟩)
                      (by omega) (by omega)
                  · -- fused hull adoption: the stock loop takes two steps
                    have hL3eq : L3 = L2 ++ [(B, c.index_attribute_hull B)] := by
                      rw [hL3, if_pos hBh]
                    have hBne : B ≠ Finset.range c.attributes.length := by
                      intro he
                      apply hBh
                      rw [he]
                      exact Finset.Subset.antisymm
                        ((hull_closureOn hw).le _ (Finset.Subset.refl _))
                        ((hull_closureOn hw).range_closed _ (Finset.Subset.refl _))
                    have hBguard : ¬ B = set_upto (c.attributes.length - 1) := by
                      rw [set_upto_eq_range hM]
                      exact hBne
                    have hmemB_L3 : (B, c.index_attribute_hull B) ∈ L3 := by
                      rw [hL3eq]
                      exact List.mem_append_right _ (List.mem_singleton.mpr rfl)
                    have hhull_closed :
                        implication_closure L3 (c.index_attribute_hull B) =
                          c.index_attribute_hull B :=
                      (implication_closure_eq_iff _ _).mpr
                        (impClosed_of_hull_closed hw hL3good hhBr hhidem)
                    have hBssub : B ⊂ c.index_attribute_hull B :=
                      lt_of_le_of_ne hBsubhB hBh
                    -- the hull is the least `L3`-closed set lectically above `B`
                    have hkey : ∀ C, implication_closure L3 C = C →
                        C ⊆ Finset.range c.attributes.length → LecticLt B C →
                        c.index_attribute_hull B = C ∨
                          LecticLt (c.index_attribute_hull B) C := by
                      rintro C hCc hCr ⟨p, hpC, hpB, hpcut⟩
                      have hCclosed : ImpClosed L3 C :=
                        (implication_closure_eq_iff L3 C).mp hCc
                      rcases lt_trichotomy p j with hpj | hpj | hpj
                      · right
                        refine ⟨p, hpC, ?_, ?_⟩
                        · intro hpH
                          have := hadopt2 p (Finset.mem_sdiff.mpr ⟨hpH, hpB⟩)
                          omega
                        · have hcutHB : cut (c.index_attribute_hull B) p =
                              cut B p := by
                            ext x
                            simp only [mem_cut]
                            constructor
                            · rintro ⟨hxH, hxlt⟩
                              by_cases hxB : x ∈ B
                              · exact ⟨hxB, hxlt⟩
                              · exfalso
                                have := hadopt2 x
                                  (Finset.mem_sdiff.mpr ⟨hxH, hxB⟩)
                                omega
                            · rintro ⟨hxB, hxlt⟩
                              exact ⟨hBsubhB hxB, hxlt⟩
                          rw [hcutHB]
                          exact hpcut
                      · exfalso
                        rw [hpj] at hpB
                        exact hpB hjB
                      · -- witness above `j`: `C` contains `B`, hence its hull
                        have hjC : j ∈ C := by
                          have hj1 : j ∈ cut B p := mem_cut.mpr ⟨hjB, hpj⟩
                          rw [hpcut] at hj1
                          exact (mem_cut.mp hj1).1
                        have hcsub : cut B j ⊆ C := by
                          intro x hx
                          have hx1 : x ∈ cut B p :=
                            mem_cut.mpr ⟨(mem_cut.mp hx).1, by
                              have := (mem_cut.mp hx).2
                              omega⟩
                          rw [hpcut] at hx1
                          exact (mem_cut.mp hx1).1
                        have hCL2 : ImpClosed L2 C :=
                          fun pc hpc hfire => hCclosed pc (hL2subL3 pc hpc) hfire
                        have hBsubC : B ⊆ C := by
                          rw [hBdef, ← hcutBZ]
                          apply (implication_closure_spec L2
                            (insert j (cut B j))).2.2
                          · exact Finset.insert_subset hjC hcsub
                          · exact hCL2
                        have hHsubC : c.index_attribute_hull B ⊆ C :=
                          hCclosed (B, c.index_attribute_hull B) hmemB_L3 hBsubC
                        rcases eq_or_ne (c.index_attribute_hull B) C with he | hne2
                        · exact Or.inl he
                        · exact Or.inr (lecticLt_of_ssubset
                            (lt_of_le_of_ne hHsubC hne2))
                    cases f1a with
                    | zero =>
                        exfalso
                        have := weight_lt_pow hBr
                        omega
                    | succ f1b =>
                        have hstock2 : canonicalBasisLoop c (f1b + 1) B L2 =
                            canonicalBasisLoop c f1b (next_preclosure c L3 B) L3 := by
                          rw [hL3]
                          rw [canonicalBasisLoop, if_neg hBguard]
                        have hZN2 : next_preclosure c L3 B =
                            c.index_attribute_hull B := by
                          obtain ⟨r1, r2, r3, r4⟩ :=
                            next_preclosure_spec c L3 B hcl3 hBr hBne
                          rcases r4 (c.index_attribute_hull B) hhull_closed hhBr
                            (lecticLt_of_ssubset hBssub) with he | hlt
                          · exact he
                          · rcases hkey _ r1 r2 r3 with he2 | hlt2
                            · exact he2.symm
                            · exfalso
                              exact lecticLt_irrefl _
                                (lecticLt_trans r2 hhBr r2 hlt hlt2)
                        rw [hstock2, hZN2]
                        have hw2 : weight c.attributes.length B <
                            weight c.attributes.length (c.index_attribute_hull B) :=
                          weight_lt_of_lecticLt hBr hhBr (lecticLt_of_ssubset hBssub)
                        exact ih f1b (c.index_attribute_hull B)
                          (c.index_attribute_hull B) (c.attributes.length - 1)
                          L3 L3 hhBr hL3good
                          (by rw [if_neg (fun h => h hhidem.symm)])
                          (Or.inl ⟨rfl, rfl, hhidem⟩)
                          (by omega) (by omega)
                · rw [if_neg hadopt]
                  have hex : ∃ q, q < j ∧ q ∈ c.index_attribute_hull B ∧
                      q ∉ B := by
                    rw [is_smallest_num, decide_eq_true_iff] at hadopt
                    push_neg at hadopt
                    obtain ⟨x, hx1, hx2⟩ := hadopt
                    rw [Finset.mem_sdiff] at hx1
                    exact ⟨x, by omega, hx1.1, hx1.2⟩
                  have hBh : B ≠ c.index_attribute_hull B := by
                    obtain ⟨q, _, hq2, hq3⟩ := hex
                    exact fun he => hq3 (he.symm ▸ hq2)
                  have hgen2 : B ⊆ implication_closure L3 (insert j (cut B j)) := by
                    calc B = implication_closure L2 (insert j (cut Zb j)) := hBdef
                      _ = implication_closure L2 (insert j (cut B j)) := by
                          rw [hcutBZ]
                      _ ⊆ implication_closure L3 (insert j (cut B j)) :=
                          implication_closure_mono_list L2 L3 hL2subL3 _
                  exact ih f1a B (retain_eq_less j B) j L2 L3 hBr hL2good hL3
                    (Or.inr ⟨hjlt, hjB, rfl, hgen2, hex⟩)
                    (by omega) (by omega)

/-- **C5.** For every well-formed formal context with at least one
attribute, `canonical_basis_optimised` returns exactly the same implication
list as `canonical_basis`: equal as sequences of (premise, conclusion)
pairs, hence also as sets. -/
theorem canonical_basis_optimised_eq {T : Type} {c : FormalContext T}
    (hw : c.WellFormed) (hM : 1 ≤ c.attributes.length) :
    canonical_basis_optimised c = canonical_basis c := by
  rw [canonical_basis_optimised, canonical_basis]
  by_cases hE : c.index_attribute_hull ∅ = ∅
  · -- the empty set is already context-closed: start fully synchronised
    rw [hE]
    rw [if_neg (fun h => h rfl)]
    exact canonicalBasisOptimisedLoop_sim hw hM (2 ^ (c.attributes.length + 2))
      (2 ^ (c.attributes.length + 1)) ∅ ∅ (c.attributes.length - 1) [] []
      (Finset.empty_subset _)
      (fun pc hpc => absurd hpc (List.not_mem_nil pc))
      (by rw [if_neg (fun h => h hE.symm)])
      (Or.inl ⟨rfl, rfl, hE⟩)
      (by simp [weight])
      (by
        have h12 : 2 ^ (c.attributes.length + 1) ≤ 2 ^ (c.attributes.length + 2) :=
          Nat.pow_le_pow_right (by omega) (by omega)
        omega)
  · -- the first stock round pushes `(∅, ∅″)` and steps straight to `∅″`
    rw [if_pos hE]
    have hg0 : ¬ (∅ : Finset ℕ) = set_upto (c.attributes.length - 1) := by
      rw [set_upto_eq_range hM]
      intro h
      have h0 : (0 : ℕ) ∈ Finset.range c.attributes.length :=
        Finset.mem_range.mpr (by omega)
      rw [← h] at h0
      exact absurd h0 (Finset.not_mem_empty 0)
    have hne0 : (∅ : Finset ℕ) ≠ Finset.range c.attributes.length := by
      rw [← set_upto_eq_range hM]
      exact hg0
    have hHr : c.index_attribute_hull ∅ ⊆ Finset.range c.attributes.length :=
      (hull_closureOn hw).range_closed _ (Finset.empty_subset _)
    have hHidem : c.index_attribute_hull (c.index_attribute_hull ∅) =
        c.index_attribute_hull ∅ := (hull_closureOn hw).idem _ (Finset.empty_subset _)
    have hLEgood : ∀ pc ∈ [((∅ : Finset ℕ), c.index_attribute_hull ∅)],
        pc.1 ⊆ Finset.range c.attributes.length ∧
        pc.2 = c.index_attribute_hull pc.1 := by
      intro pc hpc
      rw [List.mem_singleton] at hpc
      subst hpc
      exact ⟨Finset.empty_subset _, rfl⟩
    have hclE : ClosureOn c.attributes.length
        (implication_closure [((∅ : Finset ℕ), c.index_attribute_hull ∅)]) :=
      implication_closure_closureOn
        (fun pc hpc => ((hLEgood pc hpc).2 ▸
          (hull_closureOn hw).range_closed _ (hLEgood pc hpc).1))
    have hHclosed : implication_closure [((∅ : Finset ℕ), c.index_attribute_hull ∅)]
        (c.index_attribute_hull ∅) = c.index_attribute_hull ∅ :=
      (implication_closure_eq_iff _ _).mpr
        (impClosed_of_hull_closed hw hLEgood hHr hHidem)
    have hHssub : (∅ : Finset ℕ) ⊂ c.index_attribute_hull ∅ :=
      Finset.empty_ssubset.mpr (Finset.nonempty_iff_ne_empty.mpr hE)
    obtain ⟨f1a, hf1a⟩ : ∃ m, 2 ^ (c.attributes.length + 1) = m + 1 :=
      ⟨2 ^ (c.attributes.length + 1) - 1, by
        have := Nat.one_le_two_pow (n := c.attributes.length + 1)
        omega⟩
    have hstock0 : canonicalBasisLoop c (f1a + 1) ∅ [] =
        canonicalBasisLoop c f1a
          (next_preclosure c [((∅ : Finset ℕ), c.index_attribute_hull ∅)] ∅)
          [((∅ : Finset ℕ), c.index_attribute_hull ∅)] := by
      have h1 : [((∅ : Finset ℕ), c.index_attribute_hull ∅)] =
          (if (∅ : Finset ℕ) ≠ c.index_attribute_hull ∅
            then ([] : List (Finset ℕ × Finset ℕ)) ++ [(∅, c.index_attribute_hull ∅)]
            else []) := by
        rw [if_pos (fun h => hE h.symm)]
        rfl
      rw [h1]
      rw [canonicalBasisLoop, if_neg hg0]
    have hZN0 : next_preclosure c [((∅ : Finset ℕ), c.index_attribute_hull ∅)] ∅ =
        c.index_attribute_hull ∅ := by
      obtain ⟨r1, r2, r3, r4⟩ := next_preclosure_spec c
        [((∅ : Finset ℕ), c.index_attribute_hull ∅)] ∅ hclE
        (Finset.empty_subset _) hne0
      rcases r4 (c.index_attribute_hull ∅) hHclosed hHr
        (lecticLt_of_ssubset hHssub) with he | hlt
      · exact he
      · -- any closed set contains `∅″`, so the successor cannot be below it
        have hfire : c.index_attribute_hull ∅ ⊆
            next_preclosure c [((∅ : Finset ℕ), c.index_attribute_hull ∅)] ∅ :=
          ((implication_closure_eq_iff _ _).mp r1) _
            (List.mem_singleton.mpr rfl) (Finset.empty_subset _)
        rcases eq_or_ne (c.index_attribute_hull ∅)
            (next_preclosure c [((∅ : Finset ℕ), c.index_attribute_hull ∅)] ∅) with
          he2 | hne2
        · exact he2.symm
        · exfalso
          exact lecticLt_irrefl _ (lecticLt_trans r2 hHr r2 hlt
            (lecticLt_of_ssubset (lt_of_le_of_ne hfire hne2)))
    rw [hf1a, hstock0, hZN0]
    have hwH : 1 ≤ weight c.attributes.length (c.index_attribute_hull ∅) := by
      obtain ⟨m, hm⟩ := Finset.nonempty_iff_ne_empty.mpr hE
      have h1 : 2 ^ (c.attributes.length - m) ≤
          weight c.attributes.length (c.index_attribute_hull ∅) :=
        Finset.single_le_sum (f := fun k => 2 ^ (c.attributes.length - k))
          (fun k _ => Nat.zero_le _) hm
      have h2 := Nat.one_le_two_pow (n := c.attributes.length - m)
      omega
    exact canonicalBasisOptimisedLoop_sim hw hM (2 ^ (c.attributes.length + 2))
      f1a (c.index_attribute_hull ∅) (c.index_attribute_hull ∅)
      (c.attributes.length - 1) [((∅ : Finset ℕ), c.index_attribute_hull ∅)]
      [((∅ : Finset ℕ), c.index_attribute_hull ∅)] hHr hLEgood
      (by rw [if_neg (fun h => h hHidem.symm)])
      (Or.inl ⟨rfl, rfl, hHidem⟩)
      (by omega)
      (by
        have h12 : 2 ^ (c.attributes.length + 1) ≤ 2 ^ (c.attributes.length + 2) :=
          Nat.pow_le_pow_right (by omega) (by omega)
        omega)

/-- Concrete instantiation of `canonical_basis_optimised_eq` on the sample
context, with both hypotheses discharged by evaluation. -/
theorem canonical_basis_optimised_eq_witness :
    sampleContext.WellFormed ∧ 1 ≤ sampleContext.attributes.length ∧
    canonical_basis_optimised sampleContext = canonical_basis sampleContext :=
  ⟨by decide, by decide, canonical_basis_optimised_eq (by decide) (by decide)⟩

/-! ### C3: FCbO emits the same concepts as NextClosure -/

theorem smaller_subsets_getD {n j : ℕ} (hj : j < n) :
    ((List.range n).map (fun i => Finset.range i)).getD j ∅ = Finset.range j := by
  rw [List.getD_eq_getElem?_getD, List.getElem?_map, List.getElem?_range hj]
  rfl

theorem deLookup_deInsert_self (m : List (ℕ × Finset ℕ)) (k : ℕ) (v : Finset ℕ) :
    deLookup (deInsert m k v) k = some v := by
  rw [deInsert, deLookup, List.find?_cons_of_pos _ (by simp)]
  rfl

theorem find?_filter_ne (m : List (ℕ × Finset ℕ)) (k k2 : ℕ) (h : k2 ≠ k) :
    (m.filter (fun e => ¬ e.1 = k)).find? (fun e => e.1 == k2) =
      m.find? (fun e => e.1 == k2) := by
  induction m with
  | nil => rfl
  | cons e rest ih =>
      by_cases he : e.1 = k
      · rw [List.filter_cons_of_neg (by simp [he]),
          List.find?_cons_of_neg _ (by simp [he, h.symm])]
        exact ih
      · rw [List.filter_cons_of_pos (by simp [he])]
        by_cases he2 : e.1 = k2
        · rw [List.find?_cons_of_pos _ (by simp [he2]),
            List.find?_cons_of_pos _ (by simp [he2])]
        · rw [List.find?_cons_of_neg _ (by simp [he2]),
            List.find?_cons_of_neg _ (by simp [he2])]
          exact ih

theorem deLookup_deInsert_ne (m : List (ℕ × Finset ℕ)) (k k2 : ℕ) (v : Finset ℕ)
    (h : k2 ≠ k) : deLookup (deInsert m k v) k2 = deLookup m k2 := by
  rw [deInsert, deLookup, deLookup,
    List.find?_cons_of_neg _ (by simp; omega), find?_filter_ne m k k2 h]

theorem deLookup_filter_ge (D : List (ℕ × Finset ℕ)) (q j : ℕ) (h : q ≤ j) :
    deLookup (D.filter (fun e => ¬ e.1 < q)) j = deLookup D j := by
  induction D with
  | nil => rfl
  | cons e rest ih =>
      by_cases he : e.1 < q
      · rw [List.filter_cons_of_neg (by simp [he])]
        have hd : deLookup (e :: rest) j = deLookup rest j := by
          rw [deLookup, deLookup, List.find?_cons_of_neg _ (by simp; omega)]
        rw [hd]
        exact ih
      · rw [List.filter_cons_of_pos (by simp [he])]
        by_cases he2 : e.1 = j
        · rw [deLookup, deLookup, List.find?_cons_of_pos _ (by simp [he2]),
            List.find?_cons_of_pos _ (by simp [he2])]
        · rw [deLookup, deLookup, List.find?_cons_of_neg _ (by simp [he2]),
            List.find?_cons_of_neg _ (by simp [he2])]
          exact ih

theorem mapIdx_congr_fn {α : Type} (l : List α) :
    ∀ (f g : ℕ → α → α), (∀ i a, f i a = g i a) → l.mapIdx f = l.mapIdx g := by
  induction l with
  | nil => intro f g _; rfl
  | cons a t ih =>
      intro f g h
      rw [List.mapIdx_cons, List.mapIdx_cons, h 0 a,
        ih (fun i => f (i + 1)) (fun i => g (i + 1)) (fun i b => h (i + 1) b)]

theorem mapIdx_const_fn {α : Type} (g : α → α) :
    ∀ (l : List α), l.mapIdx (fun _ a => g a) = l.map g := by
  intro l
  induction l with
  | nil => rfl
  | cons a t ih =>
      rw [List.mapIdx_cons, List.map_cons]
      show g a :: t.mapIdx (fun _ a => g a) = g a :: t.map g
      rw [ih]

theorem mapIdx_if_split {α : Type} (g : α → α) :
    ∀ (Qs Qb : List α),
      (Qs ++ Qb).mapIdx (fun idx e => if Qs.length ≤ idx then g e else e) =
        Qs ++ Qb.map g := by
  intro Qs
  induction Qs with
  | nil =>
      intro Qb
      have hcongr := mapIdx_congr_fn Qb
        (fun idx e => if ([] : List α).length ≤ idx then g e else e)
        (fun _ e => g e)
        (fun i a => by simp)
      rw [List.nil_append, List.nil_append, hcongr, mapIdx_const_fn]
  | cons q Qs2 ih =>
      intro Qb
      have hfn : ∀ (i : ℕ) (a : α),
          (if (q :: Qs2).length ≤ i + 1 then g a else a) =
            (if Qs2.length ≤ i then g a else a) := by
        intro i a
        rcases le_or_lt Qs2.length i with hq | hq
        · rw [if_pos (by rw [List.length_cons]; omega), if_pos hq]
        · rw [if_neg (by rw [List.length_cons]; omega), if_neg (by omega)]
      have hcongr := mapIdx_congr_fn (Qs2 ++ Qb)
        (fun i => (fun idx e =>
          if (q :: Qs2).length ≤ idx then g e else e) (i + 1))
        (fun idx e => if Qs2.length ≤ idx then g e else e)
        (fun i a => hfn i a)
      rw [List.cons_append, List.mapIdx_cons, hcongr, ih Qb, List.cons_append,
        if_neg (by simp : ¬ (q :: Qs2).length ≤ 0)]

theorem DeValid_mono {T : Type} {c : FormalContext T} {B B2 d : Finset ℕ} {j : ℕ}
    (h : DeValid c B d j) (hBB : B ⊆ B2) : DeValid c B2 d j := by
  rcases h with h | ⟨B3, h1, h2, h3⟩
  · exact Or.inl h
  · exact Or.inr ⟨B3, h1.trans hBB, h2, h3⟩

theorem DeOk_mono_base {T : Type} {c : FormalContext T} {B : Finset ℕ}
    {D : List (ℕ × Finset ℕ)} {y y2 : ℕ} (h : DeOk c B D y) (hy : y ≤ y2) :
    DeOk c B D y2 :=
  fun j hj1 hj2 => h j (le_trans hy hj1) hj2

theorem DeOk_mono_attr {T : Type} {c : FormalContext T} {B B2 : Finset ℕ}
    {D : List (ℕ × Finset ℕ)} {y : ℕ} (h : DeOk c B D y) (hBB : B ⊆ B2) :
    DeOk c B2 D y := by
  intro j hj1 hj2
  obtain ⟨d, h1, h2⟩ := h j hj1 hj2
  exact ⟨d, h1, DeValid_mono h2 hBB⟩

theorem DeOk_deInsert {T : Type} {c : FormalContext T} {B v : Finset ℕ}
    {D : List (ℕ × Finset ℕ)} {y k : ℕ} (h : DeOk c B D y)
    (hv : DeValid c B v k) : DeOk c B (deInsert D k v) y := by
  intro j hj1 hj2
  by_cases hk : j = k
  · subst hk
    exact ⟨v, deLookup_deInsert_self D j v, hv⟩
  · obtain ⟨d, h1, h2⟩ := h j hj1 hj2
    exact ⟨d, (deLookup_deInsert_ne D k j v hk).trans h1, h2⟩

theorem DeOk_filter_ge {T : Type} {c : FormalContext T} {B : Finset ℕ}
    {D : List (ℕ × Finset ℕ)} {y q : ℕ} (h : DeOk c B D y) (hq : q ≤ y) :
    DeOk c B (D.filter (fun e => ¬ e.1 < q)) y := by
  intro j hj1 hj2
  obtain ⟨d, h1, h2⟩ := h j hj1 hj2
  exact ⟨d, (deLookup_filter_ge D q j (le_trans hq hj1)).trans h1, h2⟩

theorem der_union_singleton {T : Type} {c : FormalContext T} (hw : c.WellFormed)
    {B : Finset ℕ} (hBr : B ⊆ Finset.range c.attributes.length) {t : ℕ}
    (ht : t < c.attributes.length) :
    c.index_attribute_derivation (B ∪ {t}) =
      c.index_attribute_derivation B ∩ c.index_attribute_derivation {t} := by
  have hB : ∀ m ∈ B, m < c.attributes.length :=
    fun m hm => Finset.mem_range.mp (hBr hm)
  have ht1 : ∀ m ∈ ({t} : Finset ℕ), m < c.attributes.length := by
    intro m hm
    rw [Finset.mem_singleton] at hm
    omega
  have hU : ∀ m ∈ B ∪ {t}, m < c.attributes.length := by
    intro m hm
    rcases Finset.mem_union.mp hm with h | h
    · exact hB m h
    · exact ht1 m h
  ext g
  rw [FormalContext.mem_index_attribute_derivation hw hU g, Finset.mem_inter,
    FormalContext.mem_index_attribute_derivation hw hB g,
    FormalContext.mem_index_attribute_derivation hw ht1 g]
  constructor
  · rintro ⟨h1, h2⟩
    exact ⟨⟨h1, fun m hm => h2 m (Finset.mem_union_left _ hm)⟩,
      ⟨h1, fun m hm => h2 m (Finset.mem_union_right _ hm)⟩⟩
  · rintro ⟨⟨h1, h2⟩, ⟨_, h3⟩⟩
    refine ⟨h1, fun m hm => ?_⟩
    rcases Finset.mem_union.mp hm with h | h
    · exact h2 m h
    · exact h3 m h

theorem fcbo_closure_eq {T : Type} {c : FormalContext T} (hw : c.WellFormed)
    {B : Finset ℕ} (hBr : B ⊆ Finset.range c.attributes.length) {t : ℕ}
    (ht : t < c.attributes.length) :
    c.index_object_derivation
        (c.index_attribute_derivation B ∩ c.index_attribute_derivation {t}) =
      c.index_attribute_hull (B ∪ {t}) := by
  rw [← der_union_singleton hw hBr ht]
  rfl

theorem fcbo_extent_eq {T : Type} {c : FormalContext T} (hw : c.WellFormed)
    {B : Finset ℕ} (hBr : B ⊆ Finset.range c.attributes.length) {t : ℕ}
    (ht : t < c.attributes.length) :
    c.index_attribute_derivation B ∩ c.index_attribute_derivation {t} =
      c.index_attribute_derivation (c.index_attribute_hull (B ∪ {t})) := by
  rw [← der_union_singleton hw hBr ht]
  exact (FormalContext.index_attribute_derivation_hull hw
    (fun m hm => by
      rcases Finset.mem_union.mp hm with h | h
      · exact Finset.mem_range.mp (hBr h)
      · rw [Finset.mem_singleton] at h
        omega)).symm

theorem fcbo_canonical_step {T : Type} {c : FormalContext T} (hw : c.WellFormed)
    {B Y : Finset ℕ} (hBr : B ⊆ Finset.range c.attributes.length)
    (hYr : Y ⊆ Finset.range c.attributes.length)
    (hYc : c.index_attribute_hull Y = Y) (hBY : B ⊆ Y) {m : ℕ}
    (hmY : m ∈ Y) (_hmB : m ∉ B) (hmin : ∀ x ∈ Y, x ∉ B → m ≤ x) :
    c.index_attribute_hull (B ∪ {m}) ⊆ Y ∧
      B ∩ Finset.range m = c.index_attribute_hull (B ∪ {m}) ∩ Finset.range m := by
  have hmn : m < c.attributes.length := Finset.mem_range.mp (hYr hmY)
  have hsubY : B ∪ {m} ⊆ Y :=
    Finset.union_subset hBY (Finset.singleton_subset_iff.mpr hmY)
  have hUr : B ∪ {m} ⊆ Finset.range c.attributes.length :=
    Finset.union_subset hBr
      (Finset.singleton_subset_iff.mpr (Finset.mem_range.mpr hmn))
  have h1 : c.index_attribute_hull (B ∪ {m}) ⊆ Y := by
    calc c.index_attribute_hull (B ∪ {m}) ⊆ c.index_attribute_hull Y :=
        (hull_closureOn hw).mono hUr hYr hsubY
      _ = Y := hYc
  refine ⟨h1, ?_⟩
  apply Finset.Subset.antisymm
  · intro x hx
    rw [Finset.mem_inter] at hx ⊢
    exact ⟨(hull_closureOn hw).le _ hUr (Finset.mem_union_left _ hx.1), hx.2⟩
  · intro x hx
    rw [Finset.mem_inter] at hx ⊢
    refine ⟨?_, hx.2⟩
    by_contra hxB
    have hxY : x ∈ Y := h1 hx.1
    have h2 := hmin x hxY hxB
    have h3 := Finset.mem_range.mp hx.2
    omega

theorem fcbo_test1_conservative {T : Type} {c : FormalContext T}
    (hw : c.WellFormed) {B d : Finset ℕ} {t : ℕ}
    (hBr : B ⊆ Finset.range c.attributes.length) (ht : t < c.attributes.length)
    (hval : DeValid c B d t)
    (hfail : ¬ (d ∩ Finset.range t ⊆ B ∩ Finset.range t)) :
    B ∩ Finset.range t ≠ c.index_attribute_hull (B ∪ {t}) ∩ Finset.range t := by
  obtain ⟨q, hq1, hq2⟩ := Finset.not_subset.mp hfail
  rw [Finset.mem_inter] at hq1
  have hqB : q ∉ B := fun h => hq2 (Finset.mem_inter.mpr ⟨h, hq1.2⟩)
  rcases hval with h0 | ⟨B2, hs1, hs2, hs3⟩
  · rw [h0] at hq1
    exact absurd hq1.1 (Finset.not_mem_empty q)
  · have htr : ({t} : Finset ℕ) ⊆ Finset.range c.attributes.length :=
      Finset.singleton_subset_iff.mpr (Finset.mem_range.mpr ht)
    have hd_sub : d ⊆ c.index_attribute_hull (B ∪ {t}) := by
      rw [hs3]
      exact (hull_closureOn hw).mono (Finset.union_subset hs2 htr)
        (Finset.union_subset hBr htr)
        (Finset.union_subset_union hs1 (Finset.Subset.refl _))
    intro heq
    have hq3 : q ∈ B ∩ Finset.range t := by
      rw [heq]
      exact Finset.mem_inter.mpr ⟨hd_sub hq1.1, hq1.2⟩
    exact hqB (Finset.mem_inter.mp hq3).1

theorem fcbo_obl_advance {T : Type} {c : FormalContext T} (hw : c.WellFormed)
    {B Y : Finset ℕ} {D : List (ℕ × Finset ℕ)} {y t : ℕ}
    (hBr : B ⊆ Finset.range c.attributes.length)
    (hYr : Y ⊆ Finset.range c.attributes.length)
    (hYc : c.index_attribute_hull Y = Y)
    (hD : DeOk c B D y)
    (hOb : FcboObl B y Y)
    (hskip : ∀ u, y ≤ u → u < t → fcboSkip B D u) :
    FcboObl B t Y := by
  obtain ⟨hss, hagree⟩ := hOb
  refine ⟨hss, ?_⟩
  intro u hu
  rw [Finset.mem_inter, Finset.mem_range] at hu
  obtain ⟨huY, hut⟩ := hu
  by_contra huB
  have hne : (Y \ B).Nonempty := ⟨u, Finset.mem_sdiff.mpr ⟨huY, huB⟩⟩
  obtain ⟨m, hm, hmle⟩ := Finset.exists_min_image (Y \ B) id hne
  simp only [id_eq] at hmle
  rw [Finset.mem_sdiff] at hm
  have hmin : ∀ x ∈ Y, x ∉ B → m ≤ x := by
    intro x hx1 hx2
    exact hmle x (Finset.mem_sdiff.mpr ⟨hx1, hx2⟩)
  have hmy : y ≤ m := by
    by_contra h
    exact hm.2 (hagree (Finset.mem_inter.mpr
      ⟨hm.1, Finset.mem_range.mpr (by omega)⟩))
  have hmu : m ≤ u := hmle u (Finset.mem_sdiff.mpr ⟨huY, huB⟩)
  have hmt : m < t := by omega
  have hmn : m < c.attributes.length := Finset.mem_range.mp (hYr hm.1)
  obtain ⟨h1, h2⟩ := fcbo_canonical_step hw hBr hYr hYc hss.subset hm.1 hm.2 hmin
  rcases hskip m hmy hmt with h | ⟨d, hd1, hd2⟩
  · exact hm.2 h
  · obtain ⟨d2, hd1b, hval⟩ := hD m hmy hmn
    rw [hd1] at hd1b
    have hdd : d = d2 := by
      injection hd1b
    subst hdd
    exact (fcbo_test1_conservative hw hBr hmn hval hd2) h2

/-- Case analysis of the `fcbo_next_concept` scan starting at `j`: provided
every dead-end slot it may read is present, it either clears the node having
skipped every remaining attribute, or stops at the first `t ∉ B` passing
test one, returning a new concept (test two passes) or a dead-end record
(test two fails). -/
theorem fcbo_next_concept_spec {T : Type} (c : FormalContext T)
    (B : Finset ℕ) (D : List (ℕ × Finset ℕ)) :
    ∀ K j, c.attributes.length - j ≤ K →
      (∀ t, j ≤ t → t < c.attributes.length → t ∉ B →
        ∃ d, deLookup D t = some d) →
      (fcbo_next_concept c
          ((List.range c.attributes.length).map (fun i => Finset.range i)) B D j =
          some OutputType.NodeCleared ∧
        ∀ u, j ≤ u → u < c.attributes.length → fcboSkip B D u) ∨
      (∃ t d, j ≤ t ∧ t < c.attributes.length ∧ t ∉ B ∧
        (∀ u, j ≤ u → u < t → fcboSkip B D u) ∧
        deLookup D t = some d ∧
        d ∩ Finset.range t ⊆ B ∩ Finset.range t ∧
        B ∩ Finset.range t =
          c.index_object_derivation (c.index_attribute_derivation B ∩
            c.index_attribute_derivation {t}) ∩ Finset.range t ∧
        fcbo_next_concept c
          ((List.range c.attributes.length).map (fun i => Finset.range i)) B D j =
          some (OutputType.CallingContextOut
            (c.index_attribute_derivation B ∩ c.index_attribute_derivation {t},
              c.index_object_derivation (c.index_attribute_derivation B ∩
                c.index_attribute_derivation {t})) t)) ∨
      (∃ t d, j ≤ t ∧ t < c.attributes.length ∧ t ∉ B ∧
        (∀ u, j ≤ u → u < t → fcboSkip B D u) ∧
        deLookup D t = some d ∧
        d ∩ Finset.range t ⊆ B ∩ Finset.range t ∧
        ¬ (B ∩ Finset.range t =
          c.index_object_derivation (c.index_attribute_derivation B ∩
            c.index_attribute_derivation {t}) ∩ Finset.range t) ∧
        fcbo_next_concept c
          ((List.range c.attributes.length).map (fun i => Finset.range i)) B D j =
          some (OutputType.DeadEndAttributes
            (c.index_object_derivation (c.index_attribute_derivation B ∩
              c.index_attribute_derivation {t})) t)) := by
  intro K
  induction K with
  | zero =>
      intro j hK hlk
      have hj : ¬ j < c.attributes.length := by omega
      left
      constructor
      · rw [fcbo_next_concept, dif_neg hj]
      · intro u hu1 hu2
        omega
  | succ K ih =>
      intro j hK hlk
      by_cases hj : j < c.attributes.length
      · by_cases hjB : j ∈ B
        · -- `j` is already in the input: the scan moves on
          have heq : fcbo_next_concept c
              ((List.range c.attributes.length).map (fun i => Finset.range i))
              B D j =
              fcbo_next_concept c
                ((List.range c.attributes.length).map (fun i => Finset.range i))
                B D (j + 1) := by
            rw [fcbo_next_concept, dif_pos hj, if_neg (fun hc => hc hjB)]
          have hlk2 : ∀ t, j + 1 ≤ t → t < c.attributes.length → t ∉ B →
              ∃ d, deLookup D t = some d :=
            fun t ht1 ht2 ht3 => hlk t (by omega) ht2 ht3
          have hskipj : fcboSkip B D j := Or.inl hjB
          rcases ih (j + 1) (by omega) hlk2 with ⟨h1, h2⟩ | h | h
          · left
            refine ⟨heq.trans h1, ?_⟩
            intro u hu1 hu2
            rcases Nat.eq_or_lt_of_le hu1 with rfl | h3
            · exact hskipj
            · exact h2 u h3 hu2
          · right; left
            obtain ⟨t, d, a1, a2, a3, a4, a5, a6, a7, a8⟩ := h
            refine ⟨t, d, by omega, a2, a3, ?_, a5, a6, a7, heq.trans a8⟩
            intro u hu1 hu2
            rcases Nat.eq_or_lt_of_le hu1 with rfl | h3
            · exact hskipj
            · exact a4 u h3 hu2
          · right; right
            obtain ⟨t, d, a1, a2, a3, a4, a5, a6, a7, a8⟩ := h
            refine ⟨t, d, by omega, a2, a3, ?_, a5, a6, a7, heq.trans a8⟩
            intro u hu1 hu2
            rcases Nat.eq_or_lt_of_le hu1 with rfl | h3
            · exact hskipj
            · exact a4 u h3 hu2
        · -- `j ∉ B`: the slot is read
          obtain ⟨d, hd⟩ := hlk j (le_refl j) hj hjB
          by_cases ht1 : d ∩ Finset.range j ⊆ B ∩ Finset.range j
          · -- canonicity test one passes: the scan stops at `j`
            by_cases ht2 : B ∩ Finset.range j =
                c.index_object_derivation (c.index_attribute_derivation B ∩
                  c.index_attribute_derivation {j}) ∩ Finset.range j
            · right; left
              refine ⟨j, d, le_refl j, hj, hjB, (fun u hu1 hu2 => by omega),
                hd, ht1, ht2, ?_⟩
              rw [fcbo_next_concept, dif_pos hj, if_pos hjB, hd,
                smaller_subsets_getD hj]
              show (if d ∩ Finset.range j ⊆ B ∩ Finset.range j then
                  (if B ∩ Finset.range j = c.index_object_derivation
                      (c.index_attribute_derivation B ∩
                        c.index_attribute_derivation {j}) ∩ Finset.range j then
                    some (OutputType.CallingContextOut
                      (c.index_attribute_derivation B ∩
                        c.index_attribute_derivation {j},
                        c.index_object_derivation (c.index_attribute_derivation B ∩
                          c.index_attribute_derivation {j})) j)
                  else
                    some (OutputType.DeadEndAttributes
                      (c.index_object_derivation (c.index_attribute_derivation B ∩
                        c.index_attribute_derivation {j})) j))
                else fcbo_next_concept c
                  ((List.range c.attributes.length).map (fun i => Finset.range i))
                  B D (j + 1)) = _
              rw [if_pos ht1, if_pos ht2]
            · right; right
              refine ⟨j, d, le_refl j, hj, hjB, (fun u hu1 hu2 => by omega),
                hd, ht1, ht2, ?_⟩
              rw [fcbo_next_concept, dif_pos hj, if_pos hjB, hd,
                smaller_subsets_getD hj]
              show (if d ∩ Finset.range j ⊆ B ∩ Finset.range j then
                  (if B ∩ Finset.range j = c.index_object_derivation
                      (c.index_attribute_derivation B ∩
                        c.index_attribute_derivation {j}) ∩ Finset.range j then
                    some (OutputType.CallingContextOut
                      (c.index_attribute_derivation B ∩
                        c.index_attribute_derivation {j},
                        c.index_object_derivation (c.index_attribute_derivation B ∩
                          c.index_attribute_derivation {j})) j)
                  else
                    some (OutputType.DeadEndAttributes
                      (c.index_object_derivation (c.index_attribute_derivation B ∩
                        c.index_attribute_derivation {j})) j))
                else fcbo_next_concept c
                  ((List.range c.attributes.length).map (fun i => Finset.range i))
                  B D (j + 1)) = _
              rw [if_pos ht1, if_neg ht2]
          · -- test one fails: `j` is skipped
            have heq : fcbo_next_concept c
                ((List.range c.attributes.length).map (fun i => Finset.range i))
                B D j =
                fcbo_next_concept c
                  ((List.range c.attributes.length).map (fun i => Finset.range i))
                  B D (j + 1) := by
              rw [fcbo_next_concept, dif_pos hj, if_pos hjB, hd,
                smaller_subsets_getD hj]
              show (if d ∩ Finset.range j ⊆ B ∩ Finset.range j then
                  (if B ∩ Finset.range j = c.index_object_derivation
                      (c.index_attribute_derivation B ∩
                        c.index_attribute_derivation {j}) ∩ Finset.range j then
                    some (OutputType.CallingContextOut
                      (c.index_attribute_derivation B ∩
                        c.index_attribute_derivation {j},
                        c.index_object_derivation (c.index_attribute_derivation B ∩
                          c.index_attribute_derivation {j})) j)
                  else
                    some (OutputType.DeadEndAttributes
                      (c.index_object_derivation (c.index_attribute_derivation B ∩
                        c.index_attribute_derivation {j})) j))
                else fcbo_next_concept c
                  ((List.range c.attributes.length).map (fun i => Finset.range i))
                  B D (j + 1)) = _
              rw [if_neg ht1]
            have hlk2 : ∀ t, j + 1 ≤ t → t < c.attributes.length → t ∉ B →
                ∃ d2, deLookup D t = some d2 :=
              fun t ha1 ha2 ha3 => hlk t (by omega) ha2 ha3
            have hskipj : fcboSkip B D j := Or.inr ⟨d, hd, ht1⟩
            rcases ih (j + 1) (by omega) hlk2 with ⟨h1, h2⟩ | h | h
            · left
              refine ⟨heq.trans h1, ?_⟩
              intro u hu1 hu2
              rcases Nat.eq_or_lt_of_le hu1 with rfl | h3
              · exact hskipj
              · exact h2 u h3 hu2
            · right; left
              obtain ⟨t, d2, a1, a2, a3, a4, a5, a6, a7, a8⟩ := h
              refine ⟨t, d2, by omega, a2, a3, ?_, a5, a6, a7, heq.trans a8⟩
              intro u hu1 hu2
              rcases Nat.eq_or_lt_of_le hu1 with rfl | h3
              · exact hskipj
              · exact a4 u h3 hu2
            · right; right
              obtain ⟨t, d2, a1, a2, a3, a4, a5, a6, a7, a8⟩ := h
              refine ⟨t, d2, by omega, a2, a3, ?_, a5, a6, a7, heq.trans a8⟩
              intro u hu1 hu2
              rcases Nat.eq_or_lt_of_le hu1 with rfl | h3
              · exact hskipj
              · exact a4 u h3 hu2
      · left
        constructor
        · rw [fcbo_next_concept, dif_neg hj]
        · intro u hu1 hu2
          omega

theorem getD_append_length {α : Type} (d : α) :
    ∀ (l1 l2 : List α), (l1 ++ l2).getD l1.length d = l2.getD 0 d := by
  intro l1
  induction l1 with
  | nil => intro l2; rfl
  | cons a t ih =>
      intro l2
      rw [List.cons_append, List.length_cons, List.getD_cons_succ]
      exact ih l2

theorem fcboPot_pos (n : ℕ) (st : FcboState) : 1 ≤ fcboPot n st := by
  rw [fcboPot]
  have := Nat.one_le_two_pow (n := n - st.inner_index)
  omega

theorem fcboRun_step_emit_enq {T : Type} (c : FormalContext T)
    (ssL : List (Finset ℕ)) (fuel : ℕ) (B : Finset ℕ) (y : ℕ)
    (D : List (ℕ × Finset ℕ)) (Q : List CallingContextEntry) (br : ℕ)
    (p : Finset ℕ × Finset ℕ) (t : ℕ)
    (hout : fcbo_next_concept c ssL B D y = some (OutputType.CallingContextOut p t))
    (henq : p.2 ≠ Finset.range c.attributes.length ∧ t < c.attributes.length - 1) :
    fcboRun c ssL (fuel + 1) ⟨B, y, D, Q, br⟩ =
      (fcboRun c ssL fuel ⟨B, t + 1, D, Q ++ [⟨p.2, t + 1, none⟩], br + 1⟩).map
        (fun rest => p :: rest) := by
  simp only [fcboRun, hout]
  rw [decide_eq_true henq]
  rfl

theorem fcboRun_step_emit_noenq {T : Type} (c : FormalContext T)
    (ssL : List (Finset ℕ)) (fuel : ℕ) (B : Finset ℕ) (y : ℕ)
    (D : List (ℕ × Finset ℕ)) (Q : List CallingContextEntry) (br : ℕ)
    (p : Finset ℕ × Finset ℕ) (t : ℕ)
    (hout : fcbo_next_concept c ssL B D y = some (OutputType.CallingContextOut p t))
    (henq : ¬ (p.2 ≠ Finset.range c.attributes.length ∧
      t < c.attributes.length - 1)) :
    fcboRun c ssL (fuel + 1) ⟨B, y, D, Q, br⟩ =
      (fcboRun c ssL fuel ⟨B, t + 1, D, Q, br⟩).map (fun rest => p :: rest) := by
  simp only [fcboRun, hout]
  rw [decide_eq_false henq]
  rfl

theorem fcboRun_step_deadend {T : Type} (c : FormalContext T)
    (ssL : List (Finset ℕ)) (fuel : ℕ) (B : Finset ℕ) (y : ℕ)
    (D : List (ℕ × Finset ℕ)) (Q : List CallingContextEntry) (br : ℕ)
    (d : Finset ℕ) (t : ℕ)
    (hout : fcbo_next_concept c ssL B D y = some (OutputType.DeadEndAttributes d t)) :
    fcboRun c ssL (fuel + 1) ⟨B, y, D, Q, br⟩ =
      fcboRun c ssL fuel ⟨B, t + 1, deInsert D t d, Q, br⟩ := by
  simp only [fcboRun, hout]

theorem fcboRun_step_cleared_nil {T : Type} (c : FormalContext T)
    (ssL : List (Finset ℕ)) (fuel : ℕ) (B : Finset ℕ) (y : ℕ)
    (D : List (ℕ × Finset ℕ)) (br : ℕ)
    (hout : fcbo_next_concept c ssL B D y = some OutputType.NodeCleared) :
    fcboRun c ssL (fuel + 1) ⟨B, y, D, [], br⟩ = some [] := by
  simp only [fcboRun, hout]

theorem fcboRun_step_cleared_pop {T : Type} (c : FormalContext T)
    (ssL : List (Finset ℕ)) (fuel : ℕ) (B : Finset ℕ) (y : ℕ)
    (D : List (ℕ × Finset ℕ)) (q0 : CallingContextEntry)
    (Qs2 : List CallingContextEntry) (m : List (ℕ × Finset ℕ))
    (hm : q0.dead_end_attr = some m)
    (hout : fcbo_next_concept c ssL B D y = some OutputType.NodeCleared) :
    fcboRun c ssL (fuel + 1) ⟨B, y, D, q0 :: Qs2, 0⟩ =
      fcboRun c ssL fuel ⟨q0.input_attr, q0.inner_index, m, Qs2, 0⟩ := by
  simp only [fcboRun, hout]
  rw [if_neg (by omega)]
  show (match q0.dead_end_attr with
    | none => none
    | some d =>
        fcboRun c ssL fuel ⟨q0.input_attr, q0.inner_index, d, Qs2, 0⟩) = _
  rw [hm]

theorem fcboRun_step_cleared_assign_nilQs {T : Type} (c : FormalContext T)
    (ssL : List (Finset ℕ)) (fuel : ℕ) (B : Finset ℕ) (y : ℕ)
    (D : List (ℕ × Finset ℕ)) (qb0 : CallingContextEntry)
    (Qb2 : List CallingContextEntry)
    (hout : fcbo_next_concept c ssL B D y = some OutputType.NodeCleared) :
    fcboRun c ssL (fuel + 1) ⟨B, y, D, qb0 :: Qb2, Qb2.length + 1⟩ =
      fcboRun c ssL fuel
        ⟨qb0.input_attr, qb0.inner_index,
          D.filter (fun e => ¬ e.1 < qb0.inner_index),
          Qb2.map (fun e => ⟨e.input_attr, e.inner_index,
            some (D.filter (fun e2 => ¬ e2.1 < qb0.inner_index))⟩), 0⟩ := by
  simp only [fcboRun, hout]
  rw [if_pos (by omega)]
  have hthr : (qb0 :: Qb2).length - (Qb2.length + 1) = 0 := by simp
  rw [hthr]
  have hqi : (qb0 :: Qb2).getD 0 (⟨∅, 0, none⟩ : CallingContextEntry) = qb0 := rfl
  rw [hqi]
  have hmap := mapIdx_congr_fn (qb0 :: Qb2)
    (fun idx entry =>
      if 0 ≤ idx then
        (⟨entry.input_attr, entry.inner_index,
          some (D.filter (fun e => ¬ e.1 < qb0.inner_index))⟩ :
            CallingContextEntry)
      else entry)
    (fun _ entry =>
      (⟨entry.input_attr, entry.inner_index,
        some (D.filter (fun e => ¬ e.1 < qb0.inner_index))⟩ :
          CallingContextEntry))
    (fun i a => by simp)
  rw [hmap, mapIdx_const_fn]
  rfl

theorem fcboRun_step_cleared_assign_consQs {T : Type} (c : FormalContext T)
    (ssL : List (Finset ℕ)) (fuel : ℕ) (B : Finset ℕ) (y : ℕ)
    (D : List (ℕ × Finset ℕ)) (q0 : CallingContextEntry)
    (Qs2 : List CallingContextEntry) (qb0 : CallingContextEntry)
    (Qb2 : List CallingContextEntry) (m : List (ℕ × Finset ℕ))
    (hm : q0.dead_end_attr = some m)
    (hout : fcbo_next_concept c ssL B D y = some OutputType.NodeCleared) :
    fcboRun c ssL (fuel + 1)
        ⟨B, y, D, (q0 :: Qs2) ++ qb0 :: Qb2, Qb2.length + 1⟩ =
      fcboRun c ssL fuel
        ⟨q0.input_attr, q0.inner_index, m,
          Qs2 ++ (qb0 :: Qb2).map (fun e => ⟨e.input_attr, e.inner_index,
            some (D.filter (fun e2 => ¬ e2.1 < qb0.inner_index))⟩), 0⟩ := by
  simp only [fcboRun, hout]
  rw [if_pos (by omega)]
  have hthr : ((q0 :: Qs2) ++ qb0 :: Qb2).length - (Qb2.length + 1) =
      (q0 :: Qs2).length := by
    simp only [List.length_append, List.length_cons]
    omega
  rw [hthr]
  have hqi : ((q0 :: Qs2) ++ qb0 :: Qb2).getD (q0 :: Qs2).length
      ⟨∅, 0, none⟩ = qb0 := by
    rw [getD_append_length]
    rfl
  rw [hqi]
  rw [mapIdx_if_split (fun entry =>
    (⟨entry.input_attr, entry.inner_index,
      some (D.filter (fun e => ¬ e.1 < qb0.inner_index))⟩ : CallingContextEntry))
    (q0 :: Qs2) (qb0 :: Qb2)]
  rw [List.cons_append]
  show (match q0.dead_end_attr with
    | none => none
    | some d =>
        fcboRun c ssL fuel
          ⟨q0.input_attr, q0.inner_index, d,
            Qs2 ++ (qb0 :: Qb2).map (fun (e : CallingContextEntry) =>
              (⟨e.input_attr, e.inner_index,
                some (D.filter (fun e2 => ¬ e2.1 < qb0.inner_index))⟩ :
                  CallingContextEntry)), 0⟩) = _
  rw [hm]

/-- Master run lemma for the FCbO driving loop: from any state satisfying
the invariant, with fuel at least the potential, the run returns a list in
which every element is a formal concept and which contains every
outstanding obligation of the state. -/
theorem fcboRun_spec {T : Type} {c : FormalContext T} (hw : c.WellFormed) :
    ∀ fuel (st : FcboState), FcboInv c st →
      fcboPot c.attributes.length st ≤ fuel →
      ∃ out, fcboRun c
          ((List.range c.attributes.length).map (fun i => Finset.range i))
          fuel st = some out ∧
        (∀ p ∈ out, p.2 ⊆ Finset.range c.attributes.length ∧
          c.index_attribute_hull p.2 = p.2 ∧
          p.1 = c.index_attribute_derivation p.2) ∧
        (∀ Y, Y ⊆ Finset.range c.attributes.length →
          c.index_attribute_hull Y = Y → FcboTodo st Y → ∃ X, (X, Y) ∈ out) := by
  intro fuel
  induction fuel with
  | zero =>
      intro st _ hPot
      exfalso
      have := fcboPot_pos c.attributes.length st
      omega
  | succ fuel ih =>
      intro st hInv hPot
      obtain ⟨B, y, D, Q, br⟩ := st
      obtain ⟨hBr0, hBc0, hDe0, Qs, Qb, hQ0, hbr0, hQs0, hQb0, hQh0⟩ := hInv
      have hBr : B ⊆ Finset.range c.attributes.length := hBr0
      have hBc : c.index_attribute_hull B = B := hBc0
      have hDe : DeOk c B D y := hDe0
      have hQs : ∀ e ∈ Qs, e.input_attr ⊆ Finset.range c.attributes.length ∧
          c.index_attribute_hull e.input_attr = e.input_attr ∧
          ∃ m, e.dead_end_attr = some m ∧ DeOk c e.input_attr m e.inner_index :=
        hQs0
      have hQb : ∀ e ∈ Qb, e.input_attr ⊆ Finset.range c.attributes.length ∧
          c.index_attribute_hull e.input_attr = e.input_attr ∧
          e.dead_end_attr = none ∧ B ⊆ e.input_attr ∧ e.inner_index ≤ y := hQb0
      have hQh : ∀ e2, Qb.head? = some e2 → DeOk c B D e2.inner_index ∧
          ∀ e ∈ Qb, e2.inner_index ≤ e.inner_index := hQh0
      have hQe : Q = Qs ++ Qb := hQ0
      have hbr2 : Qb.length = br := hbr0
      subst hQe
      subst hbr2
      have hPot2 : (3 * 2 ^ (c.attributes.length - y) - 2) +
          ((Qs ++ Qb).map
            (fun e => 3 * 2 ^ (c.attributes.length - e.inner_index) - 1)).sum ≤
          fuel + 1 := hPot
      have hlk : ∀ t, y ≤ t → t < c.attributes.length → t ∉ B →
          ∃ d, deLookup D t = some d := by
        intro t h1 h2 _
        obtain ⟨d, hd, _⟩ := hDe t h1 h2
        exact ⟨d, hd⟩
      rcases fcbo_next_concept_spec c B D c.attributes.length y (by omega) hlk with
        ⟨hout, hskips⟩ |
        ⟨t, d, ht1, ht2, ht3, hskips, hlkt, htest1, htest2, hout⟩ |
        ⟨t, d, ht1, ht2, ht3, hskips, hlkt, htest1, htest2, hout⟩
      · -- the node is cleared: all scan positions were skipped
        have hnoOb : ∀ Y, Y ⊆ Finset.range c.attributes.length →
            c.index_attribute_hull Y = Y → ¬ FcboObl B y Y := by
          intro Y hYr hYc2 hOb
          have hOt : FcboObl B c.attributes.length Y :=
            fcbo_obl_advance hw hBr hYr hYc2 hDe hOb hskips
          have hsubB : Y ⊆ B := by
            intro x hx
            exact hOt.2 (Finset.mem_inter.mpr ⟨hx, hYr hx⟩)
          exact hOt.1.ne (Finset.Subset.antisymm hOt.1.subset hsubB)
        cases Qb with
        | nil =>
            rw [List.append_nil, List.length_nil]
            rw [List.append_nil] at hPot2
            cases Qs with
            | nil =>
                refine ⟨[], fcboRun_step_cleared_nil c _ fuel B y D 0 hout, ?_, ?_⟩
                · intro p hp
                  exact absurd hp (List.not_mem_nil p)
                · intro Y hYr hYc2 hTodo
                  rcases hTodo with hcur | ⟨e, he, _⟩
                  · exact absurd hcur (hnoOb Y hYr hYc2)
                  · exact absurd he (List.not_mem_nil e)
            | cons q0 Qs2 =>
                obtain ⟨hq1, hq2, m, hm, hDm⟩ :=
                  hQs q0 (List.mem_cons_self q0 Qs2)
                have hstep := fcboRun_step_cleared_pop c
                  ((List.range c.attributes.length).map (fun i => Finset.range i))
                  fuel B y D q0 Qs2 m hm hout
                have hInv2 : FcboInv c
                    ⟨q0.input_attr, q0.inner_index, m, Qs2, 0⟩ := by
                  refine ⟨hq1, hq2, hDm, Qs2, [],
                    (List.append_nil Qs2).symm, rfl,
                    (fun e he => hQs e (List.mem_cons_of_mem q0 he)),
                    (fun e he => absurd he (List.not_mem_nil e)), ?_⟩
                  intro e2 he2
                  simp at he2
                have hp0 : 1 ≤ 2 ^ (c.attributes.length - y) := Nat.one_le_two_pow
                have hp1 : 1 ≤ 2 ^ (c.attributes.length - q0.inner_index) :=
                  Nat.one_le_two_pow
                have hPot3 : fcboPot c.attributes.length
                    ⟨q0.input_attr, q0.inner_index, m, Qs2, 0⟩ ≤ fuel := by
                  show (3 * 2 ^ (c.attributes.length - q0.inner_index) - 2) +
                    (Qs2.map (fun e =>
                      3 * 2 ^ (c.attributes.length - e.inner_index) - 1)).sum ≤ fuel
                  simp only [List.map_cons, List.sum_cons] at hPot2
                  omega
                obtain ⟨rest, hrun2, hsound2, hcomp2⟩ :=
                  ih ⟨q0.input_attr, q0.inner_index, m, Qs2, 0⟩ hInv2 hPot3
                refine ⟨rest, ?_, hsound2, ?_⟩
                · rw [hstep]
                  exact hrun2
                · intro Y hYr hYc2 hTodo
                  apply hcomp2 Y hYr hYc2
                  rcases hTodo with hcur | ⟨e, he, hOb⟩
                  · exact absurd hcur (hnoOb Y hYr hYc2)
                  · have he2 : e ∈ q0 :: Qs2 := he
                    rcases List.mem_cons.mp he2 with rfl | het
                    · exact Or.inl hOb
                    · exact Or.inr ⟨e, het, hOb⟩
        | cons qb0 Qb2 =>
            rw [List.length_cons]
            obtain ⟨hh1, hh2⟩ := hQh qb0 rfl
            have hDtrunc : ∀ e ∈ qb0 :: Qb2,
                DeOk c e.input_attr
                  (D.filter (fun e2 => ¬ e2.1 < qb0.inner_index))
                  e.inner_index := by
              intro e he
              obtain ⟨w1, w2, w3, w4, w5⟩ := hQb e he
              exact DeOk_mono_attr
                (DeOk_filter_ge (DeOk_mono_base hh1 (hh2 e he)) (hh2 e he)) w4
            have hgmem : ∀ e ∈ qb0 :: Qb2,
                e.input_attr ⊆ Finset.range c.attributes.length ∧
                c.index_attribute_hull e.input_attr = e.input_attr ∧
                ∃ m2, (⟨e.input_attr, e.inner_index,
                  some (D.filter (fun e2 => ¬ e2.1 < qb0.inner_index))⟩ :
                    CallingContextEntry).dead_end_attr = some m2 ∧
                  DeOk c e.input_attr m2 e.inner_index := by
              intro e he
              obtain ⟨w1, w2, w3, w4, w5⟩ := hQb e he
              exact ⟨w1, w2, D.filter (fun e2 => ¬ e2.1 < qb0.inner_index),
                rfl, hDtrunc e he⟩
            have hsummap : ∀ (l : List CallingContextEntry),
                ((l.map (fun e => (⟨e.input_attr, e.inner_index,
                  some (D.filter (fun e2 => ¬ e2.1 < qb0.inner_index))⟩ :
                    CallingContextEntry))).map (fun e =>
                  3 * 2 ^ (c.attributes.length - e.inner_index) - 1)).sum =
                (l.map (fun e =>
                  3 * 2 ^ (c.attributes.length - e.inner_index) - 1)).sum := by
              intro l
              rw [List.map_map]
              congr 1
            cases Qs with
            | nil =>
                rw [List.nil_append] at hPot2 ⊢
                have hstep := fcboRun_step_cleared_assign_nilQs c
                  ((List.range c.attributes.length).map (fun i => Finset.range i))
                  fuel B y D qb0 Qb2 hout
                obtain ⟨w1, w2, _, _, _⟩ := hQb qb0 (List.mem_cons_self qb0 Qb2)
                have hInv2 : FcboInv c
                    ⟨qb0.input_attr, qb0.inner_index,
                      D.filter (fun e => ¬ e.1 < qb0.inner_index),
                      Qb2.map (fun e => ⟨e.input_attr, e.inner_index,
                        some (D.filter (fun e2 => ¬ e2.1 < qb0.inner_index))⟩),
                      0⟩ := by
                  refine ⟨w1, w2, hDtrunc qb0 (List.mem_cons_self qb0 Qb2),
                    Qb2.map (fun e => ⟨e.input_attr, e.inner_index,
                      some (D.filter (fun e2 => ¬ e2.1 < qb0.inner_index))⟩), [],
                    (List.append_nil _).symm, rfl, ?_,
                    (fun e he => absurd he (List.not_mem_nil e)), ?_⟩
                  · intro e2 he2
                    obtain ⟨e, he, hee⟩ := List.mem_map.mp he2
                    subst hee
                    exact hgmem e (List.mem_cons_of_mem qb0 he)
                  · intro e2 he2
                    simp at he2
                have hp0 : 1 ≤ 2 ^ (c.attributes.length - y) := Nat.one_le_two_pow
                have hp1 : 1 ≤ 2 ^ (c.attributes.length - qb0.inner_index) :=
                  Nat.one_le_two_pow
                have hPot3 : fcboPot c.attributes.length
                    ⟨qb0.input_attr, qb0.inner_index,
                      D.filter (fun e => ¬ e.1 < qb0.inner_index),
                      Qb2.map (fun e => ⟨e.input_attr, e.inner_index,
                        some (D.filter (fun e2 => ¬ e2.1 < qb0.inner_index))⟩),
                      0⟩ ≤ fuel := by
                  show (3 * 2 ^ (c.attributes.length - qb0.inner_index) - 2) +
                    ((Qb2.map (fun e => (⟨e.input_attr, e.inner_index,
                      some (D.filter (fun e2 => ¬ e2.1 < qb0.inner_index))⟩ :
                        CallingContextEntry))).map (fun e =>
                      3 * 2 ^ (c.attributes.length - e.inner_index) - 1)).sum ≤ fuel
                  rw [hsummap Qb2]
                  simp only [List.map_cons, List.sum_cons] at hPot2
                  omega
                obtain ⟨rest, hrun2, hsound2, hcomp2⟩ :=
                  ih ⟨qb0.input_attr, qb0.inner_index,
                    D.filter (fun e => ¬ e.1 < qb0.inner_index),
                    Qb2.map (fun e => ⟨e.input_attr, e.inner_index,
                      some (D.filter (fun e2 => ¬ e2.1 < qb0.inner_index))⟩),
                    0⟩ hInv2 hPot3
                refine ⟨rest, ?_, hsound2, ?_⟩
                · rw [hstep]
                  exact hrun2
                · intro Y hYr hYc2 hTodo
                  apply hcomp2 Y hYr hYc2
                  rcases hTodo with hcur | ⟨e, he, hOb⟩
                  · exact absurd hcur (hnoOb Y hYr hYc2)
                  · have he2 : e ∈ qb0 :: Qb2 := he
                    rcases List.mem_cons.mp he2 with rfl | het
                    · exact Or.inl hOb
                    · exact Or.inr ⟨⟨e.input_attr, e.inner_index,
                        some (D.filter (fun e2 => ¬ e2.1 < qb0.inner_index))⟩,
                        List.mem_map_of_mem _ het, hOb⟩
            | cons q0 Qs2 =>
                obtain ⟨hq1, hq2, m, hm, hDm⟩ :=
                  hQs q0 (List.mem_cons_self q0 Qs2)
                have hstep := fcboRun_step_cleared_assign_consQs c
                  ((List.range c.attributes.length).map (fun i => Finset.range i))
                  fuel B y D q0 Qs2 qb0 Qb2 m hm hout
                have hInv2 : FcboInv c
                    ⟨q0.input_attr, q0.inner_index, m,
                      Qs2 ++ (qb0 :: Qb2).map (fun e =>
                        ⟨e.input_attr, e.inner_index,
                          some (D.filter (fun e2 => ¬ e2.1 < qb0.inner_index))⟩),
                      0⟩ := by
                  refine ⟨hq1, hq2, hDm,
                    Qs2 ++ (qb0 :: Qb2).map (fun e =>
                      ⟨e.input_attr, e.inner_index,
                        some (D.filter (fun e2 => ¬ e2.1 < qb0.inner_index))⟩), [],
                    (List.append_nil _).symm, rfl, ?_,
                    (fun e he => absurd he (List.not_mem_nil e)), ?_⟩
                  · intro e2 he2
                    rcases List.mem_append.mp he2 with hea | heb
                    · exact hQs e2 (List.mem_cons_of_mem q0 hea)
                    · obtain ⟨e, he, hee⟩ := List.mem_map.mp heb
                      subst hee
                      exact hgmem e he
                  · intro e2 he2
                    simp at he2
                have hp0 : 1 ≤ 2 ^ (c.attributes.length - y) := Nat.one_le_two_pow
                have hp1 : 1 ≤ 2 ^ (c.attributes.length - q0.inner_index) :=
                  Nat.one_le_two_pow
                have hPot3 : fcboPot c.attributes.length
                    ⟨q0.input_attr, q0.inner_index, m,
                      Qs2 ++ (qb0 :: Qb2).map (fun e =>
                        ⟨e.input_attr, e.inner_index,
                          some (D.filter (fun e2 => ¬ e2.1 < qb0.inner_index))⟩),
                      0⟩ ≤ fuel := by
                  show (3 * 2 ^ (c.attributes.length - q0.inner_index) - 2) +
                    ((Qs2 ++ (qb0 :: Qb2).map (fun e =>
                      (⟨e.input_attr, e.inner_index,
                        some (D.filter (fun e2 => ¬ e2.1 < qb0.inner_index))⟩ :
                          CallingContextEntry))).map (fun e =>
                      3 * 2 ^ (c.attributes.length - e.inner_index) - 1)).sum ≤ fuel
                  rw [List.map_append, List.sum_append, hsummap (qb0 :: Qb2)]
                  simp only [List.map_append, List.map_cons, List.sum_append,
                    List.sum_cons] at hPot2
                  simp only [List.map_cons, List.sum_cons]
                  omega
                obtain ⟨rest, hrun2, hsound2, hcomp2⟩ :=
                  ih ⟨q0.input_attr, q0.inner_index, m,
                    Qs2 ++ (qb0 :: Qb2).map (fun e =>
                      ⟨e.input_attr, e.inner_index,
                        some (D.filter (fun e2 => ¬ e2.1 < qb0.inner_index))⟩),
                    0⟩ hInv2 hPot3
                refine ⟨rest, ?_, hsound2, ?_⟩
                · rw [hstep]
                  exact hrun2
                · intro Y hYr hYc2 hTodo
                  apply hcomp2 Y hYr hYc2
                  rcases hTodo with hcur | ⟨e, he, hOb⟩
                  · exact absurd hcur (hnoOb Y hYr hYc2)
                  · have he2 : e ∈ (q0 :: Qs2) ++ qb0 :: Qb2 := he
                    rcases List.mem_append.mp he2 with hea | heb
                    · rcases List.mem_cons.mp hea with rfl | het
                      · exact Or.inl hOb
                      · exact Or.inr ⟨e, List.mem_append_left _ het, hOb⟩
                    · exact Or.inr ⟨⟨e.input_attr, e.inner_index,
                        some (D.filter (fun e2 => ¬ e2.1 < qb0.inner_index))⟩,
                        List.mem_append_right _ (List.mem_map_of_mem _ heb), hOb⟩
      · -- a new concept is emitted at `t`
        have hcl : c.index_object_derivation (c.index_attribute_derivation B ∩
            c.index_attribute_derivation {t}) =
            c.index_attribute_hull (B ∪ {t}) := fcbo_closure_eq hw hBr ht2
        have hUr : B ∪ {t} ⊆ Finset.range c.attributes.length :=
          Finset.union_subset hBr
            (Finset.singleton_subset_iff.mpr (Finset.mem_range.mpr ht2))
        have hYcr : c.index_attribute_hull (B ∪ {t}) ⊆
            Finset.range c.attributes.length :=
          (hull_closureOn hw).range_closed _ hUr
        have hYcc : c.index_attribute_hull (c.index_attribute_hull (B ∪ {t})) =
            c.index_attribute_hull (B ∪ {t}) := (hull_closureOn hw).idem _ hUr
        have hBsub : B ⊆ c.index_attribute_hull (B ∪ {t}) :=
          fun x hx => (hull_closureOn hw).le _ hUr (Finset.mem_union_left _ hx)
        have htmem : t ∈ c.index_attribute_hull (B ∪ {t}) :=
          (hull_closureOn hw).le _ hUr
            (Finset.mem_union_right _ (Finset.mem_singleton_self t))
        have hp1 : 1 ≤ 2 ^ (c.attributes.length - (t + 1)) := Nat.one_le_two_pow
        have hp2 : 2 ^ (c.attributes.length - t) =
            2 * 2 ^ (c.attributes.length - (t + 1)) := by
          have he : c.attributes.length - t =
              (c.attributes.length - (t + 1)) + 1 := by omega
          rw [he, pow_succ, Nat.mul_comm]
        have hp3 : 2 ^ (c.attributes.length - t) ≤
            2 ^ (c.attributes.length - y) :=
          Nat.pow_le_pow_right (by omega) (by omega)
        -- soundness facts of the emitted pair
        have hpair1 : c.index_object_derivation (c.index_attribute_derivation B ∩
            c.index_attribute_derivation {t}) ⊆
            Finset.range c.attributes.length := hcl.symm ▸ hYcr
        have hpair2 : c.index_attribute_hull
            (c.index_object_derivation (c.index_attribute_derivation B ∩
              c.index_attribute_derivation {t})) =
            c.index_object_derivation (c.index_attribute_derivation B ∩
              c.index_attribute_derivation {t}) := by
          rw [hcl]
          exact hYcc
        have hpair3 : c.index_attribute_derivation B ∩
            c.index_attribute_derivation {t} =
            c.index_attribute_derivation
              (c.index_object_derivation (c.index_attribute_derivation B ∩
                c.index_attribute_derivation {t})) := by
          rw [hcl]
          exact fcbo_extent_eq hw hBr ht2
        -- obligation bookkeeping shared by both enqueue decisions
        by_cases henq : c.index_object_derivation
            (c.index_attribute_derivation B ∩ c.index_attribute_derivation {t}) ≠
            Finset.range c.attributes.length ∧ t < c.attributes.length - 1
        · have hstep := fcboRun_step_emit_enq c
            ((List.range c.attributes.length).map (fun i => Finset.range i))
            fuel B y D (Qs ++ Qb) Qb.length
            (c.index_attribute_derivation B ∩ c.index_attribute_derivation {t},
              c.index_object_derivation (c.index_attribute_derivation B ∩
                c.index_attribute_derivation {t})) t hout henq
          have hInv2 : FcboInv c ⟨B, t + 1, D,
              (Qs ++ Qb) ++ [⟨c.index_object_derivation
                (c.index_attribute_derivation B ∩
                  c.index_attribute_derivation {t}), t + 1, none⟩],
              Qb.length + 1⟩ := by
            refine ⟨hBr, hBc, DeOk_mono_base hDe (show y ≤ t + 1 by omega),
              Qs, Qb ++ [⟨c.index_object_derivation
                (c.index_attribute_derivation B ∩
                  c.index_attribute_derivation {t}), t + 1, none⟩],
              List.append_assoc Qs Qb _, ?_, hQs, ?_, ?_⟩
            · rw [List.length_append, List.length_singleton]
            · intro e he
              rcases List.mem_append.mp he with he1 | he2
              · obtain ⟨v1, v2, v3, v4, v5⟩ := hQb e he1
                exact ⟨v1, v2, v3, v4, show e.inner_index ≤ t + 1 by omega⟩
              · rw [List.mem_singleton] at he2
                subst he2
                exact ⟨hpair1, hpair2 ▸ hpair2, rfl, hcl.symm ▸ hBsub, le_refl _⟩
            · intro e2 he2
              cases Qb with
              | nil =>
                  simp only [List.nil_append, List.head?_cons,
                    Option.some.injEq] at he2
                  subst he2
                  refine ⟨DeOk_mono_base hDe (show y ≤ t + 1 by omega), ?_⟩
                  intro e he
                  simp only [List.nil_append, List.mem_singleton] at he
                  subst he
                  exact le_refl _
              | cons e0 Qb3 =>
                  simp only [List.cons_append, List.head?_cons,
                    Option.some.injEq] at he2
                  subst he2
                  obtain ⟨hh1, hh2⟩ := hQh e0 rfl
                  refine ⟨hh1, ?_⟩
                  intro e he
                  rcases List.mem_append.mp he with hea | heb
                  · exact hh2 e hea
                  · rw [List.mem_singleton] at heb
                    subst heb
                    have := (hQb e0 (List.mem_cons_self e0 Qb3)).2.2.2.2
                    show e0.inner_index ≤ t + 1
                    omega
          have hPot3 : fcboPot c.attributes.length ⟨B, t + 1, D,
              (Qs ++ Qb) ++ [⟨c.index_object_derivation
                (c.index_attribute_derivation B ∩
                  c.index_attribute_derivation {t}), t + 1, none⟩],
              Qb.length + 1⟩ ≤ fuel := by
            show (3 * 2 ^ (c.attributes.length - (t + 1)) - 2) +
              (((Qs ++ Qb) ++ [(⟨c.index_object_derivation
                (c.index_attribute_derivation B ∩
                  c.index_attribute_derivation {t}), t + 1, none⟩ :
                    CallingContextEntry)]).map
                (fun e =>
                  3 * 2 ^ (c.attributes.length - e.inner_index) - 1)).sum ≤ fuel
            rw [List.map_append, List.sum_append]
            simp only [List.map_cons, List.map_nil, List.sum_cons, List.sum_nil]
            omega
          obtain ⟨rest, hrun2, hsound2, hcomp2⟩ :=
            ih ⟨B, t + 1, D,
              (Qs ++ Qb) ++ [⟨c.index_object_derivation
                (c.index_attribute_derivation B ∩
                  c.index_attribute_derivation {t}), t + 1, none⟩],
              Qb.length + 1⟩ hInv2 hPot3
          refine ⟨(c.index_attribute_derivation B ∩
              c.index_attribute_derivation {t},
              c.index_object_derivation (c.index_attribute_derivation B ∩
                c.index_attribute_derivation {t})) :: rest, ?_, ?_, ?_⟩
          · rw [hstep, hrun2]
            rfl
          · intro p hp
            rcases List.mem_cons.mp hp with hph | hpt
            · subst hph
              exact ⟨hpair1, hpair2, hpair3⟩
            · exact hsound2 p hpt
          · intro Y hYr hYc2 hTodo
            rcases hTodo with hcur | ⟨e, he, hOb⟩
            · have hcur2 : FcboObl B y Y := hcur
              have hOt : FcboObl B t Y :=
                fcbo_obl_advance hw hBr hYr hYc2 hDe hcur2 hskips
              by_cases htY : t ∈ Y
              · have hmin : ∀ x ∈ Y, x ∉ B → t ≤ x := by
                  intro x hx1 hx2
                  by_contra hlt
                  exact hx2 (hOt.2 (Finset.mem_inter.mpr
                    ⟨hx1, Finset.mem_range.mpr (by omega)⟩))
                obtain ⟨hsubY, _⟩ := fcbo_canonical_step hw hBr hYr hYc2
                  hOt.1.subset htY ht3 hmin
                rcases eq_or_ne (c.index_attribute_hull (B ∪ {t})) Y with
                  heY | hneY
                · refine ⟨c.index_attribute_derivation B ∩
                    c.index_attribute_derivation {t}, ?_⟩
                  rw [show c.index_object_derivation
                    (c.index_attribute_derivation B ∩
                      c.index_attribute_derivation {t}) = Y from hcl.trans heY]
                  exact List.mem_cons_self _ _
                · have hOb2 : FcboObl (c.index_object_derivation
                      (c.index_attribute_derivation B ∩
                        c.index_attribute_derivation {t})) (t + 1) Y := by
                    rw [hcl]
                    refine ⟨lt_of_le_of_ne hsubY hneY, ?_⟩
                    intro x hx
                    rw [Finset.mem_inter, Finset.mem_range] at hx
                    obtain ⟨hx1, hx2⟩ := hx
                    rcases Nat.lt_succ_iff_lt_or_eq.mp hx2 with hx3 | rfl
                    · exact hBsub (hOt.2 (Finset.mem_inter.mpr
                        ⟨hx1, Finset.mem_range.mpr hx3⟩))
                    · exact htmem
                  obtain ⟨X, hX⟩ := hcomp2 Y hYr hYc2 (Or.inr
                    ⟨⟨c.index_object_derivation
                      (c.index_attribute_derivation B ∩
                        c.index_attribute_derivation {t}), t + 1, none⟩,
                      List.mem_append_right _ (List.mem_singleton.mpr rfl),
                      hOb2⟩)
                  exact ⟨X, List.mem_cons_of_mem _ hX⟩
              · have hOb2 : FcboObl B (t + 1) Y := by
                  refine ⟨hOt.1, ?_⟩
                  intro x hx
                  rw [Finset.mem_inter, Finset.mem_range] at hx
                  obtain ⟨hx1, hx2⟩ := hx
                  rcases Nat.lt_succ_iff_lt_or_eq.mp hx2 with hx3 | rfl
                  · exact hOt.2 (Finset.mem_inter.mpr
                      ⟨hx1, Finset.mem_range.mpr hx3⟩)
                  · exact absurd hx1 htY
                obtain ⟨X, hX⟩ := hcomp2 Y hYr hYc2 (Or.inl hOb2)
                exact ⟨X, List.mem_cons_of_mem _ hX⟩
            · have he2 : e ∈ Qs ++ Qb := he
              obtain ⟨X, hX⟩ := hcomp2 Y hYr hYc2 (Or.inr
                ⟨e, List.mem_append_left _ he2, hOb⟩)
              exact ⟨X, List.mem_cons_of_mem _ hX⟩
        · have hstep := fcboRun_step_emit_noenq c
            ((List.range c.attributes.length).map (fun i => Finset.range i))
            fuel B y D (Qs ++ Qb) Qb.length
            (c.index_attribute_derivation B ∩ c.index_attribute_derivation {t},
              c.index_object_derivation (c.index_attribute_derivation B ∩
                c.index_attribute_derivation {t})) t hout henq
          have hInv2 : FcboInv c ⟨B, t + 1, D, Qs ++ Qb, Qb.length⟩ := by
            refine ⟨hBr, hBc, DeOk_mono_base hDe (show y ≤ t + 1 by omega),
              Qs, Qb, rfl, rfl, hQs, ?_, ?_⟩
            · intro e he
              obtain ⟨v1, v2, v3, v4, v5⟩ := hQb e he
              exact ⟨v1, v2, v3, v4, show e.inner_index ≤ t + 1 by omega⟩
            · intro e2 he2
              obtain ⟨hh1, hh2⟩ := hQh e2 he2
              exact ⟨hh1, hh2⟩
          have hPot3 : fcboPot c.attributes.length
              ⟨B, t + 1, D, Qs ++ Qb, Qb.length⟩ ≤ fuel := by
            show (3 * 2 ^ (c.attributes.length - (t + 1)) - 2) +
              ((Qs ++ Qb).map (fun e =>
                3 * 2 ^ (c.attributes.length - e.inner_index) - 1)).sum ≤ fuel
            omega
          obtain ⟨rest, hrun2, hsound2, hcomp2⟩ :=
            ih ⟨B, t + 1, D, Qs ++ Qb, Qb.length⟩ hInv2 hPot3
          refine ⟨(c.index_attribute_derivation B ∩
              c.index_attribute_derivation {t},
              c.index_object_derivation (c.index_attribute_derivation B ∩
                c.index_attribute_derivation {t})) :: rest, ?_, ?_, ?_⟩
          · rw [hstep, hrun2]
            rfl
          · intro p hp
            rcases List.mem_cons.mp hp with hph | hpt
            · subst hph
              exact ⟨hpair1, hpair2, hpair3⟩
            · exact hsound2 p hpt
          · intro Y hYr hYc2 hTodo
            rcases hTodo with hcur | ⟨e, he, hOb⟩
            · have hcur2 : FcboObl B y Y := hcur
              have hOt : FcboObl B t Y :=
                fcbo_obl_advance hw hBr hYr hYc2 hDe hcur2 hskips
              by_cases htY : t ∈ Y
              · have hmin : ∀ x ∈ Y, x ∉ B → t ≤ x := by
                  intro x hx1 hx2
                  by_contra hlt
                  exact hx2 (hOt.2 (Finset.mem_inter.mpr
                    ⟨hx1, Finset.mem_range.mpr (by omega)⟩))
                obtain ⟨hsubY, _⟩ := fcbo_canonical_step hw hBr hYr hYc2
                  hOt.1.subset htY ht3 hmin
                rcases eq_or_ne (c.index_attribute_hull (B ∪ {t})) Y with
                  heY | hneY
                · refine ⟨c.index_attribute_derivation B ∩
                    c.index_attribute_derivation {t}, ?_⟩
                  rw [show c.index_object_derivation
                    (c.index_attribute_derivation B ∩
                      c.index_attribute_derivation {t}) = Y from hcl.trans heY]
                  exact List.mem_cons_self _ _
                · exfalso
                  apply henq
                  constructor
                  · rw [hcl]
                    intro hfull
                    exact hneY (Finset.Subset.antisymm hsubY
                      (hfull.symm ▸ hYr))
                  · by_contra hge
                    have htn : t + 1 = c.attributes.length := by omega
                    have hYsub : Y ⊆ c.index_attribute_hull (B ∪ {t}) := by
                      intro x hx
                      have hx2 : x < t + 1 := by
                        rw [htn]
                        exact Finset.mem_range.mp (hYr hx)
                      rcases Nat.lt_succ_iff_lt_or_eq.mp hx2 with hx3 | rfl
                      · exact hBsub (hOt.2 (Finset.mem_inter.mpr
                          ⟨hx, Finset.mem_range.mpr hx3⟩))
                      · exact htmem
                    exact hneY (Finset.Subset.antisymm hsubY hYsub)
              · have hOb2 : FcboObl B (t + 1) Y := by
                  refine ⟨hOt.1, ?_⟩
                  intro x hx
                  rw [Finset.mem_inter, Finset.mem_range] at hx
                  obtain ⟨hx1, hx2⟩ := hx
                  rcases Nat.lt_succ_iff_lt_or_eq.mp hx2 with hx3 | rfl
                  · exact hOt.2 (Finset.mem_inter.mpr
                      ⟨hx1, Finset.mem_range.mpr hx3⟩)
                  · exact absurd hx1 htY
                obtain ⟨X, hX⟩ := hcomp2 Y hYr hYc2 (Or.inl hOb2)
                exact ⟨X, List.mem_cons_of_mem _ hX⟩
            · have he2 : e ∈ Qs ++ Qb := he
              obtain ⟨X, hX⟩ := hcomp2 Y hYr hYc2 (Or.inr ⟨e, he2, hOb⟩)
              exact ⟨X, List.mem_cons_of_mem _ hX⟩
      · -- a dead end is recorded at `t`
        have hcl : c.index_object_derivation (c.index_attribute_derivation B ∩
            c.index_attribute_derivation {t}) =
            c.index_attribute_hull (B ∪ {t}) := fcbo_closure_eq hw hBr ht2
        have hp1 : 1 ≤ 2 ^ (c.attributes.length - (t + 1)) := Nat.one_le_two_pow
        have hp2 : 2 ^ (c.attributes.length - t) =
            2 * 2 ^ (c.attributes.length - (t + 1)) := by
          have he : c.attributes.length - t =
              (c.attributes.length - (t + 1)) + 1 := by omega
          rw [he, pow_succ, Nat.mul_comm]
        have hp3 : 2 ^ (c.attributes.length - t) ≤
            2 ^ (c.attributes.length - y) :=
          Nat.pow_le_pow_right (by omega) (by omega)
        have hval : DeValid c B (c.index_object_derivation
            (c.index_attribute_derivation B ∩ c.index_attribute_derivation {t}))
            t := Or.inr ⟨B, Finset.Subset.refl B, hBr, hcl⟩
        have hstep := fcboRun_step_deadend c
          ((List.range c.attributes.length).map (fun i => Finset.range i))
          fuel B y D (Qs ++ Qb) Qb.length
          (c.index_object_derivation (c.index_attribute_derivation B ∩
            c.index_attribute_derivation {t})) t hout
        have hInv2 : FcboInv c ⟨B, t + 1,
            deInsert D t (c.index_object_derivation
              (c.index_attribute_derivation B ∩
                c.index_attribute_derivation {t})), Qs ++ Qb, Qb.length⟩ := by
          refine ⟨hBr, hBc,
            DeOk_mono_base (DeOk_deInsert hDe hval) (show y ≤ t + 1 by omega),
            Qs, Qb, rfl, rfl, hQs, ?_, ?_⟩
          · intro e he
            obtain ⟨v1, v2, v3, v4, v5⟩ := hQb e he
            exact ⟨v1, v2, v3, v4, show e.inner_index ≤ t + 1 by omega⟩
          · intro e2 he2
            obtain ⟨hh1, hh2⟩ := hQh e2 he2
            exact ⟨DeOk_deInsert hh1 hval, hh2⟩
        have hPot3 : fcboPot c.attributes.length ⟨B, t + 1,
            deInsert D t (c.index_object_derivation
              (c.index_attribute_derivation B ∩
                c.index_attribute_derivation {t})), Qs ++ Qb, Qb.length⟩ ≤
            fuel := by
          show (3 * 2 ^ (c.attributes.length - (t + 1)) - 2) +
            ((Qs ++ Qb).map (fun e =>
              3 * 2 ^ (c.attributes.length - e.inner_index) - 1)).sum ≤ fuel
          omega
        obtain ⟨rest, hrun2, hsound2, hcomp2⟩ :=
          ih ⟨B, t + 1,
            deInsert D t (c.index_object_derivation
              (c.index_attribute_derivation B ∩
                c.index_attribute_derivation {t})), Qs ++ Qb, Qb.length⟩
            hInv2 hPot3
        refine ⟨rest, ?_, hsound2, ?_⟩
        · rw [hstep]
          exact hrun2
        · intro Y hYr hYc2 hTodo
          rcases hTodo with hcur | ⟨e, he, hOb⟩
          · have hcur2 : FcboObl B y Y := hcur
            have hOt : FcboObl B t Y :=
              fcbo_obl_advance hw hBr hYr hYc2 hDe hcur2 hskips
            by_cases htY : t ∈ Y
            · exfalso
              have hmin : ∀ x ∈ Y, x ∉ B → t ≤ x := by
                intro x hx1 hx2
                by_contra hlt
                exact hx2 (hOt.2 (Finset.mem_inter.mpr
                  ⟨hx1, Finset.mem_range.mpr (by omega)⟩))
              obtain ⟨_, heq2⟩ := fcbo_canonical_step hw hBr hYr hYc2
                hOt.1.subset htY ht3 hmin
              apply htest2
              rw [hcl]
              exact heq2
            · refine hcomp2 Y hYr hYc2 (Or.inl ?_)
              show FcboObl B (t + 1) Y
              refine ⟨hOt.1, ?_⟩
              intro x hx
              rw [Finset.mem_inter, Finset.mem_range] at hx
              obtain ⟨hx1, hx2⟩ := hx
              rcases Nat.lt_succ_iff_lt_or_eq.mp hx2 with hx3 | rfl
              · exact hOt.2 (Finset.mem_inter.mpr
                  ⟨hx1, Finset.mem_range.mpr hx3⟩)
              · exact absurd hx1 htY
          · have he2 : e ∈ Qs ++ Qb := he
            exact hcomp2 Y hYr hYc2 (Or.inr ⟨e, he2, hOb⟩)

theorem find?_append_some {A : Type} (p : A → Bool) (l1 l2 : List A) (a : A)
    (h : l1.find? p = some a) : (l1 ++ l2).find? p = some a := by
  induction l1 with
  | nil => simp [List.find?] at h
  | cons x xs ih =>
      rw [List.cons_append]
      by_cases hx : p x
      · rw [List.find?_cons_of_pos _ hx] at h ⊢
        exact h
      · rw [List.find?_cons_of_neg _ hx] at h ⊢
        exact ih h

theorem find?_append_of_none {A : Type} (p : A → Bool) (l1 l2 : List A)
    (h : l1.find? p = none) : (l1 ++ l2).find? p = l2.find? p := by
  induction l1 with
  | nil => rw [List.nil_append]
  | cons x xs ih =>
      rw [List.cons_append]
      by_cases hx : p x
      · rw [List.find?_cons_of_pos _ hx] at h
        exact absurd h (by simp)
      · rw [List.find?_cons_of_neg _ hx] at h ⊢
        exact ih h

theorem find?_initMap_ne (l : List ℕ) (j : ℕ) (h : ∀ i ∈ l, ¬ i = j) :
    ((l.map (fun i => (i, (∅ : Finset ℕ)))).find? (fun e => e.1 == j)) =
      none := by
  induction l with
  | nil => rfl
  | cons x xs ih =>
      rw [List.map_cons, List.find?_cons_of_neg]
      · exact ih (fun i hi => h i (List.mem_cons_of_mem x hi))
      · simp only [beq_iff_eq]
        exact h x (List.mem_cons_self x xs)

theorem find?_initMap : ∀ (n j : ℕ), j < n →
    ((List.range n).map (fun i => (i, (∅ : Finset ℕ)))).find?
      (fun e => e.1 == j) = some (j, ∅) := by
  intro n
  induction n with
  | zero =>
      intro j h
      omega
  | succ n ih =>
      intro j h
      rw [List.range_succ, List.map_append]
      rcases Nat.lt_succ_iff_lt_or_eq.mp h with h2 | rfl
      · exact find?_append_some _ _ _ _ (ih j h2)
      · rw [find?_append_of_none]
        · rw [List.map_cons, List.map_nil, List.find?_cons_of_pos _ (by simp)]
        · exact find?_initMap_ne _ _ (fun i hi => by
            rw [List.mem_range] at hi
            omega)

theorem deLookup_initMap (n j : ℕ) (h : j < n) :
    deLookup ((List.range n).map (fun i => (i, (∅ : Finset ℕ)))) j =
      some ∅ := by
  rw [deLookup, find?_initMap n j h]
  rfl

theorem FcboObl_mono_pos {B : Finset ℕ} {y1 y2 : ℕ} {Y : Finset ℕ}
    (h : y1 ≤ y2) (hOb : FcboObl B y2 Y) : FcboObl B y1 Y := by
  refine ⟨hOb.1, ?_⟩
  intro x hx
  rw [Finset.mem_inter, Finset.mem_range] at hx
  exact hOb.2 (Finset.mem_inter.mpr
    ⟨hx.1, Finset.mem_range.mpr (by omega)⟩)

/-- Second master lemma for the FCbO loop: with the obligation sets of the
live nodes pairwise disjoint, every emission is an outstanding obligation
and no intent is emitted twice. -/
theorem fcboRun_nodup {T : Type} {c : FormalContext T} (hw : c.WellFormed) :
    ∀ fuel st out, FcboInv c st → OblSep c st →
      fcboRun c ((List.range c.attributes.length).map (fun i => Finset.range i))
        fuel st = some out →
      (∀ p ∈ out, FcboTodo st p.2) ∧
        (out.map Prod.snd).Pairwise (fun a b => a ≠ b) := by
  intro fuel
  induction fuel with
  | zero =>
      intro st out _ _ hrun
      exact Option.noConfusion (show (none : Option _) = some out from hrun)
  | succ fuel ih =>
      intro st out hInv hSep hrun
      obtain ⟨B, y, D, Q, br⟩ := st
      obtain ⟨hBr0, hBc0, hDe0, Qs, Qb, hQ0, hbr0, hQs0, hQb0, hQh0⟩ := hInv
      have hBr : B ⊆ Finset.range c.attributes.length := hBr0
      have hBc : c.index_attribute_hull B = B := hBc0
      have hDe : DeOk c B D y := hDe0
      have hQs : ∀ e ∈ Qs, e.input_attr ⊆ Finset.range c.attributes.length ∧
          c.index_attribute_hull e.input_attr = e.input_attr ∧
          ∃ m, e.dead_end_attr = some m ∧ DeOk c e.input_attr m e.inner_index :=
        hQs0
      have hQb : ∀ e ∈ Qb, e.input_attr ⊆ Finset.range c.attributes.length ∧
          c.index_attribute_hull e.input_attr = e.input_attr ∧
          e.dead_end_attr = none ∧ B ⊆ e.input_attr ∧ e.inner_index ≤ y := hQb0
      have hQh : ∀ e2, Qb.head? = some e2 → DeOk c B D e2.inner_index ∧
          ∀ e ∈ Qb, e2.inner_index ≤ e.inner_index := hQh0
      have hQe : Q = Qs ++ Qb := hQ0
      have hbr2 : Qb.length = br := hbr0
      subst hQe
      subst hbr2
      have hSepP : (((B, y) : Finset ℕ × ℕ) ::
          (Qs ++ Qb).map (fun e => (e.input_attr, e.inner_index))).Pairwise
          (fun a b => ∀ Y, Y ⊆ Finset.range c.attributes.length →
            c.index_attribute_hull Y = Y →
            ¬ (FcboObl a.1 a.2 Y ∧ FcboObl b.1 b.2 Y)) := hSep
      have hHead := (List.pairwise_cons.mp hSepP).1
      have hTail := (List.pairwise_cons.mp hSepP).2
      have hlk : ∀ t, y ≤ t → t < c.attributes.length → t ∉ B →
          ∃ d, deLookup D t = some d := by
        intro t h1 h2 _
        obtain ⟨d, hd, _⟩ := hDe t h1 h2
        exact ⟨d, hd⟩
      rcases fcbo_next_concept_spec c B D c.attributes.length y (by omega) hlk with
        ⟨hout, hskips⟩ |
        ⟨t, d, ht1, ht2, ht3, hskips, hlkt, htest1, htest2, hout⟩ |
        ⟨t, d, ht1, ht2, ht3, hskips, hlkt, htest1, htest2, hout⟩
      · -- node cleared
        cases Qb with
        | nil =>
            rw [List.append_nil, List.length_nil] at hrun
            cases Qs with
            | nil =>
                rw [fcboRun_step_cleared_nil c _ fuel B y D 0 hout] at hrun
                injection hrun with h
                subst h
                exact ⟨fun p hp => absurd hp (List.not_mem_nil p), by simp⟩
            | cons q0 Qs2 =>
                obtain ⟨hq1, hq2, m, hm, hDm⟩ :=
                  hQs q0 (List.mem_cons_self q0 Qs2)
                rw [fcboRun_step_cleared_pop c _ fuel B y D q0 Qs2 m hm hout]
                  at hrun
                have hInv2 : FcboInv c
                    ⟨q0.input_attr, q0.inner_index, m, Qs2, 0⟩ := by
                  refine ⟨hq1, hq2, hDm, Qs2, [],
                    (List.append_nil Qs2).symm, rfl,
                    (fun e he => hQs e (List.mem_cons_of_mem q0 he)),
                    (fun e he => absurd he (List.not_mem_nil e)), ?_⟩
                  intro e2 he2
                  simp at he2
                have hSep2 : OblSep c
                    ⟨q0.input_attr, q0.inner_index, m, Qs2, 0⟩ := by
                  show ((q0.input_attr, q0.inner_index) ::
                    Qs2.map (fun e => (e.input_attr, e.inner_index))).Pairwise _
                  simp only [List.append_nil, List.map_cons] at hTail
                  exact hTail
                obtain ⟨hT2, hND2⟩ := ih _ out hInv2 hSep2 hrun
                refine ⟨?_, hND2⟩
                intro p hp
                rcases hT2 p hp with hcur | ⟨e, he, hOb⟩
                · exact Or.inr ⟨q0, List.mem_append_left _
                    (List.mem_cons_self q0 Qs2), hcur⟩
                · have he2 : e ∈ Qs2 := he
                  exact Or.inr ⟨e, List.mem_append_left _
                    (List.mem_cons_of_mem q0 he2), hOb⟩
        | cons qb0 Qb2 =>
            rw [List.length_cons] at hrun
            obtain ⟨hh1, hh2⟩ := hQh qb0 rfl
            have hDtrunc : ∀ e ∈ qb0 :: Qb2,
                DeOk c e.input_attr
                  (D.filter (fun e2 => ¬ e2.1 < qb0.inner_index))
                  e.inner_index := by
              intro e he
              obtain ⟨w1, w2, w3, w4, w5⟩ := hQb e he
              exact DeOk_mono_attr
                (DeOk_filter_ge (DeOk_mono_base hh1 (hh2 e he)) (hh2 e he)) w4
            have hgmem : ∀ e ∈ qb0 :: Qb2,
                e.input_attr ⊆ Finset.range c.attributes.length ∧
                c.index_attribute_hull e.input_attr = e.input_attr ∧
                ∃ m2, (⟨e.input_attr, e.inner_index,
                  some (D.filter (fun e2 => ¬ e2.1 < qb0.inner_index))⟩ :
                    CallingContextEntry).dead_end_attr = some m2 ∧
                  DeOk c e.input_attr m2 e.inner_index := by
              intro e he
              obtain ⟨w1, w2, w3, w4, w5⟩ := hQb e he
              exact ⟨w1, w2, D.filter (fun e2 => ¬ e2.1 < qb0.inner_index),
                rfl, hDtrunc e he⟩
            have hfg : ∀ (l : List CallingContextEntry),
                (l.map (fun e => (⟨e.input_attr, e.inner_index,
                  some (D.filter (fun e2 => ¬ e2.1 < qb0.inner_index))⟩ :
                    CallingContextEntry))).map
                  (fun e => (e.input_attr, e.inner_index)) =
                l.map (fun e => (e.input_attr, e.inner_index)) := by
              intro l
              rw [List.map_map]
              congr 1
            cases Qs with
            | nil =>
                rw [List.nil_append] at hrun
                rw [fcboRun_step_cleared_assign_nilQs c _ fuel B y D qb0 Qb2
                  hout] at hrun
                obtain ⟨w1, w2, _, _, _⟩ := hQb qb0 (List.mem_cons_self qb0 Qb2)
                have hInv2 : FcboInv c
                    ⟨qb0.input_attr, qb0.inner_index,
                      D.filter (fun e => ¬ e.1 < qb0.inner_index),
                      Qb2.map (fun e => ⟨e.input_attr, e.inner_index,
                        some (D.filter (fun e2 => ¬ e2.1 < qb0.inner_index))⟩),
                      0⟩ := by
                  refine ⟨w1, w2, hDtrunc qb0 (List.mem_cons_self qb0 Qb2),
                    Qb2.map (fun e => ⟨e.input_attr, e.inner_index,
                      some (D.filter (fun e2 => ¬ e2.1 < qb0.inner_index))⟩), [],
                    (List.append_nil _).symm, rfl, ?_,
                    (fun e he => absurd he (List.not_mem_nil e)), ?_⟩
                  · intro e2 he2
                    obtain ⟨e, he, hee⟩ := List.mem_map.mp he2
                    subst hee
                    exact hgmem e (List.mem_cons_of_mem qb0 he)
                  · intro e2 he2
                    simp at he2
                have hSep2 : OblSep c
                    ⟨qb0.input_attr, qb0.inner_index,
                      D.filter (fun e => ¬ e.1 < qb0.inner_index),
                      Qb2.map (fun e => ⟨e.input_attr, e.inner_index,
                        some (D.filter (fun e2 => ¬ e2.1 < qb0.inner_index))⟩),
                      0⟩ := by
                  show ((qb0.input_attr, qb0.inner_index) ::
                    (Qb2.map (fun e => (⟨e.input_attr, e.inner_index,
                      some (D.filter (fun e2 => ¬ e2.1 < qb0.inner_index))⟩ :
                        CallingContextEntry))).map
                      (fun e => (e.input_attr, e.inner_index))).Pairwise _
                  rw [hfg Qb2]
                  simp only [List.nil_append, List.map_cons] at hTail
                  exact hTail
                obtain ⟨hT2, hND2⟩ := ih _ out hInv2 hSep2 hrun
                refine ⟨?_, hND2⟩
                intro p hp
                rcases hT2 p hp with hcur | ⟨e2, he2, hOb⟩
                · exact Or.inr ⟨qb0, List.mem_cons_self qb0 Qb2, hcur⟩
                · obtain ⟨e, he, hee⟩ := List.mem_map.mp he2
                  subst hee
                  exact Or.inr ⟨e, List.mem_cons_of_mem qb0 he, hOb⟩
            | cons q0 Qs2 =>
                obtain ⟨hq1, hq2, m, hm, hDm⟩ :=
                  hQs q0 (List.mem_cons_self q0 Qs2)
                rw [fcboRun_step_cleared_assign_consQs c _ fuel B y D q0 Qs2
                  qb0 Qb2 m hm hout] at hrun
                have hInv2 : FcboInv c
                    ⟨q0.input_attr, q0.inner_index, m,
                      Qs2 ++ (qb0 :: Qb2).map (fun e =>
                        ⟨e.input_attr, e.inner_index,
                          some (D.filter (fun e2 => ¬ e2.1 < qb0.inner_index))⟩),
                      0⟩ := by
                  refine ⟨hq1, hq2, hDm,
                    Qs2 ++ (qb0 :: Qb2).map (fun e =>
                      ⟨e.input_attr, e.inner_index,
                        some (D.filter (fun e2 => ¬ e2.1 < qb0.inner_index))⟩), [],
                    (List.append_nil _).symm, rfl, ?_,
                    (fun e he => absurd he (List.not_mem_nil e)), ?_⟩
                  · intro e2 he2
                    rcases List.mem_append.mp he2 with hea | heb
                    · exact hQs e2 (List.mem_cons_of_mem q0 hea)
                    · obtain ⟨e, he, hee⟩ := List.mem_map.mp heb
                      subst hee
                      exact hgmem e he
                  · intro e2 he2
                    simp at he2
                have hSep2 : OblSep c
                    ⟨q0.input_attr, q0.inner_index, m,
                      Qs2 ++ (qb0 :: Qb2).map (fun e =>
                        ⟨e.input_attr, e.inner_index,
                          some (D.filter (fun e2 => ¬ e2.1 < qb0.inner_index))⟩),
                      0⟩ := by
                  show ((q0.input_attr, q0.inner_index) ::
                    (Qs2 ++ (qb0 :: Qb2).map (fun e =>
                      (⟨e.input_attr, e.inner_index,
                        some (D.filter (fun e2 => ¬ e2.1 < qb0.inner_index))⟩ :
                          CallingContextEntry))).map
                      (fun e => (e.input_attr, e.inner_index))).Pairwise _
                  rw [List.map_append, hfg (qb0 :: Qb2)]
                  simp only [List.cons_append, List.map_cons, List.map_append]
                    at hTail
                  simp only [List.map_cons]
                  exact hTail
                obtain ⟨hT2, hND2⟩ := ih _ out hInv2 hSep2 hrun
                refine ⟨?_, hND2⟩
                intro p hp
                rcases hT2 p hp with hcur | ⟨e2, he2, hOb⟩
                · exact Or.inr ⟨q0, List.mem_cons_self _ _, hcur⟩
                · rcases List.mem_append.mp he2 with hea | heb
                  · exact Or.inr ⟨e2, List.mem_append_left _
                      (List.mem_cons_of_mem q0 hea), hOb⟩
                  · obtain ⟨e, he, hee⟩ := List.mem_map.mp heb
                    subst hee
                    exact Or.inr ⟨e, List.mem_append_right _ he, hOb⟩
      · -- a concept is emitted at t
        have hcl : c.index_object_derivation (c.index_attribute_derivation B ∩
            c.index_attribute_derivation {t}) =
            c.index_attribute_hull (B ∪ {t}) := fcbo_closure_eq hw hBr ht2
        have hUr : B ∪ {t} ⊆ Finset.range c.attributes.length :=
          Finset.union_subset hBr
            (Finset.singleton_subset_iff.mpr (Finset.mem_range.mpr ht2))
        have hBsubo : B ⊆ c.index_object_derivation
            (c.index_attribute_derivation B ∩
              c.index_attribute_derivation {t}) :=
          hcl.symm ▸ (fun x hx =>
            (hull_closureOn hw).le _ hUr (Finset.mem_union_left _ hx))
        have htmemo : t ∈ c.index_object_derivation
            (c.index_attribute_derivation B ∩
              c.index_attribute_derivation {t}) :=
          hcl.symm ▸ ((hull_closureOn hw).le _ hUr
            (Finset.mem_union_right _ (Finset.mem_singleton_self t)))
        have hYro : c.index_object_derivation (c.index_attribute_derivation B ∩
            c.index_attribute_derivation {t}) ⊆
            Finset.range c.attributes.length :=
          hcl.symm ▸ ((hull_closureOn hw).range_closed _ hUr)
        have hYco : c.index_attribute_hull
            (c.index_object_derivation (c.index_attribute_derivation B ∩
              c.index_attribute_derivation {t})) =
            c.index_object_derivation (c.index_attribute_derivation B ∩
              c.index_attribute_derivation {t}) := by
          rw [hcl]
          exact (hull_closureOn hw).idem _ hUr
        have hObC : FcboObl B y (c.index_object_derivation
            (c.index_attribute_derivation B ∩
              c.index_attribute_derivation {t})) := by
          refine ⟨lt_of_le_of_ne hBsubo
            (fun he => ht3 (he.symm ▸ htmemo)), ?_⟩
          intro x hx
          rw [Finset.mem_inter, Finset.mem_range] at hx
          have hx3 : x ∈ c.index_object_derivation
              (c.index_attribute_derivation B ∩
                c.index_attribute_derivation {t}) ∩ Finset.range t :=
            Finset.mem_inter.mpr ⟨hx.1, Finset.mem_range.mpr (by omega)⟩
          rw [← htest2] at hx3
          exact (Finset.mem_inter.mp hx3).1
        have hChildToB : ∀ Y, FcboObl (c.index_object_derivation
            (c.index_attribute_derivation B ∩
              c.index_attribute_derivation {t})) (t + 1) Y →
            FcboObl B y Y := by
          intro Y hOb
          refine ⟨lt_of_le_of_lt hBsubo hOb.1, ?_⟩
          intro x hx
          rw [Finset.mem_inter, Finset.mem_range] at hx
          have hx3 : x ∈ c.index_object_derivation
              (c.index_attribute_derivation B ∩
                c.index_attribute_derivation {t}) :=
            hOb.2 (Finset.mem_inter.mpr
              ⟨hx.1, Finset.mem_range.mpr (by omega)⟩)
          have hx4 : x ∈ c.index_object_derivation
              (c.index_attribute_derivation B ∩
                c.index_attribute_derivation {t}) ∩ Finset.range t :=
            Finset.mem_inter.mpr ⟨hx3, Finset.mem_range.mpr (by omega)⟩
          rw [← htest2] at hx4
          exact (Finset.mem_inter.mp hx4).1
        have hCur : ∀ Y, FcboObl B (t + 1) Y → FcboObl B y Y :=
          fun Y h => FcboObl_mono_pos (by omega) h
        have hCurChild : ∀ Y, Y ⊆ Finset.range c.attributes.length →
            c.index_attribute_hull Y = Y →
            ¬ (FcboObl B (t + 1) Y ∧ FcboObl (c.index_object_derivation
              (c.index_attribute_derivation B ∩
                c.index_attribute_derivation {t})) (t + 1) Y) := by
          rintro Y _ _ ⟨h1, h2⟩
          have htY : t ∈ Y := (le_of_lt h2.1) htmemo
          exact ht3 (h1.2 (Finset.mem_inter.mpr
            ⟨htY, Finset.mem_range.mpr (by omega)⟩))
        have hNotTwice : ∀ e ∈ Qs ++ Qb,
            ¬ FcboObl e.input_attr e.inner_index
              (c.index_object_derivation (c.index_attribute_derivation B ∩
                c.index_attribute_derivation {t})) := by
          intro e he hOb
          exact hHead (e.input_attr, e.inner_index)
            (List.mem_map_of_mem _ he) _ hYro hYco ⟨hObC, hOb⟩
        by_cases henq : c.index_object_derivation
            (c.index_attribute_derivation B ∩ c.index_attribute_derivation {t}) ≠
            Finset.range c.attributes.length ∧ t < c.attributes.length - 1
        · rw [fcboRun_step_emit_enq c
            ((List.range c.attributes.length).map (fun i => Finset.range i))
            fuel B y D (Qs ++ Qb) Qb.length
            (c.index_attribute_derivation B ∩ c.index_attribute_derivation {t},
              c.index_object_derivation (c.index_attribute_derivation B ∩
                c.index_attribute_derivation {t})) t hout henq] at hrun
          obtain ⟨rest, hrun2, hreq⟩ := Option.map_eq_some'.mp hrun
          have hreq2 : (c.index_attribute_derivation B ∩
              c.index_attribute_derivation {t},
              c.index_object_derivation (c.index_attribute_derivation B ∩
                c.index_attribute_derivation {t})) :: rest = out := hreq
          subst hreq2
          have hInv2 : FcboInv c ⟨B, t + 1, D,
              (Qs ++ Qb) ++ [⟨c.index_object_derivation
                (c.index_attribute_derivation B ∩
                  c.index_attribute_derivation {t}), t + 1, none⟩],
              Qb.length + 1⟩ := by
            refine ⟨hBr, hBc, DeOk_mono_base hDe (show y ≤ t + 1 by omega),
              Qs, Qb ++ [⟨c.index_object_derivation
                (c.index_attribute_derivation B ∩
                  c.index_attribute_derivation {t}), t + 1, none⟩],
              List.append_assoc Qs Qb _, ?_, hQs, ?_, ?_⟩
            · rw [List.length_append, List.length_singleton]
            · intro e he
              rcases List.mem_append.mp he with he1 | he2
              · obtain ⟨v1, v2, v3, v4, v5⟩ := hQb e he1
                exact ⟨v1, v2, v3, v4, show e.inner_index ≤ t + 1 by omega⟩
              · rw [List.mem_singleton] at he2
                subst he2
                exact ⟨hYro, hYco, rfl, hBsubo, le_refl _⟩
            · intro e2 he2
              cases Qb with
              | nil =>
                  simp only [List.nil_append, List.head?_cons,
                    Option.some.injEq] at he2
                  subst he2
                  refine ⟨DeOk_mono_base hDe (show y ≤ t + 1 by omega), ?_⟩
                  intro e he
                  simp only [List.nil_append, List.mem_singleton] at he
                  subst he
                  exact le_refl _
              | cons e0 Qb3 =>
                  simp only [List.cons_append, List.head?_cons,
                    Option.some.injEq] at he2
                  subst he2
                  obtain ⟨hg1, hg2⟩ := hQh e0 rfl
                  refine ⟨hg1, ?_⟩
                  intro e he
                  rcases List.mem_append.mp he with hea | heb
                  · exact hg2 e hea
                  · rw [List.mem_singleton] at heb
                    subst heb
                    have := (hQb e0 (List.mem_cons_self e0 Qb3)).2.2.2.2
                    show e0.inner_index ≤ t + 1
                    omega
          have hSep2 : OblSep c ⟨B, t + 1, D,
              (Qs ++ Qb) ++ [⟨c.index_object_derivation
                (c.index_attribute_derivation B ∩
                  c.index_attribute_derivation {t}), t + 1, none⟩],
              Qb.length + 1⟩ := by
            show (((B, t + 1) : Finset ℕ × ℕ) ::
              ((Qs ++ Qb) ++ [(⟨c.index_object_derivation
                (c.index_attribute_derivation B ∩
                  c.index_attribute_derivation {t}), t + 1, none⟩ :
                    CallingContextEntry)]).map
                (fun e => (e.input_attr, e.inner_index))).Pairwise _
            rw [List.map_append, List.map_cons, List.map_nil]
            refine List.pairwise_cons.mpr ⟨?_, List.pairwise_append.mpr
              ⟨hTail, List.pairwise_singleton _ _, ?_⟩⟩
            · intro b hb
              rcases List.mem_append.mp hb with hb1 | hb2
              · intro Y hYr hYc2 hcon
                exact hHead b hb1 Y hYr hYc2 ⟨hCur Y hcon.1, hcon.2⟩
              · rw [List.mem_singleton] at hb2
                subst hb2
                intro Y hYr hYc2 hcon
                exact hCurChild Y hYr hYc2 hcon
            · intro a ha b hb
              rw [List.mem_singleton] at hb
              subst hb
              intro Y hYr hYc2 hcon
              exact hHead a ha Y hYr hYc2 ⟨hChildToB Y hcon.2, hcon.1⟩
          obtain ⟨hT2, hND2⟩ := ih _ rest hInv2 hSep2 hrun2
          constructor
          · intro p hp
            rcases List.mem_cons.mp hp with rfl | hpt
            · exact Or.inl hObC
            · rcases hT2 p hpt with hcur | ⟨e, he, hOb⟩
              · exact Or.inl (hCur p.2 hcur)
              · rcases List.mem_append.mp he with he1 | he2
                · exact Or.inr ⟨e, he1, hOb⟩
                · rw [List.mem_singleton] at he2
                  subst he2
                  exact Or.inl (hChildToB p.2 hOb)
          · rw [List.map_cons]
            refine List.pairwise_cons.mpr ⟨?_, hND2⟩
            intro Y2 hY2 hEq
            obtain ⟨p, hp, hps⟩ := List.mem_map.mp hY2
            have hpt : p.2 = c.index_object_derivation
                (c.index_attribute_derivation B ∩
                  c.index_attribute_derivation {t}) := by
              rw [hps, ← hEq]
            rcases hT2 p hp with hcur | ⟨e, he, hOb⟩
            · have hcur2 : FcboObl B (t + 1) p.2 := hcur
              rw [hpt] at hcur2
              exact ht3 (hcur2.2 (Finset.mem_inter.mpr
                ⟨htmemo, Finset.mem_range.mpr (by omega)⟩))
            · rcases List.mem_append.mp he with he1 | he2
              · rw [hpt] at hOb
                exact hNotTwice e he1 hOb
              · rw [List.mem_singleton] at he2
                subst he2
                rw [hpt] at hOb
                exact (lt_irrefl _) hOb.1
        · rw [fcboRun_step_emit_noenq c
            ((List.range c.attributes.length).map (fun i => Finset.range i))
            fuel B y D (Qs ++ Qb) Qb.length
            (c.index_attribute_derivation B ∩ c.index_attribute_derivation {t},
              c.index_object_derivation (c.index_attribute_derivation B ∩
                c.index_attribute_derivation {t})) t hout henq] at hrun
          obtain ⟨rest, hrun2, hreq⟩ := Option.map_eq_some'.mp hrun
          have hreq2 : (c.index_attribute_derivation B ∩
              c.index_attribute_derivation {t},
              c.index_object_derivation (c.index_attribute_derivation B ∩
                c.index_attribute_derivation {t})) :: rest = out := hreq
          subst hreq2
          have hInv2 : FcboInv c ⟨B, t + 1, D, Qs ++ Qb, Qb.length⟩ := by
            refine ⟨hBr, hBc, DeOk_mono_base hDe (show y ≤ t + 1 by omega),
              Qs, Qb, rfl, rfl, hQs, ?_, ?_⟩
            · intro e he
              obtain ⟨v1, v2, v3, v4, v5⟩ := hQb e he
              exact ⟨v1, v2, v3, v4, show e.inner_index ≤ t + 1 by omega⟩
            · intro e2 he2
              obtain ⟨hg1, hg2⟩ := hQh e2 he2
              exact ⟨hg1, hg2⟩
          have hSep2 : OblSep c ⟨B, t + 1, D, Qs ++ Qb, Qb.length⟩ := by
            show (((B, t + 1) : Finset ℕ × ℕ) ::
              (Qs ++ Qb).map (fun e => (e.input_attr, e.inner_index))).Pairwise _
            refine List.pairwise_cons.mpr ⟨?_, hTail⟩
            intro b hb Y hYr hYc2 hcon
            exact hHead b hb Y hYr hYc2 ⟨hCur Y hcon.1, hcon.2⟩
          obtain ⟨hT2, hND2⟩ := ih _ rest hInv2 hSep2 hrun2
          constructor
          · intro p hp
            rcases List.mem_cons.mp hp with rfl | hpt
            · exact Or.inl hObC
            · rcases hT2 p hpt with hcur | ⟨e, he, hOb⟩
              · exact Or.inl (hCur p.2 hcur)
              · exact Or.inr ⟨e, he, hOb⟩
          · rw [List.map_cons]
            refine List.pairwise_cons.mpr ⟨?_, hND2⟩
            intro Y2 hY2 hEq
            obtain ⟨p, hp, hps⟩ := List.mem_map.mp hY2
            have hpt : p.2 = c.index_object_derivation
                (c.index_attribute_derivation B ∩
                  c.index_attribute_derivation {t}) := by
              rw [hps, ← hEq]
            rcases hT2 p hp with hcur | ⟨e, he, hOb⟩
            · have hcur2 : FcboObl B (t + 1) p.2 := hcur
              rw [hpt] at hcur2
              exact ht3 (hcur2.2 (Finset.mem_inter.mpr
                ⟨htmemo, Finset.mem_range.mpr (by omega)⟩))
            · rw [hpt] at hOb
              exact hNotTwice e he hOb
      · -- a dead end is recorded at t
        have hcl : c.index_object_derivation (c.index_attribute_derivation B ∩
            c.index_attribute_derivation {t}) =
            c.index_attribute_hull (B ∪ {t}) := fcbo_closure_eq hw hBr ht2
        have hval : DeValid c B (c.index_object_derivation
            (c.index_attribute_derivation B ∩ c.index_attribute_derivation {t}))
            t := Or.inr ⟨B, Finset.Subset.refl B, hBr, hcl⟩
        rw [fcboRun_step_deadend c
          ((List.range c.attributes.length).map (fun i => Finset.range i))
          fuel B y D (Qs ++ Qb) Qb.length
          (c.index_object_derivation (c.index_attribute_derivation B ∩
            c.index_attribute_derivation {t})) t hout] at hrun
        have hInv2 : FcboInv c ⟨B, t + 1,
            deInsert D t (c.index_object_derivation
              (c.index_attribute_derivation B ∩
                c.index_attribute_derivation {t})), Qs ++ Qb, Qb.length⟩ := by
          refine ⟨hBr, hBc,
            DeOk_mono_base (DeOk_deInsert hDe hval) (show y ≤ t + 1 by omega),
            Qs, Qb, rfl, rfl, hQs, ?_, ?_⟩
          · intro e he
            obtain ⟨v1, v2, v3, v4, v5⟩ := hQb e he
            exact ⟨v1, v2, v3, v4, show e.inner_index ≤ t + 1 by omega⟩
          · intro e2 he2
            obtain ⟨hg1, hg2⟩ := hQh e2 he2
            exact ⟨DeOk_deInsert hg1 hval, hg2⟩
        have hSep2 : OblSep c ⟨B, t + 1,
            deInsert D t (c.index_object_derivation
              (c.index_attribute_derivation B ∩
                c.index_attribute_derivation {t})), Qs ++ Qb, Qb.length⟩ := by
          show (((B, t + 1) : Finset ℕ × ℕ) ::
            (Qs ++ Qb).map (fun e => (e.input_attr, e.inner_index))).Pairwise _
          refine List.pairwise_cons.mpr ⟨?_, hTail⟩
          intro b hb Y hYr hYc2 hcon
          exact hHead b hb Y hYr hYc2
            ⟨FcboObl_mono_pos (show y ≤ t + 1 by omega) hcon.1, hcon.2⟩
        obtain ⟨hT2, hND2⟩ := ih _ out hInv2 hSep2 hrun
        refine ⟨?_, hND2⟩
        intro p hp
        rcases hT2 p hp with hcur | ⟨e, he, hOb⟩
        · exact Or.inl (FcboObl_mono_pos (show y ≤ t + 1 by omega) hcur)
        · exact Or.inr ⟨e, he, hOb⟩

theorem getD_eq_get {A : Type} (l : List A) (j : ℕ) (d : A)
    (h : j < l.length) : l.getD j d = l.get ⟨j, h⟩ := by
  rw [List.getD_eq_getElem?_getD, List.getElem?_eq_getElem h]
  rfl

theorem getD_set_ne {A : Type} (l : List A) (i j : ℕ) (a d : A)
    (h : i ≠ j) : (l.set i a).getD j d = l.getD j d := by
  rw [List.getD_eq_getElem?_getD, List.getD_eq_getElem?_getD,
    List.getElem?_set, if_neg h]

theorem getD_set_self {A : Type} (l : List A) (i : ℕ) (a d : A)
    (h : i < l.length) : (l.set i a).getD i d = a := by
  rw [List.getD_eq_getElem?_getD, List.getElem?_set, if_pos rfl, if_pos h]
  rfl

theorem findIdx?_some_spec {A : Type} (p : A → Bool) (d : A) :
    ∀ (l : List A) (s k : ℕ), List.findIdx? p l s = some k →
      s ≤ k ∧ k - s < l.length ∧ p (l.getD (k - s) d) = true := by
  intro l
  induction l with
  | nil =>
      intro s k h
      rw [List.findIdx?_nil] at h
      exact Option.noConfusion h
  | cons x xs ih =>
      intro s k h
      rw [List.findIdx?_cons] at h
      by_cases hx : p x
      · rw [if_pos hx] at h
        injection h with h2
        subst h2
        refine ⟨le_refl s, by simp, ?_⟩
        rw [Nat.sub_self]
        exact hx
      · rw [if_neg hx] at h
        obtain ⟨h1, h2, h3⟩ := ih (s + 1) k h
        refine ⟨by omega, ?_, ?_⟩
        · simp only [List.length_cons]
          omega
        · have he : k - s = (k - (s + 1)) + 1 := by omega
          rw [he]
          exact h3

theorem findIdx?_isSome_of {A : Type} (p : A → Bool) (d : A) :
    ∀ (l : List A) (s j : ℕ), j < l.length → p (l.getD j d) = true →
      ∃ k, List.findIdx? p l s = some k := by
  intro l
  induction l with
  | nil =>
      intro s j hj _
      simp at hj
  | cons x xs ih =>
      intro s j hj hp
      rw [List.findIdx?_cons]
      by_cases hx : p x
      · exact ⟨s, by rw [if_pos hx]⟩
      · rw [if_neg hx]
        cases j with
        | zero => exact absurd hp hx
        | succ j2 =>
            exact ih (s + 1) j2
              (by simp only [List.length_cons] at hj; omega) hp

theorem sortApply_step_eq (steps index : ℕ)
    (cs : List (Finset ℕ × Finset ℕ)) (order : List (ℕ × ℕ))
    (h : index = (order.getD index (0, 0)).1) :
    sortApply (steps + 1) index cs order =
      sortApply steps (index + 1) cs order := by
  show (if index ≠ (order.getD index (0, 0)).1 then _ else
    sortApply steps (index + 1) cs order) = _
  rw [if_neg (fun hne => hne h)]

theorem sortApply_step_swap (steps index : ℕ)
    (cs : List (Finset ℕ × Finset ℕ)) (order : List (ℕ × ℕ)) (corr : ℕ)
    (h : index ≠ (order.getD index (0, 0)).1)
    (hf : List.findIdx? (fun x => x.1 == index) order = some corr) :
    sortApply (steps + 1) index cs order = sortApply steps (index + 1)
      ((cs.set index (cs.getD ((order.getD index (0, 0)).1) (∅, ∅))).set
        ((order.getD index (0, 0)).1) (cs.getD index (∅, ∅)))
      ((order.set index (0, 0)).set corr ((order.getD index (0, 0)).1, 0)) := by
  show (if index ≠ (order.getD index (0, 0)).1 then
      match List.findIdx? (fun x => x.1 == index) order with
      | none => none
      | some correction => sortApply steps (index + 1)
          ((cs.set index (cs.getD ((order.getD index (0, 0)).1) (∅, ∅))).set
            ((order.getD index (0, 0)).1) (cs.getD index (∅, ∅)))
          ((order.set index (0, 0)).set correction
            ((order.getD index (0, 0)).1, 0))
    else sortApply steps (index + 1) cs order) = _
  rw [if_pos h, hf]

/-- Correctness of the in-place permutation loop: starting from position
`index` with the remaining destinations forming a bijection recorded in
`order`, the loop terminates and places `origin[T[j].1]` at every slot `j`. -/
theorem sortApply_spec (origin : List (Finset ℕ × Finset ℕ))
    (T : List (ℕ × ℕ)) :
    ∀ (steps index : ℕ) (cs : List (Finset ℕ × Finset ℕ))
      (order : List (ℕ × ℕ)),
      index + steps + 1 = origin.length →
      cs.length = origin.length →
      order.length = origin.length →
      (∀ j, j < index → cs.getD j (∅, ∅) =
        origin.getD ((T.getD j (0, 0)).1) (∅, ∅)) →
      (∀ j, j < index → (order.getD j (0, 0)).1 ≤ j) →
      (∀ j, index ≤ j → j < origin.length →
        index ≤ (order.getD j (0, 0)).1 ∧
        (order.getD j (0, 0)).1 < origin.length ∧
        cs.getD ((order.getD j (0, 0)).1) (∅, ∅) =
          origin.getD ((T.getD j (0, 0)).1) (∅, ∅)) →
      (∀ j k, index ≤ j → j < origin.length → index ≤ k →
        k < origin.length →
        (order.getD j (0, 0)).1 = (order.getD k (0, 0)).1 → j = k) →
      ∃ res, sortApply steps index cs order = some res ∧
        res.length = origin.length ∧
        ∀ j, j < origin.length →
          res.getD j (∅, ∅) = origin.getD ((T.getD j (0, 0)).1) (∅, ∅) := by
  intro steps
  induction steps with
  | zero =>
      intro index cs order harith hlc hlo hproc hpslot hlive hinj
      refine ⟨cs, rfl, hlc, ?_⟩
      intro j hj
      have hj2 : j < index + 1 := by omega
      rcases Nat.lt_succ_iff_lt_or_eq.mp hj2 with h | rfl
      · exact hproc j h
      · obtain ⟨ha, hb, hc⟩ := hlive j (le_refl j) (by omega)
        have he : (order.getD j (0, 0)).1 = j := by omega
        rw [he] at hc
        exact hc
  | succ steps ih =>
      intro index cs order harith hlc hlo hproc hpslot hlive hinj
      obtain ⟨hs1, hs2, hs3⟩ := hlive index (le_refl index) (by omega)
      by_cases hsw : index = (order.getD index (0, 0)).1
      · -- the element is already in place
        rw [sortApply_step_eq steps index cs order hsw]
        refine ih (index + 1) cs order (by omega) hlc hlo ?_ ?_ ?_ ?_
        · intro j hj
          rcases Nat.lt_succ_iff_lt_or_eq.mp hj with h | rfl
          · exact hproc j h
          · rw [← hsw] at hs3
            exact hs3
        · intro j hj
          rcases Nat.lt_succ_iff_lt_or_eq.mp hj with h | rfl
          · exact le_trans (hpslot j h) (by omega)
          · omega
        · intro j hj1 hj2
          obtain ⟨ha, hb, hc⟩ := hlive j (by omega) hj2
          refine ⟨?_, hb, hc⟩
          have hne : (order.getD j (0, 0)).1 ≠ index := by
            intro he
            have := hinj j index (by omega) hj2 (le_refl index) (by omega)
              (by omega)
            omega
          omega
        · intro j k hj1 hj2 hk1 hk2 he
          exact hinj j k (by omega) hj2 (by omega) hk2 he
      · -- swap the destined element into place
        have hfind : ∃ corr, List.findIdx? (fun x => x.1 == index) order
            = some corr := by
          have hex : ∃ j0, index ≤ j0 ∧ j0 < origin.length ∧
              (order.getD j0 (0, 0)).1 = index := by
            by_contra hno
            push_neg at hno
            have hmaps : ∀ j ∈ Finset.Ico index origin.length,
                (order.getD j (0, 0)).1 ∈
                  Finset.Ico (index + 1) origin.length := by
              intro j hj
              rw [Finset.mem_Ico] at hj
              obtain ⟨ha, hb, _⟩ := hlive j hj.1 hj.2
              have hne := hno j hj.1 hj.2
              rw [Finset.mem_Ico]
              omega
            have hinjOn : Set.InjOn (fun j => (order.getD j (0, 0)).1)
                (Finset.Ico index origin.length) := by
              intro a ha b hb he
              rw [Finset.coe_Ico, Set.mem_Ico] at ha hb
              exact hinj a b ha.1 ha.2 hb.1 hb.2 he
            have hcard := Finset.card_le_card_of_injOn _ hmaps hinjOn
            rw [Nat.card_Ico, Nat.card_Ico] at hcard
            omega
          obtain ⟨j0, hj01, hj02, hj03⟩ := hex
          refine findIdx?_isSome_of _ (0, 0) order 0 j0 (by omega) ?_
          simp only [beq_iff_eq]
          exact hj03
        obtain ⟨corr, hcorr⟩ := hfind
        obtain ⟨_, hc1, hc2⟩ := findIdx?_some_spec _ (0, 0) order 0 corr hcorr
        simp only [Nat.sub_zero] at hc1 hc2
        rw [beq_iff_eq] at hc2
        have hcorr_lt : corr < origin.length := by omega
        have hcorr_ge : index ≤ corr := by
          by_contra hlt
          have := hpslot corr (by omega)
          omega
        have hcorr_gt : index < corr := by
          rcases Nat.lt_or_ge index corr with h | h
          · exact h
          · exfalso
            have hce : corr = index := by omega
            rw [hce] at hc2
            exact hsw hc2.symm
        rw [sortApply_step_swap steps index cs order corr hsw hcorr]
        have hswgt : index < (order.getD index (0, 0)).1 := by omega
        refine ih (index + 1)
          ((cs.set index (cs.getD ((order.getD index (0, 0)).1) (∅, ∅))).set
            ((order.getD index (0, 0)).1) (cs.getD index (∅, ∅)))
          ((order.set index (0, 0)).set corr ((order.getD index (0, 0)).1, 0))
          (by omega) (by rw [List.length_set, List.length_set]; exact hlc)
          (by rw [List.length_set, List.length_set]; exact hlo) ?_ ?_ ?_ ?_
        · intro j hj
          rcases Nat.lt_succ_iff_lt_or_eq.mp hj with h | rfl
          · rw [getD_set_ne _ _ _ _ _ (by omega),
              getD_set_ne _ _ _ _ _ (by omega)]
            exact hproc j h
          · rw [getD_set_ne _ _ _ _ _ (by omega),
              getD_set_self _ _ _ _ (by omega)]
            exact hs3
        · intro j hj
          rcases Nat.lt_succ_iff_lt_or_eq.mp hj with h | rfl
          · rw [getD_set_ne _ _ _ _ _ (by omega),
              getD_set_ne _ _ _ _ _ (by omega)]
            exact hpslot j h
          · rw [getD_set_ne _ _ _ _ _ (by omega),
              getD_set_self _ _ _ _ (by omega)]
            omega
        · intro j hj1 hj2
          by_cases hjc : j = corr
          · subst hjc
            rw [getD_set_self _ _ _ _ (by rw [List.length_set]; omega)]
            refine ⟨show index + 1 ≤ (order.getD index (0, 0)).1 by omega,
              show (order.getD index (0, 0)).1 < origin.length by omega, ?_⟩
            show ((cs.set index
                (cs.getD ((order.getD index (0, 0)).1) (∅, ∅))).set
              ((order.getD index (0, 0)).1) (cs.getD index (∅, ∅))).getD
                ((order.getD index (0, 0)).1) (∅, ∅) =
              origin.getD ((T.getD j (0, 0)).1) (∅, ∅)
            rw [getD_set_self _ _ _ _ (by rw [List.length_set]; omega)]
            obtain ⟨_, _, hc3⟩ := hlive j (by omega) hj2
            rw [hc2] at hc3
            exact hc3
          · rw [getD_set_ne _ _ _ _ _ (fun he => hjc he.symm),
              getD_set_ne _ _ _ _ _ (by omega)]
            obtain ⟨ha, hb, hc3⟩ := hlive j (by omega) hj2
            have hne1 : (order.getD j (0, 0)).1 ≠ index := by
              intro he
              rw [← hc2] at he
              exact hjc (hinj j corr (by omega) hj2 (by omega) hcorr_lt he)
            have hne2 : (order.getD j (0, 0)).1 ≠
                (order.getD index (0, 0)).1 := by
              intro he
              have := hinj j index (by omega) hj2 (le_refl index) (by omega) he
              omega
            refine ⟨by omega, hb, ?_⟩
            rw [getD_set_ne _ _ _ _ _ (fun he => hne2 he.symm),
              getD_set_ne _ _ _ _ _ (fun he => hne1 he.symm)]
            exact hc3
        · intro j k hj1 hj2 hk1 hk2 he
          by_cases hjc : j = corr
          · subst hjc
            by_cases hkc : k = j
            · exact hkc.symm
            · exfalso
              rw [getD_set_self _ _ _ _ (by rw [List.length_set]; omega),
                getD_set_ne _ _ _ _ _ (fun h2 => hkc h2.symm),
                getD_set_ne _ _ _ _ _ (by omega)] at he
              have := hinj k index (by omega) hk2 (le_refl index) (by omega)
                he.symm
              omega
          · by_cases hkc : k = corr
            · subst hkc
              exfalso
              rw [getD_set_self _ _ _ _ (by rw [List.length_set]; omega),
                getD_set_ne _ _ _ _ _ (fun h2 => hjc h2.symm),
                getD_set_ne _ _ _ _ _ (by omega)] at he
              have := hinj j index (by omega) hj2 (le_refl index) (by omega)
                he
              omega
            · rw [getD_set_ne _ _ _ _ _ (fun h2 => hjc h2.symm),
                getD_set_ne _ _ _ _ _ (by omega),
                getD_set_ne _ _ _ _ _ (fun h2 => hkc h2.symm),
                getD_set_ne _ _ _ _ _ (by omega)] at he
              exact hinj j k (by omega) hj2 (by omega) hk2 he

/-- `sort_lectic_order` on a nonempty list of pairs with in-range intents
succeeds and returns the input rearranged by the weight-sorted index order. -/
theorem sort_lectic_order_eq {T : Type} (c : FormalContext T)
    (l : List (Finset ℕ × Finset ℕ)) (hne : l ≠ [])
    (hr : ∀ pr ∈ l, pr.2 ⊆ Finset.range c.attributes.length) :
    sort_lectic_order c l = some
      (((l.enum.map (fun pr =>
        (pr.1, weight c.attributes.length pr.2.2))).mergeSort
          (fun x y => decide (x.2 ≤ y.2))).map
        (fun pr => l.getD pr.1 (∅, ∅))) := by
  have hn : 0 < l.length := List.length_pos_of_ne_nil hne
  have hTlen : ((l.enum.map (fun pr =>
      (pr.1, weight c.attributes.length pr.2.2))).mergeSort
        (fun x y => decide (x.2 ≤ y.2))).length = l.length := by
    rw [List.length_mergeSort, List.length_map, List.enum_length]
  have hTmem : ∀ e ∈ (l.enum.map (fun pr =>
      (pr.1, weight c.attributes.length pr.2.2))).mergeSort
        (fun x y => decide (x.2 ≤ y.2)), e.1 < l.length := by
    intro e he
    have he2 := (List.mergeSort_perm _ _).subset he
    obtain ⟨pr, hpr, hpe⟩ := List.mem_map.mp he2
    obtain ⟨i, x⟩ := pr
    subst hpe
    exact (List.mem_enum hpr).1
  have hTnodupf : (((l.enum.map (fun pr =>
      (pr.1, weight c.attributes.length pr.2.2))).mergeSort
        (fun x y => decide (x.2 ≤ y.2))).map Prod.fst).Nodup := by
    have h1 : ((l.enum.map (fun pr =>
        (pr.1, weight c.attributes.length pr.2.2))).map Prod.fst) =
        List.range l.length := by
      rw [List.map_map]
      rw [show (Prod.fst ∘ fun pr : ℕ × (Finset ℕ × Finset ℕ) =>
        (pr.1, weight c.attributes.length pr.2.2)) = Prod.fst from rfl]
      exact List.enum_map_fst l
    rw [List.Perm.nodup_iff ((List.mergeSort_perm _ _).map Prod.fst), h1]
    exact List.nodup_range _
  obtain ⟨res, happ, hlen, hpoint⟩ := sortApply_spec l
    ((l.enum.map (fun pr =>
      (pr.1, weight c.attributes.length pr.2.2))).mergeSort
        (fun x y => decide (x.2 ≤ y.2))) (l.length - 1) 0 l
    ((l.enum.map (fun pr =>
      (pr.1, weight c.attributes.length pr.2.2))).mergeSort
        (fun x y => decide (x.2 ≤ y.2)))
    (by omega) rfl hTlen
    (fun j hj => absurd hj (Nat.not_lt_zero j))
    (fun j hj => absurd hj (Nat.not_lt_zero j))
    (by
      intro j _ hj
      have hj2 : j < ((l.enum.map (fun pr =>
          (pr.1, weight c.attributes.length pr.2.2))).mergeSort
            (fun x y => decide (x.2 ≤ y.2))).length := by
        rw [hTlen]
        omega
      refine ⟨Nat.zero_le _, ?_, rfl⟩
      rw [getD_eq_get _ _ _ hj2]
      exact hTmem _ (List.get_mem _ _ _))
    (by
      intro j k hj0 hj hk0 hk he
      by_contra hne2
      have hj4 : j < ((l.enum.map (fun pr =>
          (pr.1, weight c.attributes.length pr.2.2))).mergeSort
            (fun x y => decide (x.2 ≤ y.2))).length := by
        rw [hTlen]
        omega
      have hk4 : k < ((l.enum.map (fun pr =>
          (pr.1, weight c.attributes.length pr.2.2))).mergeSort
            (fun x y => decide (x.2 ≤ y.2))).length := by
        rw [hTlen]
        omega
      have hj3 : j < (((l.enum.map (fun pr =>
          (pr.1, weight c.attributes.length pr.2.2))).mergeSort
            (fun x y => decide (x.2 ≤ y.2))).map Prod.fst).length := by
        rw [List.length_map]
        omega
      have hk3 : k < (((l.enum.map (fun pr =>
          (pr.1, weight c.attributes.length pr.2.2))).mergeSort
            (fun x y => decide (x.2 ≤ y.2))).map Prod.fst).length := by
        rw [List.length_map]
        omega
      rw [getD_eq_get _ _ _ hj4, getD_eq_get _ _ _ hk4] at he
      rcases Nat.lt_or_ge j k with h | h
      · have := List.pairwise_iff_getElem.mp hTnodupf j k hj3 hk3 h
        rw [List.getElem_map, List.getElem_map] at this
        exact this he
      · have hlt : k < j := by omega
        have := List.pairwise_iff_getElem.mp hTnodupf k j hk3 hj3 hlt
        rw [List.getElem_map, List.getElem_map] at this
        exact this he.symm)
  show (if ∀ pr ∈ l, pr.2 ⊆ Finset.range c.attributes.length then
      (if l.length = 0 then none
        else sortApply (l.length - 1) 0 l
          ((l.enum.map (fun pr =>
            (pr.1, weight c.attributes.length pr.2.2))).mergeSort
              (fun x y => decide (x.2 ≤ y.2))))
    else none) = _
  rw [if_pos hr, if_neg (by omega), happ]
  congr 1
  refine List.ext_getElem ?_ ?_
  · rw [hlen, List.length_map, hTlen]
  · intro n2 h1 h2
    have hn2 : n2 < l.length := by
      rw [hlen] at h1
      exact h1
    have hn3 : n2 < ((l.enum.map (fun pr =>
        (pr.1, weight c.attributes.length pr.2.2))).mergeSort
          (fun x y => decide (x.2 ≤ y.2))).length := by
      rw [hTlen]
      omega
    have hp2 := hpoint n2 hn2
    rw [getD_eq_get _ n2 _ h1, getD_eq_get _ n2 _ hn3] at hp2
    rw [List.getElem_map]
    exact hp2

/-- The FCbO output characterized: it succeeds, contains exactly the pairs
of the NextClosure enumeration, and has no duplicates. -/
theorem fcbo_concepts_char {T : Type} {c : FormalContext T}
    (hw : c.WellFormed) :
    ∃ l, fcbo_concepts c = some l ∧
      (∀ p : Finset ℕ × Finset ℕ, p ∈ l ↔ p ∈ concepts c) ∧ l.Nodup := by
  obtain ⟨hP, hM, hE⟩ := concepts_spec hw
  have h0 : (∅ : Finset ℕ) ⊆ Finset.range c.attributes.length :=
    Finset.empty_subset _
  have hB0r : c.index_attribute_hull ∅ ⊆ Finset.range c.attributes.length :=
    (hull_closureOn hw).range_closed ∅ h0
  have hB0c : c.index_attribute_hull (c.index_attribute_hull ∅) =
      c.index_attribute_hull ∅ := (hull_closureOn hw).idem ∅ h0
  have hder : c.index_attribute_derivation (c.index_attribute_hull ∅) =
      c.index_attribute_derivation ∅ :=
    FormalContext.index_attribute_derivation_hull hw
      (fun m hm => absurd hm (Finset.not_mem_empty m))
  have hInv0 : FcboInv c
      ⟨c.index_object_derivation (c.index_attribute_derivation ∅), 0,
        (List.range c.attributes.length).map (fun i => (i, (∅ : Finset ℕ))),
        [], 0⟩ := by
    refine ⟨hB0r, hB0c, ?_, [], [], rfl, rfl,
      (fun e he => absurd he (List.not_mem_nil e)),
      (fun e he => absurd he (List.not_mem_nil e)), ?_⟩
    · intro j _ hj
      exact ⟨∅, deLookup_initMap _ j hj, Or.inl rfl⟩
    · intro e2 he2
      simp at he2
  have hPot0 : fcboPot c.attributes.length
      ⟨c.index_object_derivation (c.index_attribute_derivation ∅), 0,
        (List.range c.attributes.length).map (fun i => (i, (∅ : Finset ℕ))),
        [], 0⟩ ≤
      (c.attributes.length + 2) * (2 ^ (c.attributes.length + 1) + 2) := by
    show (3 * 2 ^ (c.attributes.length - 0) - 2) +
      (([] : List CallingContextEntry).map (fun e =>
        3 * 2 ^ (c.attributes.length - e.inner_index) - 1)).sum ≤
      (c.attributes.length + 2) * (2 ^ (c.attributes.length + 1) + 2)
    simp only [Nat.sub_zero, List.map_nil, List.sum_nil]
    have h1 : 1 ≤ 2 ^ c.attributes.length := Nat.one_le_two_pow
    have h2 : 2 ^ (c.attributes.length + 1) = 2 * 2 ^ c.attributes.length := by
      rw [pow_succ, Nat.mul_comm]
    have h3 : 2 * (2 ^ (c.attributes.length + 1) + 2) ≤
        (c.attributes.length + 2) * (2 ^ (c.attributes.length + 1) + 2) :=
      Nat.mul_le_mul_right _ (by omega)
    omega
  obtain ⟨out, hrun, hsound, hcomp⟩ := fcboRun_spec hw _ _ hInv0 hPot0
  have hSep0 : OblSep c
      ⟨c.index_object_derivation (c.index_attribute_derivation ∅), 0,
        (List.range c.attributes.length).map (fun i => (i, (∅ : Finset ℕ))),
        [], 0⟩ := by
    show ([(c.index_object_derivation (c.index_attribute_derivation ∅), 0)] :
      List (Finset ℕ × ℕ)).Pairwise _
    exact List.pairwise_singleton _ _
  obtain ⟨hT, hND⟩ := fcboRun_nodup hw _ _ out hInv0 hSep0 hrun
  refine ⟨(c.index_attribute_derivation ∅,
    c.index_object_derivation (c.index_attribute_derivation ∅)) :: out,
    ?_, ?_, ?_⟩
  · show (fcboRun c
        ((List.range c.attributes.length).map (fun i => Finset.range i))
        ((c.attributes.length + 2) * (2 ^ (c.attributes.length + 1) + 2))
        ⟨c.index_object_derivation (c.index_attribute_derivation ∅), 0,
          (List.range c.attributes.length).map (fun i => (i, (∅ : Finset ℕ))),
          [], 0⟩).map
      (fun rest => (c.index_attribute_derivation ∅,
        c.index_object_derivation (c.index_attribute_derivation ∅)) ::
          rest) = _
    rw [hrun]
    rfl
  · intro p
    constructor
    · intro hp
      rcases List.mem_cons.mp hp with rfl | hpt
      · have hYm : c.index_object_derivation (c.index_attribute_derivation ∅) ∈
            (concepts c).map Prod.snd := (hM _).mpr ⟨hB0r, hB0c⟩
        obtain ⟨q, hq, hq2⟩ := List.mem_map.mp hYm
        have hq1 : q.1 = c.index_attribute_derivation ∅ := by
          rw [hE q hq, hq2]
          exact hder
        have hqe : q = (c.index_attribute_derivation ∅,
            c.index_object_derivation (c.index_attribute_derivation ∅)) :=
          Prod.ext hq1 hq2
        exact hqe ▸ hq
      · obtain ⟨h1, h2, h3⟩ := hsound p hpt
        have hYm : p.2 ∈ (concepts c).map Prod.snd := (hM _).mpr ⟨h1, h2⟩
        obtain ⟨q, hq, hq2⟩ := List.mem_map.mp hYm
        have hq1 : q = p := Prod.ext (by rw [hE q hq, hq2, ← h3]) hq2
        exact hq1 ▸ hq
    · intro hp
      have hp1 := hE p hp
      obtain ⟨hYr, hYc⟩ := (hM p.2).mp (List.mem_map_of_mem Prod.snd hp)
      rcases eq_or_ne p.2
        (c.index_object_derivation (c.index_attribute_derivation ∅)) with
        he | hne
      · have hpe : p = (c.index_attribute_derivation ∅,
            c.index_object_derivation (c.index_attribute_derivation ∅)) := by
          refine Prod.ext ?_ he
          rw [hp1, he]
          exact hder
        rw [hpe]
        exact List.mem_cons_self _ _
      · have hsub : c.index_object_derivation
            (c.index_attribute_derivation ∅) ⊆ p.2 := by
          have hmono := (hull_closureOn hw).mono h0 hYr
            (Finset.empty_subset p.2)
          rw [hYc] at hmono
          exact hmono
        have hTodo : FcboTodo
            ⟨c.index_object_derivation (c.index_attribute_derivation ∅), 0,
              (List.range c.attributes.length).map
                (fun i => (i, (∅ : Finset ℕ))), [], 0⟩ p.2 :=
          Or.inl ⟨lt_of_le_of_ne hsub (Ne.symm hne), by simp⟩
        obtain ⟨X, hX⟩ := hcomp p.2 hYr hYc hTodo
        have hX3 : X = c.index_attribute_derivation p.2 :=
          (hsound (X, p.2) hX).2.2
        have hpe : p = (X, p.2) := by
          refine Prod.ext ?_ rfl
          rw [hp1, hX3]
        rw [hpe]
        exact List.mem_cons_of_mem _ hX
  · refine List.nodup_cons.mpr ⟨?_, List.Nodup.of_map Prod.snd hND⟩
    intro hmem
    rcases hT _ hmem with hcur | ⟨e, he, _⟩
    · exact (lt_irrefl _) hcur.1
    · exact absurd he (List.not_mem_nil e)

/-- **C3.** For every well-formed formal context, the FCbO iterator
`fcbo_concepts` runs to completion and yields exactly the same set of
extent/intent pairs as the NextClosure iterator `concepts`: each pair is
emitted by one iterator if and only if it is emitted by the other,
irrespective of emission order. -/
theorem fcbo_concepts_set_eq {T : Type} {c : FormalContext T}
    (hw : c.WellFormed) :
    ∃ l, fcbo_concepts c = some l ∧
      ∀ p : Finset ℕ × Finset ℕ, p ∈ l ↔ p ∈ concepts c := by
  obtain ⟨l, h1, h2, _⟩ := fcbo_concepts_char hw
  exact ⟨l, h1, h2⟩

/-- Witness for the FCbO/NextClosure set-equality theorem at a concrete
context. -/
theorem fcbo_concepts_set_eq_witness :
    sampleContext.WellFormed ∧
    (∃ l, fcbo_concepts sampleContext = some l ∧
      ∀ p : Finset ℕ × Finset ℕ, p ∈ l ↔ p ∈ concepts sampleContext) :=
  ⟨by decide, fcbo_concepts_set_eq (by decide)⟩

theorem eq_of_perm_of_pairwise_lt {A : Type} (f : A → ℕ) :
    ∀ (l1 l2 : List A), l1.Perm l2 →
      l1.Pairwise (fun a b => f a < f b) →
      l2.Pairwise (fun a b => f a < f b) → l1 = l2 := by
  intro l1
  induction l1 with
  | nil =>
      intro l2 hp _ _
      exact (List.Perm.eq_nil hp.symm).symm
  | cons a l1 ih =>
      intro l2 hp h1 h2
      cases l2 with
      | nil => exact absurd hp.length_eq (by simp)
      | cons b l2 =>
          have hab : a = b := by
            by_contra hne
            have ha2 : a ∈ l2 := by
              have hm := hp.subset (List.mem_cons_self a l1)
              rcases List.mem_cons.mp hm with h | h
              · exact absurd h hne
              · exact h
            have hb1 : b ∈ l1 := by
              have hm := hp.symm.subset (List.mem_cons_self b l2)
              rcases List.mem_cons.mp hm with h | h
              · exact absurd h.symm hne
              · exact h
            have hfa := (List.pairwise_cons.mp h1).1 b hb1
            have hfb := (List.pairwise_cons.mp h2).1 a ha2
            omega
          subst hab
          rw [ih l2 hp.cons_inv (List.pairwise_cons.mp h1).2
            (List.pairwise_cons.mp h2).2]

/-- **C7.** For every well-formed formal context, collecting the FCbO
iterator's output into a list and applying `sort_lectic_order` — which
reorders by ascending lectic weight of the intent — yields exactly the
sequence the NextClosure iterator `concepts` produces, element for
element. -/
theorem fcbo_sorted_eq_concepts {T : Type} {c : FormalContext T}
    (hw : c.WellFormed) :
    ∃ l, fcbo_concepts c = some l ∧
      sort_lectic_order c l = some (concepts c) := by
  obtain ⟨l, hfc, hiff, hnd⟩ := fcbo_concepts_char hw
  obtain ⟨hP, hM, hE⟩ := concepts_spec hw
  have hcr : ∀ p ∈ concepts c, p.2 ⊆ Finset.range c.attributes.length :=
    fun p hp => ((hM p.2).mp (List.mem_map_of_mem Prod.snd hp)).1
  have hr : ∀ pr ∈ l, pr.2 ⊆ Finset.range c.attributes.length :=
    fun pr hpr => hcr pr ((hiff pr).mp hpr)
  have hlne : l ≠ [] := by
    have h0 : (∅ : Finset ℕ) ⊆ Finset.range c.attributes.length :=
      Finset.empty_subset _
    have hmem : c.index_attribute_hull ∅ ∈ (concepts c).map Prod.snd :=
      (hM _).mpr ⟨(hull_closureOn hw).range_closed ∅ h0,
        (hull_closureOn hw).idem ∅ h0⟩
    obtain ⟨q, hq, _⟩ := List.mem_map.mp hmem
    exact List.ne_nil_of_mem ((hiff q).mpr hq)
  have hndc : (concepts c).Nodup :=
    List.Nodup.of_map Prod.snd (hP.imp (fun h => lecticLt_ne h))
  have hperm : l.Perm (concepts c) :=
    List.perm_of_nodup_nodup_toFinset_eq hnd hndc (by
      ext p
      simp only [List.mem_toFinset]
      exact hiff p)
  have hwlt : (concepts c).Pairwise (fun a b =>
      weight c.attributes.length a.2 < weight c.attributes.length b.2) := by
    have hp2 : (concepts c).Pairwise
        (fun a b => LecticLt a.2 b.2) := List.pairwise_map.mp hP
    exact List.Pairwise.imp_of_mem
      (fun ha hb h => weight_lt_of_lecticLt (hcr _ ha) (hcr _ hb) h) hp2
  have heq := sort_lectic_order_eq c l hlne hr
  set TT := (l.enum.map (fun pr =>
    (pr.1, weight c.attributes.length pr.2.2))).mergeSort
      (fun x y => decide (x.2 ≤ y.2)) with hTT
  have hresperm : (TT.map (fun pr => l.getD pr.1 (∅, ∅))).Perm l := by
    have h1 : (TT.map (fun pr => l.getD pr.1 (∅, ∅))).Perm
        ((l.enum.map (fun pr =>
          (pr.1, weight c.attributes.length pr.2.2))).map
            (fun pr => l.getD pr.1 (∅, ∅))) :=
      (List.mergeSort_perm _ _).map _
    have h2 : ((l.enum.map (fun pr =>
        (pr.1, weight c.attributes.length pr.2.2))).map
          (fun pr => l.getD pr.1 (∅, ∅))) = l := by
      rw [List.map_map]
      have h3 : ∀ pr ∈ l.enum, ((fun pr => l.getD pr.1 (∅, ∅)) ∘
          (fun pr : ℕ × (Finset ℕ × Finset ℕ) =>
            (pr.1, weight c.attributes.length pr.2.2))) pr =
          Prod.snd pr := by
        intro pr hpr
        obtain ⟨i, x⟩ := pr
        have hm := List.mem_enum hpr
        show l.getD i (∅, ∅) = x
        have hi : i < l.length := hm.1
        rw [getD_eq_get _ _ _ hi]
        exact hm.2.symm
      rw [List.map_congr_left h3, List.enum_map_snd]
    rw [h2] at h1
    exact h1
  have hresperm2 : (TT.map (fun pr => l.getD pr.1 (∅, ∅))).Perm (concepts c) :=
    hresperm.trans hperm
  have hTsorted : TT.Pairwise (fun x y : ℕ × ℕ => x.2 ≤ y.2) := by
    have htr : ∀ (a b c2 : ℕ × ℕ),
        (fun x y : ℕ × ℕ => decide (x.2 ≤ y.2)) a b = true →
        (fun x y : ℕ × ℕ => decide (x.2 ≤ y.2)) b c2 = true →
        (fun x y : ℕ × ℕ => decide (x.2 ≤ y.2)) a c2 = true := by
      intro a b c2 h1 h2
      simp only [decide_eq_true_eq] at h1 h2 ⊢
      omega
    have hto : ∀ (a b : ℕ × ℕ),
        ((fun x y : ℕ × ℕ => decide (x.2 ≤ y.2)) a b ||
          (fun x y : ℕ × ℕ => decide (x.2 ≤ y.2)) b a) = true := by
      intro a b
      simp only [decide_eq_true_eq, Bool.or_eq_true]
      omega
    have hs := List.sorted_mergeSort htr hto (l.enum.map (fun pr =>
      (pr.1, weight c.attributes.length pr.2.2)))
    exact hs.imp (fun h => of_decide_eq_true h)
  have hwe : ∀ e ∈ TT, weight c.attributes.length
      ((l.getD e.1 (∅, ∅)).2) = e.2 := by
    intro e he
    have he2 := (List.mergeSort_perm _ _).subset
      (show e ∈ (l.enum.map (fun pr =>
        (pr.1, weight c.attributes.length pr.2.2))).mergeSort
          (fun x y => decide (x.2 ≤ y.2)) from he)
    obtain ⟨pr, hpr, hpe⟩ := List.mem_map.mp he2
    obtain ⟨i, x⟩ := pr
    subst hpe
    have hm := List.mem_enum hpr
    show weight c.attributes.length ((l.getD i (∅, ∅)).2) =
      weight c.attributes.length x.2
    have hi : i < l.length := hm.1
    rw [getD_eq_get _ _ _ hi]
    rw [show l.get ⟨i, hi⟩ = x from hm.2.symm]
  have hresle : (TT.map (fun pr => l.getD pr.1 (∅, ∅))).Pairwise
      (fun a b => weight c.attributes.length a.2 ≤
        weight c.attributes.length b.2) := by
    rw [List.pairwise_map]
    exact List.Pairwise.imp_of_mem
      (fun hx hy h => by
        rw [← hwe _ hx, ← hwe _ hy] at h
        exact h) hTsorted
  have hresne : (TT.map (fun pr => l.getD pr.1 (∅, ∅))).Pairwise
      (fun a b => weight c.attributes.length a.2 ≠
        weight c.attributes.length b.2) := by
    have h1 : ((TT.map (fun pr => l.getD pr.1 (∅, ∅))).map
        (fun p => weight c.attributes.length p.2)).Perm
        ((concepts c).map (fun p => weight c.attributes.length p.2)) :=
      hresperm2.map _
    have h2 : ((concepts c).map
        (fun p => weight c.attributes.length p.2)).Pairwise
        (fun a b => a ≠ b) := by
      rw [List.pairwise_map]
      exact hwlt.imp (fun h => by omega)
    have h3 : ((TT.map (fun pr => l.getD pr.1 (∅, ∅))).map
        (fun p => weight c.attributes.length p.2)).Pairwise
        (fun a b => a ≠ b) := (List.Perm.nodup_iff h1).mpr h2
    rw [List.pairwise_map] at h3
    exact h3
  have hreslt : (TT.map (fun pr => l.getD pr.1 (∅, ∅))).Pairwise
      (fun a b => weight c.attributes.length a.2 <
        weight c.attributes.length b.2) :=
    (hresle.and hresne).imp (fun h => lt_of_le_of_ne h.1 h.2)
  have hfinal : TT.map (fun pr => l.getD pr.1 (∅, ∅)) = concepts c :=
    eq_of_perm_of_pairwise_lt (fun p => weight c.attributes.length p.2)
      _ _ hresperm2 hreslt hwlt
  exact ⟨l, hfc, by rw [heq, hfinal]⟩

/-- Witness for the sorted-FCbO/NextClosure theorem at a concrete context. -/
theorem fcbo_sorted_eq_concepts_witness :
    sampleContext.WellFormed ∧
    (∃ l, fcbo_concepts sampleContext = some l ∧
      sort_lectic_order sampleContext l = some (concepts sampleContext)) :=
  ⟨by decide, fcbo_sorted_eq_concepts (by decide)⟩

end Odis
